import Mathlib

/-!
# cycfi/elements: index utilities, list mutation, composites, contexts, child windows

A shallow embedding of the parts of the `elements` GUI toolkit that the
testable properties of the specification talk about, with the properties
stated and proved over it.

* `std::vector<T>` is a `List T`; `std::size_t` values are `Nat` (in the index
  utilities the only decrement is guarded by `pos > *i`, so no wrap-around
  occurs there).
* Indexing or erasing past the end of a vector is undefined behaviour in the
  source; the embedding returns `none` there.
* Coordinates are `float` in the source. The functions of the embedding take
  any linearly ordered coordinate type with operations of which no law is
  assumed, so what is proved of them holds of floats as long as no NaN occurs.
  The type `float` models the finite values of binary32 with rounding to
  nearest, ties to even; the functions are evaluated at it where rounding
  matters. A property that needs exact arithmetic is stated with a valuation
  `val`, the exact value of a coordinate, under the premise that the operations
  involved are exact.
* `elem.span()-1` in the grids is computed on `unsigned` and wraps for a span
  of 0; the grid index is a `std::size_t` and wraps at `2^64`.
* Functions whose bodies are not among the sources are modelled from the
  specification; their doc comments say so.
* For the traversal utilities an element is a proxy (it has a subject), an
  indirect element (it has a target) or neither, nestings are finite, and a
  pointer comparison is a comparison of addresses.
-/

namespace cycfi.elements

universe u

variable {T : Type u}

/-! ## `list.hpp`: `erase_indices` and `move_indices` -/

/-- The loop of `erase_indices`, over the indices in the order the loop visits
them (`crbegin` to `crend`): each step is `v.erase(v.begin()+*i)`. -/
def erase_loop : List Nat → List T → Option (List T)
  | [], v => some v
  | i :: rest, v => if i < v.length then erase_loop rest (v.eraseIdx i) else none

/-- Utility to erase items in a vector `v` with given `indices`
(`list.hpp`, `erase_indices`). -/
def erase_indices (v : List T) (indices : List Nat) : Option (List T) :=
  erase_loop indices.reverse v

/-- The loop of `move_indices`, over the indices in the order the loop visits
them. The state is `(v, pos, to_move)`; one step does
`to_move.push_back(std::move(v[*i])); v.erase(v.begin()+*i); if (pos > *i) --pos;`. -/
def move_loop : List Nat → List T → Nat → List T → Option (List T × Nat × List T)
  | [], v, pos, to_move => some (v, pos, to_move)
  | i :: rest, v, pos, to_move =>
    if h : i < v.length then
      move_loop rest (v.eraseIdx i) (if pos > i then pos - 1 else pos) (to_move ++ [v[i]])
    else none

/-- The tail of `move_indices`: `pos_i = v.begin() + std::min(pos, v.size())`
followed by `v.insert(pos_i, to_move.crbegin(), to_move.crend())`. -/
def move_finish (s : List T × Nat × List T) : List T :=
  let p := min s.2.1 s.1.length
  s.1.take p ++ s.2.2.reverse ++ s.1.drop p

/-- Utility to move items in a vector `v` from given `indices` to a new
position, `pos` (`list.hpp`, `move_indices`). -/
def move_indices (v : List T) (pos : Nat) (indices : List Nat) : Option (List T) :=
  (move_loop indices.reverse v pos []).map move_finish

/-! ### Specification vocabulary for the index utilities -/

/-- The elements of `v` whose original position satisfies `P`, in their
original relative order. -/
def pick (P : Nat → Bool) (v : List T) : List T :=
  (v.enum.filter (fun p => P p.1)).map Prod.snd

/-- The same selection as `pick`, by recursion, for a list whose first element
has position `n`. -/
def pickFrom (P : Nat → Bool) : Nat → List T → List T
  | _, [] => []
  | n, x :: xs => if P n then x :: pickFrom P (n + 1) xs else pickFrom P (n + 1) xs

/-- The relative-order property of `move_indices(v, pos, I)`: every element of
`v` is tagged with its original index; the call returns, and in its result the
moved elements (tag in `I`) appear in the order they had in `v`, and so do the
elements that were not moved (tag not in `I`). The untagged call returns the
same vector without the tags. -/
def keeps_relative_order (v : List T) (pos : Nat) (I : List Nat) : Prop :=
  ∃ w : List (Nat × T),
    move_indices v.enum pos I = some w ∧
    move_indices v pos I = some (w.map Prod.snd) ∧
    w.filter (fun p => decide (p.1 ∈ I)) = v.enum.filter (fun p => decide (p.1 ∈ I)) ∧
    w.filter (fun p => decide (p.1 ∉ I)) = v.enum.filter (fun p => decide (p.1 ∉ I))

/-! ## `list.hpp`: the deferred mutation protocol of `list` -/

/-- The pending mutation batch, `list::request_info` (`list.hpp`). -/
structure request_info where
  _move_pos : Nat
  _move_indices : List Nat
  _insert_pos : Nat
  _insert_num_items : Nat
  _delete_indices : List Nat
  deriving DecidableEq, Repr

/-- The members of `list` (`list.hpp`) that the mutation protocol reads and
writes: the cells, the three request flags and the pending `request_info`
(a `unique_ptr`, here an `Option`). -/
structure list (C : Type u) where
  _cells : List C
  _move_request : Bool
  _insert_request : Bool
  _erase_request : Bool
  _request_info : Option request_info

/-- Modelled from the spec: `std::make_unique<request_info>()` in `list.cpp`,
which is not among the sources; a value-initialised `request_info`. -/
def request_info.make : request_info :=
  { _move_pos := 0, _move_indices := [], _insert_pos := 0, _insert_num_items := 0,
    _delete_indices := [] }

/-- Modelled from the spec: `list::move(pos, indices)` of `list.cpp`, which is
not among the sources. The call records its intent into the single pending
`request_info` and raises `_move_request`; the cells are not touched. -/
def list.move {C : Type u} (l : list C) (pos : Nat) (indices : List Nat) : list C :=
  { l with
    _request_info := some { l._request_info.getD request_info.make with
      _move_pos := pos, _move_indices := indices }
    _move_request := true }

/-- Modelled from the spec: `list::insert(pos, num_items)` of `list.cpp`, which
is not among the sources. The call records its intent into the single pending
`request_info` and raises `_insert_request`; the cells are not touched. -/
def list.insert {C : Type u} (l : list C) (pos : Nat) (num_items : Nat) : list C :=
  { l with
    _request_info := some { l._request_info.getD request_info.make with
      _insert_pos := pos, _insert_num_items := num_items }
    _insert_request := true }

/-- Modelled from the spec: `list::erase(indices)` of `list.cpp`, which is not
among the sources. The call records its intent into the single pending
`request_info` and raises `_erase_request`; the cells are not touched. -/
def list.erase {C : Type u} (l : list C) (indices : List Nat) : list C :=
  { l with
    _request_info := some { l._request_info.getD request_info.make with
      _delete_indices := indices }
    _erase_request := true }

/-- Modelled from the spec: the insertion of `num_items` new cells at `pos`
that the layout pass performs for a recorded insert (`list.cpp`, not among the
sources). `fresh` is the content of a new cell; a position past the end is
outside the domain of `std::vector::insert`. -/
def insert_cells {C : Type u} (fresh : C) (cells : List C) (pos num_items : Nat) :
    Option (List C) :=
  if pos ≤ cells.length then
    some (cells.take pos ++ List.replicate num_items fresh ++ cells.drop pos)
  else none

/-- Modelled from the spec: `list::sync` of `list.cpp`, which is not among the
sources; the step of the layout/update pass that applies the pending requests
"in a fixed order, erase, then insert, then move", and leaves no request
pending. -/
def list.sync {C : Type u} (fresh : C) (l : list C) : Option (list C) :=
  let info := l._request_info.getD request_info.make
  (if l._erase_request then erase_indices l._cells info._delete_indices
    else some l._cells).bind fun c1 =>
  (if l._insert_request then insert_cells fresh c1 info._insert_pos info._insert_num_items
    else some c1).bind fun c2 =>
  (if l._move_request then move_indices c2 info._move_pos info._move_indices
    else some c2).bind fun c3 =>
  some { _cells := c3, _move_request := false, _insert_request := false,
         _erase_request := false, _request_info := none }

/-- A mutation request issued by a caller between two layout passes. -/
inductive list_request where
  | move (pos : Nat) (indices : List Nat)
  | insert (pos : Nat) (num_items : Nat)
  | erase (indices : List Nat)
  deriving DecidableEq, Repr

/-- Issue one request on the list: the public `move`, `insert` or `erase`. -/
def list.issue {C : Type u} (l : list C) : list_request → list C
  | .move pos indices => l.move pos indices
  | .insert pos num_items => l.insert pos num_items
  | .erase indices => l.erase indices

/-- The structural change the specification promises for a batch: the recorded
erase, then the insert, then the move, applied to the sequence `cells`. -/
def erase_insert_move {C : Type u} (fresh : C) (cells : List C)
    (delete_indices : List Nat) (insert_pos insert_num_items : Nat)
    (move_pos : Nat) (move_indices_ : List Nat) : Option (List C) :=
  (erase_indices cells delete_indices).bind fun c1 =>
  (insert_cells fresh c1 insert_pos insert_num_items).bind fun c2 =>
  move_indices c2 move_pos move_indices_

/-! ## Geometry and contexts -/

/-- Modelled from the spec: `point{x,y}` (`support/point.hpp`, not among the
sources), over any coordinate type. -/
structure point (α : Type) where
  x : α
  y : α
  deriving DecidableEq, Repr

/-- Modelled from the spec: `rect{left,top,right,bottom}` (`support/rect.hpp`,
not among the sources), over any coordinate type. -/
structure rect (α : Type) where
  left : α
  top : α
  right : α
  bottom : α
  deriving DecidableEq, Repr

/-- Modelled from the spec: `view_limits{min,max}`, two points bounding the
allowed size. -/
structure view_limits (α : Type) where
  min : point α
  max : point α
  deriving DecidableEq, Repr

variable {α : Type}

/-- Modelled from the spec: `rect::width()`. -/
def rect.width [Sub α] (r : rect α) : α := r.right - r.left

/-- Modelled from the spec: `rect::height()`. -/
def rect.height [Sub α] (r : rect α) : α := r.bottom - r.top

/-- Modelled from the spec: `rect::includes(p)`, the point lies within the
rectangle. -/
def rect.includes [LinearOrder α] (r : rect α) (p : point α) : Bool :=
  decide (r.left ≤ p.x) && decide (p.x ≤ r.right) &&
    decide (r.top ≤ p.y) && decide (p.y ≤ r.bottom)

/-- The members of `context` (`context.hpp`) that the window resizer and the
window mover read: the bounds and the inherited `enabled` flag. -/
structure context (α : Type) where
  bounds : rect α
  enabled : Bool

/-! ## `composite.hpp`: the composite base -/

/-- `element::focus_request` (`element.hpp`). -/
inductive focus_request where
  | from_top
  | from_bottom
  | restore_previous
  deriving DecidableEq, Repr

/-- A call the composite makes to a child's focus lifecycle: `end_focus()` or
`begin_focus(req)` on the child at index `ix`. -/
inductive focus_call where
  | end_focus (ix : Nat)
  | begin_focus (ix : Nat) (req : focus_request)
  deriving DecidableEq, Repr

/-- Modelled from the spec: a child element as the element protocol describes
it, by its capability queries `wants_control()`, `wants_focus()` and
`is_enabled()`. -/
structure child_element where
  wants_control : Bool
  wants_focus : Bool
  is_enabled : Bool
  deriving DecidableEq, Repr

/-- The state of `composite_base` (`composite.hpp`) that the focus functions
use: the children behind `size()` and `at(ix)`, the member `_focus` (`-1` for
none), and the trace of the focus calls made to the children so far. -/
structure composite_base where
  children : List child_element
  _focus : Int
  calls : List focus_call

/-- `container::size()`. -/
def composite_base.size (c : composite_base) : Nat := c.children.length

/-- Modelled from the spec: ending the focus of the current holder, if any: the
child at `_focus` receives `end_focus()`. -/
def composite_base.end_previous (c : composite_base) : composite_base :=
  if c._focus = -1 then c
  else { c with calls := c.calls ++ [focus_call.end_focus c._focus.toNat] }

/-- Modelled from the spec: `composite_base::new_focus` (`composite.cpp` is not
among the sources): it "validates the target accepts focus (`wants_focus()`),
ends focus on the previous holder, begins focus on the new holder"; an index
outside `[0, size())` is rejected. The flag tells whether focus was moved. -/
def composite_base.new_focus (c : composite_base) (index : Int) (req : focus_request) :
    composite_base × Bool :=
  if 0 ≤ index ∧ index.toNat < c.size ∧
      (c.children[index.toNat]?).any (fun e => e.wants_focus) then
    ({ c.end_previous with
        _focus := index
        calls := c.end_previous.calls ++ [focus_call.begin_focus index.toNat req] }, true)
  else (c, false)

/-- Modelled from the spec: `relinquish_focus(c, ctx)` (`composite.cpp` is not
among the sources), which clears the focus of the composite: the holder, if
any, receives `end_focus()` and `_focus` becomes `-1`. -/
def relinquish_focus (c : composite_base) : composite_base :=
  { c.end_previous with _focus := -1 }

/-- A change of the child sequence. `composite<Container, Base>`
(`composite.hpp`) inherits the container publicly, so that the mutators of
`std::vector` (`push_back`, `pop_back`, `erase`, `clear`, assignment) act on
the children of a `vector_composite`; they do not reach `_focus`, a private
member of `composite_base`, which stays as it is. -/
def composite_base.set_children (c : composite_base) (children : List child_element) :
    composite_base :=
  { c with children := children }

/-- The states a composite reaches from a fresh one (no focus, no call made)
through `new_focus`, `relinquish_focus` and changes of the child sequence made
while no child holds focus. -/
inductive composite_base.reachable : composite_base → Prop where
  | fresh (children : List child_element) :
      composite_base.reachable { children := children, _focus := -1, calls := [] }
  | new_focus (c : composite_base) (index : Int) (req : focus_request) :
      composite_base.reachable c → composite_base.reachable (c.new_focus index req).1
  | relinquish (c : composite_base) :
      composite_base.reachable c → composite_base.reachable (relinquish_focus c)
  | set_children (c : composite_base) (children : List child_element) :
      composite_base.reachable c → c._focus = -1 →
      composite_base.reachable (c.set_children children)

/-- Modelled from the spec: the handle bitmask of `window_resizer_tracker_info`
(`child_window.hpp` is not among the sources), a "bitmask of
left/right/top/bottom"; one flag per bit. -/
structure resize_handle where
  left : Bool
  right : Bool
  top : Bool
  bottom : Bool
  deriving DecidableEq, Repr

/-- The test `state->_handle` of a bitmask: some bit is set. -/
def resize_handle.nonzero (h : resize_handle) : Bool :=
  h.left || h.right || h.top || h.bottom

/-- The members of `tracker_info` that `keep_tracking` reads. -/
structure tracker_info (α : Type) where
  current : point α
  previous : point α

/-- The first half of the body of `window_resizer_element::keep_tracking`
under `state && state->_handle` (`child_window.cpp`): starting from
`b = fl->bounds()`, the dragged edges take the pointer position `p`. The width
and height of the result are the proposed width and height. -/
def drag_edges (handle : resize_handle) (p : point α) (ob : rect α) : rect α :=
  let b := ob
  let b := if handle.left then { b with left := p.x }
    else if handle.right then { b with right := p.x } else b
  let b := if handle.top then { b with top := p.y }
    else if handle.bottom then { b with bottom := p.y } else b
  b

/-- The body of `window_resizer_element::keep_tracking` under
`state && state->_handle` (`child_window.cpp`): the dragged edges take the
pointer position `p`, then width and height are checked against `limits` and a
violating edge is set back to its value in `ob`. Returns the final `b`. -/
def resize_bounds [LinearOrder α] [Sub α] (handle : resize_handle) (p : point α)
    (ob : rect α) (limits : view_limits α) : rect α :=
  let b := drag_edges handle p ob
  let width := b.width
  let height := b.height
  let b := if width < limits.min.x ∨ width > limits.max.x then
      (if handle.left then { b with left := ob.left }
        else if handle.right then { b with right := ob.right } else b)
    else b
  let b := if height < limits.min.y ∨ height > limits.max.y then
      (if handle.top then { b with top := ob.top }
        else if handle.bottom then { b with bottom := ob.bottom } else b)
    else b
  b

/-- The size of `r` is within `limits`: width in `[min.x, max.x]` and height in
`[min.y, max.y]`. -/
def within_limits [LinearOrder α] [Sub α] (r : rect α) (limits : view_limits α) : Prop :=
  limits.min.x ≤ r.width ∧ r.width ≤ limits.max.x ∧
    limits.min.y ≤ r.height ∧ r.height ≤ limits.max.y

/-- `window_resizer_element::keep_tracking` (`child_window.cpp`). `fl` is the
bounds of the floating element found by `find_parent` (`none` when there is
none), `state` the handle of `get_state()` (`none` for a null state) and
`limits` the value of `fl->subject().limits(ctx)`. Returns the bounds of the
floating element after the step and whether `view.refresh()` was called. -/
def keep_tracking [LinearOrder α] [Sub α] (track_info : tracker_info α)
    (fl : Option (rect α)) (state : Option resize_handle) (limits : view_limits α) :
    Option (rect α) × Bool :=
  if track_info.current ≠ track_info.previous then
    match fl with
    | some ob =>
      match state with
      | some handle =>
        if handle.nonzero then
          let b := resize_bounds handle track_info.current ob limits
          if b ≠ ob then (some b, true) else (some ob, false)
        else (some ob, false)
      | none => (some ob, false)
    | none => (none, false)
  else (fl, false)

/-- A sample floating window, `[0,100] x [0,100]`. -/
def sample_window : rect Int := { left := 0, top := 0, right := 100, bottom := 100 }

/-- Sample limits: at least `50 x 50`, at most `1000 x 1000`. -/
def sample_limits : view_limits Int :=
  { min := { x := 50, y := 50 }, max := { x := 1000, y := 1000 } }

/-- A sample drag of the top-left corner to `(80, 20)`. -/
def sample_drag : tracker_info Int :=
  { current := { x := 80, y := 20 }, previous := { x := 0, y := 0 } }

/-- The top-left corner handle. -/
def top_left_handle : resize_handle :=
  { left := true, right := false, top := true, bottom := false }

/-! ## Index safety of the index utilities -/

/-- The iterations of the loop of `erase_indices`, over the indices in the order
the loop visits them: for each one the index erased and the size of the vector
at that moment. -/
def erase_steps : List Nat → List T → List (Nat × Nat)
  | [], _ => []
  | i :: rest, v => (i, v.length) :: erase_steps rest (v.eraseIdx i)

/-- The iterations of the loop of `move_indices`, over the indices in the order
the loop visits them: for each one the index read and erased, the size of the
vector and the value of `pos` at that moment. -/
def move_steps : List Nat → List T → Nat → List (Nat × Nat × Nat)
  | [], _, _ => []
  | i :: rest, v, pos =>
    (i, v.length, pos) :: move_steps rest (v.eraseIdx i) (if pos > i then pos - 1 else pos)

/-- The loop of `move_indices` on a `std::size_t` target of 64 bits: the
decrement `--pos` wraps around, `0 - 1` being `2^64 - 1`. -/
def move_loop_wrapping : List Nat → List T → Nat → List T → Option (List T × Nat × List T)
  | [], v, pos, to_move => some (v, pos, to_move)
  | i :: rest, v, pos, to_move =>
    if h : i < v.length then
      move_loop_wrapping rest (v.eraseIdx i)
        (if pos > i then (pos + (2 ^ 64 - 1)) % 2 ^ 64 else pos) (to_move ++ [v[i]])
    else none

/-! ## `composite.hpp`: `composite` and `range_composite` -/

/-- `composite<Container, Base>` (`composite.hpp`): the backing container of
element handles, a `std::vector` or `std::array`. -/
structure composite (E : Type) where
  container : List E

/-- `composite<Container, Base>::size()`: `Container::size()`. -/
def composite.size {E : Type} (c : composite E) : Nat := c.container.length

/-- `composite<Container, Base>::at(ix)`: `*(*this)[ix].get()`; indexing past
the end is undefined in the source, `none` here. -/
def composite.at {E : Type} (c : composite E) (ix : Nat) : Option E := c.container[ix]?

/-- `range_composite<Base>` (`composite.hpp`): a window `[_first, _last)` on a
container; the members are `std::size_t`. -/
structure range_composite (E : Type) where
  _first : Nat
  _last : Nat
  _container : composite E

/-- `range_composite<Base>::size()`: `_last - _first` on `std::size_t`, which
wraps around modulo `2^64`. -/
def range_composite.size {E : Type} (r : range_composite E) : Nat :=
  (r._last + 2 ^ 64 - r._first) % 2 ^ 64

/-- `range_composite<Base>::at(ix)`: `_container.at(_first + ix)`, the sum
taken on `std::size_t`. -/
def range_composite.at {E : Type} (r : range_composite E) (ix : Nat) : Option E :=
  r._container.at ((r._first + ix) % 2 ^ 64)

/-! ## `context.hpp` and `traversal.hpp`: the context chain and its searches -/

/-- An element as the traversal utilities see it: its address (what a pointer
comparison compares), its dynamic class `cls` (what a `dynamic_cast` tests),
and whether it is a proxy with a subject (`proxy_base::subject()`), an indirect
element with a target (`indirect_base::get()`), or neither. -/
inductive element_node (K : Type) where
  | plain (addr : Nat) (cls : K)
  | proxy (addr : Nat) (cls : K) (subject : element_node K)
  | indirect (addr : Nat) (cls : K) (target : element_node K)
  deriving DecidableEq, Repr

/-- The address of an element. -/
def element_node.addr {K : Type} : element_node K → Nat
  | .plain a _ => a
  | .proxy a _ _ => a
  | .indirect a _ _ => a

/-- The dynamic class of an element. -/
def element_node.cls {K : Type} : element_node K → K
  | .plain _ k => k
  | .proxy _ k _ => k
  | .indirect _ k _ => k

/-- The members of `context` (`context.hpp`) other than the parent link: `view`
and `canvas` of `basic_context`, `element` (`none` for `nullptr`), `bounds`
and `enabled`. -/
structure context_data (V C K α : Type) where
  view : V
  canvas : C
  element : Option (element_node K)
  bounds : rect α
  enabled : Bool

/-- A `context` with its chain of parents (`context.hpp`): `parent` is null at
`root` and points to the parent context at `child`. -/
inductive linked_context (V C K α : Type) where
  | root (data : context_data V C K α)
  | child (data : context_data V C K α) (parent : linked_context V C K α)

variable {V C K : Type}

/-- The members of a context. -/
def linked_context.data : linked_context V C K α → context_data V C K α
  | .root d => d
  | .child d _ => d

/-- The member `context::parent`. -/
def linked_context.parent : linked_context V C K α → Option (linked_context V C K α)
  | .root _ => none
  | .child _ p => some p

/-- The test `element && is_enabled(*element)` of the constructors of
`context`; `is_enabled(e)` is `e.is_enabled()` (`composite.hpp`), a virtual
call, here the function `enabled_of`. -/
def element_enabled (enabled_of : element_node K → Bool) : Option (element_node K) → Bool
  | none => false
  | some e => enabled_of e

/-- The constructor `context(context const& parent_, element* element_, rect bounds_)`
(`context.hpp`). -/
def linked_context.make_child (enabled_of : element_node K → Bool)
    (parent_ : linked_context V C K α) (element_ : Option (element_node K))
    (bounds_ : rect α) : linked_context V C K α :=
  .child
    { view := parent_.data.view, canvas := parent_.data.canvas, element := element_,
      bounds := bounds_,
      enabled := parent_.data.enabled && element_enabled enabled_of element_ }
    parent_

/-- The constructor
`context(view& view_, canvas& canvas_, element* element_, rect bounds_)`
(`context.hpp`), which builds a root context. -/
def linked_context.make_root (enabled_of : element_node K → Bool) (view_ : V) (canvas_ : C)
    (element_ : Option (element_node K)) (bounds_ : rect α) : linked_context V C K α :=
  .root
    { view := view_, canvas := canvas_, element := element_, bounds := bounds_,
      enabled := element_enabled enabled_of element_ }

/-- `context::sub_context()` (`context.hpp`): a copy of the context whose parent
is the context itself. -/
def linked_context.sub_context (c : linked_context V C K α) : linked_context V C K α :=
  .child c.data c

/-- The contexts built by the two constructors that take an element. -/
inductive linked_context.constructed (enabled_of : element_node K → Bool) :
    linked_context V C K α → Prop where
  | root (view_ : V) (canvas_ : C) (element_ : Option (element_node K)) (bounds_ : rect α) :
      linked_context.constructed enabled_of
        (linked_context.make_root enabled_of view_ canvas_ element_ bounds_)
  | child (parent_ : linked_context V C K α) (element_ : Option (element_node K))
      (bounds_ : rect α) :
      linked_context.constructed enabled_of parent_ →
      linked_context.constructed enabled_of
        (linked_context.make_child enabled_of parent_ element_ bounds_)

/-- The context itself followed by its ancestors, nearest first. -/
def linked_context.self_and_ancestors :
    linked_context V C K α → List (linked_context V C K α)
  | .root d => [.root d]
  | .child d p => .child d p :: p.self_and_ancestors

/-- The strict ancestors of a context, nearest first. -/
def linked_context.ancestors (c : linked_context V C K α) : List (linked_context V C K α) :=
  match c.parent with
  | none => []
  | some p => p.self_and_ancestors

/-- `detail::find_element_impl<Ptr>` (`traversal.hpp`) on a non-null element;
`is_T` tells of a class whether `dynamic_cast<Ptr>` succeeds. -/
def find_element_impl (is_T : K → Bool) : element_node K → Option (element_node K)
  | .plain a k => if is_T k then some (.plain a k) else none
  | .proxy a k s => if is_T k then some (.proxy a k s) else none
  | .indirect a k t => if is_T k then some (.indirect a k t) else find_element_impl is_T t

/-- `detail::find_element_impl<Ptr>` on a pointer: both casts of a null pointer
fail. -/
def find_element_ptr (is_T : K → Bool) (e_ : Option (element_node K)) :
    Option (element_node K) :=
  e_.bind (find_element_impl is_T)

/-- The loop `while (proxy)` of `find_subject<Ptr>` (`traversal.hpp`). -/
def find_subject (is_T : K → Bool) : element_node K → Option (element_node K)
  | .plain _ _ => none
  | .indirect _ _ _ => none
  | .proxy _ _ s =>
    match find_element_impl is_T s with
    | some e => some e
    | none => find_subject is_T s

/-- `find_element<Ptr>` (`traversal.hpp`). -/
def find_element (is_T : K → Bool) (e_ : element_node K) : Option (element_node K) :=
  match find_element_impl is_T e_ with
  | some e => some e
  | none => find_subject is_T e_

/-- The loop `while (p)` of `find_parent<Ptr>` (`traversal.hpp`), entered with
a non-null `p`. -/
def find_parent_loop (is_T : K → Bool) : linked_context V C K α → Option (element_node K)
  | .root d => find_element_ptr is_T d.element
  | .child d p =>
    match find_element_ptr is_T d.element with
    | some e => some e
    | none => find_parent_loop is_T p

/-- `find_parent<Ptr>(ctx)` (`traversal.hpp`). -/
def find_parent (is_T : K → Bool) (ctx : linked_context V C K α) : Option (element_node K) :=
  match ctx.parent with
  | none => none
  | some p => find_parent_loop is_T p

/-- The loop `while (p)` of `find_parent_context<Ptr>` (`traversal.hpp`),
entered with a non-null `p`. -/
def find_parent_context_loop (is_T : K → Bool) :
    linked_context V C K α → Option (linked_context V C K α)
  | .root d =>
    match find_element_ptr is_T d.element with
    | some _ => some (.root d)
    | none => none
  | .child d p =>
    match find_element_ptr is_T d.element with
    | some _ => some (.child d p)
    | none => find_parent_context_loop is_T p

/-- `find_parent_context<Ptr>(ctx)` (`traversal.hpp`). -/
def find_parent_context (is_T : K → Bool) (ctx : linked_context V C K α) :
    Option (linked_context V C K α) :=
  match ctx.parent with
  | none => none
  | some p => find_parent_context_loop is_T p

/-- The element followed by the targets reached through indirect elements. -/
def element_node.indirect_chain : element_node K → List (element_node K)
  | .plain a k => [.plain a k]
  | .proxy a k s => [.proxy a k s]
  | .indirect a k t => .indirect a k t :: t.indirect_chain

/-- The nested subjects of an element, outermost first; empty when the element
is not a proxy. -/
def element_node.subjects : element_node K → List (element_node K)
  | .plain _ _ => []
  | .indirect _ _ _ => []
  | .proxy _ _ s => s :: s.subjects

/-- The first element of type `T` on the indirect chain of a pointer. -/
def first_of_type (is_T : K → Bool) (e_ : Option (element_node K)) :
    Option (element_node K) :=
  e_.bind fun e => e.indirect_chain.find? (fun x => is_T x.cls)

/-- The lambda `find` of `find_composite` (`traversal.hpp`):
`dynamic_cast<composite_base*>(e)` succeeds and the result is not `this_`. -/
def composite_other_than (is_composite : K → Bool) (this_ : Option (element_node K))
    (e : element_node K) : Bool :=
  is_composite e.cls && decide (this_.map element_node.addr ≠ some e.addr)

/-- The loop `while (proxy)` of `find_composite`, entered with the element `e`
of the context: the first nested subject that passes `find`. -/
def find_composite_proxy (is_composite : K → Bool) (this_ : Option (element_node K)) :
    element_node K → Option (element_node K)
  | .plain _ _ => none
  | .indirect _ _ _ => none
  | .proxy _ _ s =>
    if composite_other_than is_composite this_ s then some s
    else find_composite_proxy is_composite this_ s

/-- The body of the loop `while (p)` of `find_composite` for one context with
element `e`: `find` on `e`, then on the nested subjects of `e`, then on the
target of `e` when `e` is an indirect element. -/
def find_composite_at (is_composite : K → Bool) (this_ : Option (element_node K)) :
    Option (element_node K) → Option (element_node K)
  | none => none
  | some e =>
    if composite_other_than is_composite this_ e then some e
    else
      match find_composite_proxy is_composite this_ e with
      | some c => some c
      | none =>
        match e with
        | .indirect _ _ t => if composite_other_than is_composite this_ t then some t else none
        | _ => none

/-- The loop `while (p)` of `find_composite`, entered with a non-null `p`;
returns `result`, both components `none` when nothing was found. -/
def find_composite_loop (is_composite : K → Bool) (this_ : Option (element_node K)) :
    linked_context V C K α → Option (element_node K) × Option (linked_context V C K α)
  | .root d =>
    match find_composite_at is_composite this_ d.element with
    | some c => (some c, some (.root d))
    | none => (none, none)
  | .child d p =>
    match find_composite_at is_composite this_ d.element with
    | some c => (some c, some (.child d p))
    | none => find_composite_loop is_composite this_ p

/-- `find_composite(ctx)` (`traversal.hpp`). -/
def find_composite (is_composite : K → Bool) (ctx : linked_context V C K α) :
    Option (element_node K) × Option (linked_context V C K α) :=
  match ctx.parent with
  | none => (none, none)
  | some p => find_composite_loop is_composite ctx.data.element p

/-- The elements one context offers to `find_composite`, in the order they are
tested: the element, its nested subjects, and its target when it is an indirect
element. -/
def composite_candidates : Option (element_node K) → List (element_node K)
  | none => []
  | some e =>
    e :: (e.subjects ++ (match e with
      | .indirect _ _ t => [t]
      | _ => []))

/-- The pair the claim on `find_composite` describes, without regard to
`ctx.element`: the nearest strict ancestor that offers a composite, with the
first composite it offers. -/
def nearest_composite (is_composite : K → Bool) (ctx : linked_context V C K α) :
    Option (element_node K × linked_context V C K α) :=
  ctx.ancestors.findSome? fun p =>
    ((composite_candidates p.data.element).find? (fun x => is_composite x.cls)).map
      fun c => (c, p)

/-- The nearest strict ancestor that offers a composite other than
`ctx.element`, with the first such composite it offers. -/
def nearest_other_composite (is_composite : K → Bool) (ctx : linked_context V C K α) :
    Option (element_node K × linked_context V C K α) :=
  ctx.ancestors.findSome? fun p =>
    ((composite_candidates p.data.element).find?
      (composite_other_than is_composite ctx.data.element)).map fun c => (c, p)

/-- The nesting depth of an element: one more than that of its subject or
target. -/
def element_node.depth : element_node K → Nat
  | .plain _ _ => 0
  | .proxy _ _ s => s.depth + 1
  | .indirect _ _ t => t.depth + 1

/-- A root context over a composite at address 1; the class of an element is
here the flag "is a composite". -/
def sample_composite_context : linked_context Unit Unit Bool Int :=
  linked_context.make_root (fun _ => true) () () (some (element_node.plain 1 true))
    { left := 0, top := 0, right := 10, bottom := 10 }

/-! ## `child_window.cpp`: presses on the window resizer and mover -/

/-- The margin around the window that allows resizing:
`constexpr float resize_margin = 5.0f` (`child_window.cpp`). -/
def resize_margin [OfNat α 5] : α := 5

/-- Modelled from the spec: `rect::inset(m)` (`support/rect.hpp`, not among the
sources): every edge moves inward by `m`. -/
def rect.inset [Add α] [Sub α] (r : rect α) (m : α) : rect α :=
  { left := r.left + m, top := r.top + m, right := r.right - m, bottom := r.bottom - m }

/-- The empty handle bitmask, `_handle` of a state that `tracker::click` has
just created. -/
def resize_handle.empty : resize_handle :=
  { left := false, right := false, top := false, bottom := false }

/-- The band of the resizer: the points for which
`ctx.bounds.includes(p) && !inner.includes(p)` holds, `inner` being the bounds
inset by `resize_margin`; for these `window_resizer_element::hit_test` returns
the resizer (`child_window.cpp`). -/
def in_resize_band [LinearOrder α] [Add α] [Sub α] [OfNat α 5] (bounds : rect α)
    (p : point α) : Bool :=
  bounds.includes p && !(bounds.inset resize_margin).includes p

/-- The block of `window_resizer_element::click` under `if (state)`
(`child_window.cpp`): for a press in the band, `_handle` is assigned `left` or
`right` and then or-ed with `top` or `bottom`, by the strict tests of the
source; `handle` is the value of `_handle` before. -/
def click_handle [LinearOrder α] [Add α] [Sub α] [OfNat α 5] (bounds : rect α)
    (pos : point α) (handle : resize_handle) : resize_handle :=
  if in_resize_band bounds pos then
    let b := bounds
    let h1 : resize_handle :=
      if pos.x > b.left ∧ pos.x < b.left + resize_margin then
        { left := true, right := false, top := false, bottom := false }
      else if pos.x > b.right - resize_margin ∧ pos.x < b.right then
        { left := false, right := true, top := false, bottom := false }
      else handle
    if pos.y > b.top ∧ pos.y < b.top + resize_margin then { h1 with top := true }
    else if pos.y > b.bottom - resize_margin ∧ pos.y < b.bottom then { h1 with bottom := true }
    else h1
  else handle

/-- `window_resizer_element::click` (`child_window.cpp`). `subject_click` is the
result of `proxy_base::click`, `tracker_click` the result of `tracker::click`
together with the state `get_state()` returns after it, `state` the state
before the call. Returns the result of `click` and the state after it. -/
def window_resizer_click [LinearOrder α] [Add α] [Sub α] [OfNat α 5] (subject_click : Bool)
    (ctx : context α) (is_enabled : Bool) (tracker_click : Bool × Option resize_handle)
    (state : Option resize_handle) (pos : point α) : Bool × Option resize_handle :=
  if subject_click then (true, state)
  else if ctx.enabled && is_enabled then
    (tracker_click.1, tracker_click.2.map (click_handle ctx.bounds pos))
  else (false, state)

/-- Modelled from the spec: `clamp(val, min, max)` of the support library (not
among the sources), which raises `val` to `min` and then lowers it to `max`. -/
def clamp [LinearOrder α] (val min max : α) : α :=
  let val := if val < min then min else val
  if val > max then max else val

/-- The members the window mover adds to its tracker state
(`child_window.cpp`): the offsets of the press point from the top and the
bottom edge. -/
structure window_mover_tracker_info (α : Type) where
  _offs_top : α
  _offs_bottom : α
  deriving DecidableEq, Repr

/-- `window_mover_element::click` (`child_window.cpp`). `subject_click` is the
result of `proxy_base::click`, `tracker_click` the result of `tracker::click`
together with the state `get_state()` returns after it, `state` the state
before the call. Returns the result of `click` and the state after it. -/
def window_mover_click [Sub α] (subject_click : Bool) (ctx : context α)
    (tracker_click : Bool × Option (window_mover_tracker_info α))
    (state : Option (window_mover_tracker_info α)) (pos : point α) :
    Bool × Option (window_mover_tracker_info α) :=
  if !subject_click then
    (tracker_click.1, tracker_click.2.map fun _ =>
      { _offs_top := pos.y - ctx.bounds.top, _offs_bottom := ctx.bounds.bottom - pos.y })
  else (subject_click, state)

/-- Where `window_mover_element::drag` sends the event: to the subject
(`proxy_base::drag`) or to the tracker (`tracker::drag`), with the pointer
position it passes on. -/
inductive mover_drag (α : Type) where
  | to_subject (pos : point α)
  | to_tracker (pos : point α)
  deriving DecidableEq, Repr

/-- `window_mover_element::drag` (`child_window.cpp`); `view_bounds` is the
value of `ctx.view_bounds()`. -/
def window_mover_drag [LinearOrder α] [Add α] [Sub α]
    (state : Option (window_mover_tracker_info α)) (view_bounds : rect α) (pos : point α) :
    mover_drag α :=
  match state with
  | none => mover_drag.to_subject pos
  | some st =>
    let b := view_bounds
    let b := { b with top := b.top + st._offs_top }
    let b := { b with bottom := b.bottom - st._offs_bottom }
    let x := clamp pos.x b.left b.right
    let y := clamp pos.y b.top b.bottom
    mover_drag.to_tracker { x := x, y := y }

/-! ## `child_window.cpp`: click-to-front -/

/-- The part of the view that `child_window_element::click` touches: the
floating layers (elements named by their address, the front layer last) and the
queue of callbacks handed to `view.post`, each one a deferred `view.click(btn)`
recorded by its `btn`. -/
structure view_state (B : Type) where
  layers : List Nat
  posted : List B

/-- Modelled from the spec: `view.move_to_front(ptr)` (`view.cpp` is not among
the sources), "floating-layer stack management": the layer is taken out of the
stack and put back as the last, front, layer. -/
def view_state.move_to_front {B : Type} (view : view_state B) (ptr : Nat) : view_state B :=
  { view with layers := view.layers.erase ptr ++ [ptr] }

/-- Modelled from the spec: `view.post(fn)`, which queues the callback for
later; here `fn` is `view.click(btn)`. -/
def view_state.post {B : Type} (view : view_state B) (btn : B) : view_state B :=
  { view with posted := view.posted ++ [btn] }

/-- `child_window_element::click` (`child_window.cpp`). `this_` is the address
of the window, `down` reads `btn.down`, and `floating_click` is
`floating_element::click`, which the call is forwarded to. Returns the view
after the call and the result of `click`; `layers().back()` of an empty stack
is undefined in the source, `none` here. -/
def child_window_click {B : Type} (down : B → Bool)
    (floating_click : view_state B → B → view_state B × Bool) (this_ : Nat)
    (view : view_state B) (btn : B) : Option (view_state B × Bool) :=
  if down btn then
    match view.layers.getLast? with
    | none => none
    | some back =>
      if back ≠ this_ then some ((view.move_to_front this_).post btn, true)
      else some (floating_click view btn)
  else some (floating_click view btn)

/-! ## `list.hpp`: `fixed_derived_limits_cell_composer` -/

/-- `cell_composer::limits` (`list.hpp`). -/
structure cell_limits (α : Type) where
  min : α
  max : α
  deriving DecidableEq, Repr

/-- The state of a `fixed_derived_limits_cell_composer` over a
`fixed_length_cell_composer` (`list.hpp`): the cached `_main_axis_size` and
`_secondary_axis_limits`, the length `_size`, whether the composer is the
`hfixed` variant, and the indices `compose` has been called with so far. -/
structure derived_limits_composer (α : Type) where
  _main_axis_size : α
  _secondary_axis_limits : cell_limits α
  _size : Nat
  hfixed : Bool
  composed : List Nat

/-- The constructor of `fixed_derived_limits_cell_composer`: `_main_axis_size{-1}`
and `_secondary_axis_limits{-1, full_extent}`; nothing composed yet. -/
def derived_limits_composer.make [Neg α] [One α] (full_extent : α) (size : Nat)
    (hfixed : Bool) : derived_limits_composer α :=
  { _main_axis_size := -1, _secondary_axis_limits := { min := -1, max := full_extent },
    _size := size, hfixed := hfixed, composed := [] }

/-- Modelled from the spec: `tracker_info::movement()` (`tracker.hpp` is not
among the sources), the pointer movement since the previous position. -/
def tracker_info.movement [Sub α] (track_info : tracker_info α) : point α :=
  { x := track_info.current.x - track_info.previous.x,
    y := track_info.current.y - track_info.previous.y }

/-- Modelled from the spec: `rect::move(dx, dy)` (`support/rect.hpp` is not
among the sources), the rectangle translated by `(dx, dy)`. -/
def rect.move [Add α] (r : rect α) (dx dy : α) : rect α :=
  { left := r.left + dx, top := r.top + dy, right := r.right + dx, bottom := r.bottom + dy }

/-- What `window_mover_element::keep_tracking` can change: the bounds of the
floating elements, by address (`fl->bounds()`), and the number of calls of
`view.refresh()`. -/
structure mover_view (α : Type) where
  floating_bounds : Nat → rect α
  refreshes : Nat

/-- `window_mover_element::keep_tracking` (`child_window.cpp`); `is_floating`
tells of a class whether `dynamic_cast<floating_element*>` succeeds. -/
def mover_keep_tracking [DecidableEq α] [Add α] [Sub α] (is_floating : K → Bool)
    (ctx : linked_context V C K α) (track_info : tracker_info α) (view : mover_view α) :
    mover_view α :=
  if track_info.current ≠ track_info.previous then
    match find_parent is_floating ctx with
    | some fl =>
      let p := track_info.movement
      { floating_bounds :=
          Function.update view.floating_bounds fl.addr
            ((view.floating_bounds fl.addr).move p.x p.y)
        refreshes := view.refreshes + 1 }
    | none => view
  else view

/-- The constructor `context(context const& rhs, rect bounds_)` (`context.hpp`):
view, canvas, element, parent and `enabled` of `rhs`, with the new bounds. -/
def linked_context.rebound (rhs : linked_context V C K α) (bounds_ : rect α) :
    linked_context V C K α :=
  match rhs with
  | .root d => .root { d with bounds := bounds_ }
  | .child d p => .child { d with bounds := bounds_ } p

/-- The contexts produced by the constructors of `context` and by
`sub_context()`, from contexts that were produced in this way. -/
inductive linked_context.produced (enabled_of : element_node K → Bool) :
    linked_context V C K α → Prop where
  | root (view_ : V) (canvas_ : C) (element_ : Option (element_node K)) (bounds_ : rect α) :
      linked_context.produced enabled_of
        (linked_context.make_root enabled_of view_ canvas_ element_ bounds_)
  | child (parent_ : linked_context V C K α) (element_ : Option (element_node K))
      (bounds_ : rect α) :
      linked_context.produced enabled_of parent_ →
      linked_context.produced enabled_of
        (linked_context.make_child enabled_of parent_ element_ bounds_)
  | rebound (rhs : linked_context V C K α) (bounds_ : rect α) :
      linked_context.produced enabled_of rhs →
      linked_context.produced enabled_of (rhs.rebound bounds_)
  | sub_context (c : linked_context V C K α) :
      linked_context.produced enabled_of c →
      linked_context.produced enabled_of c.sub_context

/-- Every context of the chain that is enabled and has a parent has an enabled
parent. -/
def linked_context.chain_enabled : linked_context V C K α → Prop
  | .root _ => True
  | .child d p => (d.enabled = true → p.data.enabled = true) ∧ p.chain_enabled

/-- The elements reachable from an element through subjects and targets, the
element itself first. -/
def element_node.reachable : element_node K → List (element_node K)
  | .plain a k => [.plain a k]
  | .proxy a k s => .proxy a k s :: s.reachable
  | .indirect a k t => .indirect a k t :: t.reachable

/-- A proxy whose subject is an indirect element whose target is a proxy whose
subject is of type `T`; the class of an element is here the flag "is of type
`T`". -/
def sample_hidden_subject : element_node Bool :=
  element_node.proxy 1 false
    (element_node.indirect 2 false
      (element_node.proxy 3 false (element_node.plain 4 true)))

/-! ## `child_window.cpp`: limits and subject bounds of the window resizer -/

/-- Modelled from the spec: `clamp_max(val, max)` of the support library (not
among the sources), which lowers `val` to `max`. -/
def clamp_max [LinearOrder α] (val max : α) : α :=
  if val > max then max else val

/-- `window_resizer_element::limits` (`child_window.cpp`); `subject_limits` is
the value of `this->subject().limits(ctx)`, `full_extent` the constant of that
name. -/
def window_resizer_limits [LinearOrder α] [Add α] [Mul α] [OfNat α 5] [OfNat α 2]
    (full_extent : α) (subject_limits : view_limits α) : view_limits α :=
  let r := subject_limits
  let r : view_limits α := { r with min := { r.min with x := r.min.x + resize_margin * 2 } }
  let r : view_limits α := { r with max := { r.max with x := r.max.x + resize_margin * 2 } }
  let r : view_limits α := { r with min := { r.min with y := r.min.y + resize_margin * 2 } }
  let r : view_limits α := { r with max := { r.max with y := r.max.y + resize_margin * 2 } }
  let r : view_limits α := { r with max := { r.max with x := clamp_max r.max.x full_extent } }
  let r : view_limits α := { r with max := { r.max with y := clamp_max r.max.y full_extent } }
  r

/-- `window_resizer_element::prepare_subject` (`child_window.cpp`): the bounds
of the context handed to the subject. -/
def window_resizer_prepare_subject [Add α] [Sub α] [OfNat α 5] (bounds : rect α) : rect α :=
  let b := bounds
  let b := { b with top := b.top + resize_margin }
  let b := { b with left := b.left + resize_margin }
  let b := { b with bottom := b.bottom - resize_margin }
  let b := { b with right := b.right - resize_margin }
  b

/-! ## `grid.cpp`: layout and bounds of the grids -/

/-- The state of `vgrid_element` and `hgrid_element` that `layout` and
`bounds_of` use (`grid.cpp`): the children, each given by its `span()`, an
`unsigned` of 32 bits (`element.hpp`), the cached `_positions`, and the grid
coordinates behind `get_grid_coord` (`grid.hpp` is not among the sources). -/
structure grid_element (α : Type) where
  spans : List Nat
  _positions : List α
  get_grid_coord : Nat → α

/-- `size()` of a grid: the number of its children. -/
def grid_element.size (g : grid_element α) : Nat := g.spans.length

/-- The value of `elem.span()-1` (`grid.cpp`), computed on `unsigned`: it wraps
to `2^32 - 1` for a span of 0. -/
def span_minus_one (span : Nat) : Nat := (span % 2 ^ 32 + (2 ^ 32 - 1)) % 2 ^ 32

/-- The loop of `vgrid_element::layout` (`grid.cpp`) over the remaining
children, with the current `gi`, a `std::size_t`, and `prev`: for each child
the value written to `_positions[i]` and the rectangle `ebounds` handed to its
`layout`. -/
def vgrid_layout_loop [Add α] [Sub α] [Mul α] (get_grid_coord : Nat → α)
    (left right total_height : α) : List Nat → Nat → α → List (α × rect α)
  | [], _, _ => []
  | span :: rest, gi, prev =>
    let gi := (gi + span_minus_one span) % 2 ^ 64
    let y := get_grid_coord gi * total_height
    let height := y - prev
    (prev, { left := left, top := prev, right := right, bottom := prev + height })
      :: vgrid_layout_loop get_grid_coord left right total_height rest
          ((gi + 1) % 2 ^ 64) y

/-- `vgrid_element::layout` (`grid.cpp`): the grid afterwards and the
rectangles handed to the children, in order. -/
def vgrid_layout [Zero α] [Add α] [Sub α] [Mul α] (g : grid_element α) (bounds : rect α) :
    grid_element α × List (rect α) :=
  let steps := vgrid_layout_loop g.get_grid_coord bounds.left bounds.right bounds.height
    g.spans 0 0
  ({ g with _positions := steps.map Prod.fst ++ [bounds.height] }, steps.map Prod.snd)

/-- `vgrid_element::bounds_of` (`grid.cpp`); `none` when an entry of
`_positions` is read out of range, which is undefined in the source. -/
def vgrid_bounds_of [Zero α] [Add α] (g : grid_element α) (bounds : rect α) (index : Nat) :
    Option (rect α) :=
  if index ≥ g._positions.length ∨ index ≥ g.size then
    some { left := 0, top := 0, right := 0, bottom := 0 }
  else
    match g._positions[index]?, g._positions[index + 1]? with
    | some p, some q =>
      some { left := bounds.left, top := p + bounds.top, right := bounds.right,
             bottom := q + bounds.top }
    | _, _ => none

/-- The loop of `hgrid_element::layout` (`grid.cpp`). -/
def hgrid_layout_loop [Add α] [Sub α] [Mul α] (get_grid_coord : Nat → α)
    (top bottom total_width : α) : List Nat → Nat → α → List (α × rect α)
  | [], _, _ => []
  | span :: rest, gi, prev =>
    let gi := (gi + span_minus_one span) % 2 ^ 64
    let x := get_grid_coord gi * total_width
    let width := x - prev
    (prev, { left := prev, top := top, right := prev + width, bottom := bottom })
      :: hgrid_layout_loop get_grid_coord top bottom total_width rest
          ((gi + 1) % 2 ^ 64) x

/-- `hgrid_element::layout` (`grid.cpp`): the grid afterwards and the
rectangles handed to the children, in order. -/
def hgrid_layout [Zero α] [Add α] [Sub α] [Mul α] (g : grid_element α) (bounds : rect α) :
    grid_element α × List (rect α) :=
  let steps := hgrid_layout_loop g.get_grid_coord bounds.top bounds.bottom bounds.width
    g.spans 0 0
  ({ g with _positions := steps.map Prod.fst ++ [bounds.width] }, steps.map Prod.snd)

/-- `hgrid_element::bounds_of` (`grid.cpp`); `none` when an entry of
`_positions` is read out of range. -/
def hgrid_bounds_of [Zero α] [Add α] (g : grid_element α) (bounds : rect α) (index : Nat) :
    Option (rect α) :=
  if index ≥ g._positions.length ∨ index ≥ g.size then
    some { left := 0, top := 0, right := 0, bottom := 0 }
  else
    match g._positions[index]?, g._positions[index + 1]? with
    | some p, some q =>
      some { left := p + bounds.left, top := bounds.top, right := q + bounds.left,
             bottom := bounds.bottom }
    | _, _ => none

/-- A grid of one child of span 1 that takes the whole extent, not laid out
yet. -/
def sample_grid : grid_element Int :=
  { spans := [1], _positions := [], get_grid_coord := fun _ => 1 }

/-- Sample bounds of a grid, `[20,120] x [10,110]`. -/
def sample_grid_bounds : rect Int := { left := 20, top := 10, right := 120, bottom := 110 }

/-! ## `theme.hpp`: `scoped_theme_override` -/

/-- The members of `scoped_theme_override<T>` (`theme.hpp`) besides the
reference to the theme: the member pointer `_pmem` (`none` for `nullptr`) and
the saved value `_save`. The theme is seen through its members of type `T`,
`M` naming them. -/
structure scoped_theme_override (M T : Type) where
  _pmem : Option M
  _save : T
  deriving DecidableEq, Repr

/-- The constructor `scoped_theme_override(theme& thm, T theme::*pmem, T val)`
(`theme.hpp`): the theme afterwards and the override. -/
def scoped_theme_override.make {M T : Type} [DecidableEq M] (thm : M → T) (pmem : M)
    (val : T) : (M → T) × scoped_theme_override M T :=
  (Function.update thm pmem val, { _pmem := some pmem, _save := thm pmem })

/-- The move constructor `scoped_theme_override(scoped_theme_override&& rhs)`
(`theme.hpp`): the new override and `rhs` afterwards; `_save` is initialised
with `rhs._thm.*_pmem`. Reading through a null `rhs._pmem` is undefined in the
source, `none` here. -/
def scoped_theme_override.move_from {M T : Type} (thm : M → T)
    (rhs : scoped_theme_override M T) :
    Option (scoped_theme_override M T × scoped_theme_override M T) :=
  match rhs._pmem with
  | some pmem => some ({ _pmem := some pmem, _save := thm pmem }, { rhs with _pmem := none })
  | none => none

/-- The destructor `~scoped_theme_override()` (`theme.hpp`): the theme
afterwards. -/
def scoped_theme_override.destroy {M T : Type} [DecidableEq M] (thm : M → T)
    (ov : scoped_theme_override M T) : M → T :=
  match ov._pmem with
  | some pmem => Function.update thm pmem ov._save
  | none => thm

/-- A theme with one member of value 1. -/
def sample_theme : Unit → Nat := fun _ => 1

/-! ## `host/gtk3/base_view.cpp`: key repeat -/

/-- Modelled from the spec: `key_action` (`base_view.hpp` is not among the
sources), the action of a key event. -/
inductive key_action where
  | unknown
  | release
  | press
  | repeat_
  deriving DecidableEq, Repr

/-- The members of `key_info` that `handle_key` uses: the key, the action and
the modifiers. -/
structure key_info (Kc : Type) where
  key : Kc
  action : key_action
  modifiers : Int
  deriving DecidableEq, Repr

/-- `handle_key` (`host/gtk3/base_view.cpp`) on the key map `keys`, a
`std::map` from key to action (`none` for an absent key). `initial` is the
value-initialised `key_action` that `keys[k.key]` inserts for an absent key.
Returns the key map afterwards and the `key_info` passed to `_view.key`, if
any. -/
def handle_key {Kc : Type} [DecidableEq Kc] (initial : key_action)
    (keys : Kc → Option key_action) (k : key_info Kc) :
    (Kc → Option key_action) × Option (key_info Kc) :=
  if k.action = key_action.release then (Function.update keys k.key none, none)
  else
    let repeated : Bool :=
      decide (k.action = key_action.press) &&
        decide ((keys k.key).getD initial = key_action.press)
    let keys := Function.update keys k.key (some k.action)
    let k := if repeated then { k with action := key_action.repeat_ } else k
    (keys, some k)

/-- The key map after a sequence of key events was passed to `handle_key`,
starting from the empty map of a new `host_view`. -/
def key_map_after {Kc : Type} [DecidableEq Kc] (initial : key_action)
    (events : List (key_info Kc)) : Kc → Option key_action :=
  events.foldl (fun keys k => (handle_key initial keys k).1) (fun _ => none)

/-- The key has been pressed since its last release, or since the start: the
last event on it, if any, is a press. -/
def key_held {Kc : Type} [DecidableEq Kc] (key : Kc) (events : List (key_info Kc)) : Bool :=
  match (events.filter (fun e => decide (e.key = key))).getLast? with
  | some e => decide (e.action = key_action.press)
  | none => false

/-! ## `float`: the arithmetic of the coordinates -/

/-- A finite value of the type `float` of the source, an IEEE 754 binary32
number: the integer `val` stands for `val * 2^(-149)`, every finite binary32
value being a whole multiple of the smallest subnormal `2^(-149)`. Infinities
and NaN are not represented, and the two zeros are one. -/
structure float where
  val : Int
  deriving DecidableEq, Repr

/-- The number of bits by which `t` is longer than the 24 bits of a binary32
significand, `0` for `t < 2^24`; `fuel` bounds the number of halvings, and `t`
itself is always enough. -/
def float.excess_bits : Nat → Nat → Nat
  | 0, _ => 0
  | fuel + 1, t => if t < 2 ^ 24 then 0 else float.excess_bits fuel (t / 2) + 1

/-- Rounding of binary32, to nearest and ties to even: the multiple of
`2^(-149)` that represents the exact value `n / d * 2^(-149)`, kept to 24
significant bits. A result beyond the largest finite value, which is infinity
in binary32, is outside the model. -/
def float.round (n : Int) (d : Nat) : Int :=
  let a := n.natAbs
  let t := a / d
  let sh := float.excess_bits t t
  let unit := 2 ^ sh * d
  let q := a / unit
  let r := a % unit
  let q := if 2 * r > unit ∨ (2 * r = unit ∧ q % 2 = 1) then q + 1 else q
  if 0 ≤ n then ((q * 2 ^ sh : Nat) : Int) else -((q * 2 ^ sh : Nat) : Int)

/-- The sum of two `float`s: the exact sum, rounded. -/
instance : Add float := ⟨fun a b => ⟨float.round (a.val + b.val) 1⟩⟩

/-- The difference of two `float`s: the exact difference, rounded. -/
instance : Sub float := ⟨fun a b => ⟨float.round (a.val - b.val) 1⟩⟩

/-- The product of two `float`s: the exact product, rounded. -/
instance : Mul float := ⟨fun a b => ⟨float.round (a.val * b.val) (2 ^ 149)⟩⟩

/-- The negation of a `float`, which is exact. -/
instance : Neg float := ⟨fun a => ⟨-a.val⟩⟩

/-- A whole-number literal such as `5.0f`: the nearest `float`. -/
instance (n : Nat) : OfNat float n := ⟨⟨float.round ((n : Int) * 2 ^ 149) 1⟩⟩

/-- A decimal literal such as `0.1f`: the nearest `float`. -/
instance : OfScientific float :=
  ⟨fun m s e => ⟨if s then float.round ((m : Int) * 2 ^ 149) (10 ^ e)
    else float.round ((m : Int) * 10 ^ e * 2 ^ 149) 1⟩⟩

/-- The order of finite `float`s is the order of the values they stand for. -/
instance : LinearOrder float :=
  LinearOrder.lift' float.val (fun a b h => by cases a; cases b; simp_all)

/-- The sum `a + b` computed in the coordinate type is exact: under the
valuation `val`, which gives the exact value of a coordinate, it is the sum of
the values. -/
@[reducible]
def exact_add {G : Type} [Add α] [Add G] (val : α → G) (a b : α) : Prop :=
  val (a + b) = val a + val b

/-- The difference `a - b` computed in the coordinate type is exact under the
valuation `val`. -/
@[reducible]
def exact_sub {G : Type} [Sub α] [Sub G] (val : α → G) (a b : α) : Prop :=
  val (a - b) = val a - val b

/-- A context whose parent holds a floating element, at address 1; the class of
an element is here the flag "is a floating element". -/
def sample_mover_context : linked_context Unit Unit Bool float :=
  linked_context.make_child (fun _ => true)
    (linked_context.make_root (fun _ => true) () () (some (element_node.plain 1 true))
      { left := 0, top := 0, right := 640, bottom := 480 })
    (some (element_node.plain 2 false))
    { left := 10.1, top := 20, right := 110.3, bottom := 40 }

/-- A view in which every floating element has the bounds
`[10.1, 110.3] x [20, 80]`, not refreshed so far. -/
def sample_mover_view : mover_view float :=
  { floating_bounds := fun _ => { left := 10.1, top := 20, right := 110.3, bottom := 80 },
    refreshes := 0 }

/-- A pointer movement of `0.7` to the right. -/
def sample_mover_track : tracker_info float :=
  { current := { x := 0.7, y := 0 }, previous := { x := 0, y := 0 } }

/-- A pointer movement of `3` to the right and `4` down. -/
def sample_mover_whole_track : tracker_info float :=
  { current := { x := 13, y := 14 }, previous := { x := 10, y := 10 } }

/-- A view in which every floating element has the bounds `[10, 110] x [20, 80]`. -/
def sample_mover_whole_view : mover_view float :=
  { floating_bounds := fun _ => { left := 10, top := 20, right := 110, bottom := 80 },
    refreshes := 0 }

/-- Limits of a subject that is at least `15.3` wide and `20` high. -/
def sample_subject_limits : view_limits float :=
  { min := { x := 15.3, y := 20 }, max := { x := 1000, y := 1000 } }

/-- Limits of a subject that is at least `50 x 20`. -/
def sample_whole_subject_limits : view_limits float :=
  { min := { x := 50, y := 20 }, max := { x := 1000, y := 1000 } }

/-! # Theorems -/

/-! ### Lemmas on `pick` -/

theorem pickFrom_eq_enumFrom (P : Nat → Bool) (n : Nat) (v : List T) :
    pickFrom P n v = ((v.enumFrom n).filter (fun p => P p.1)).map Prod.snd := by
  induction v generalizing n with
  | nil => rfl
  | cons x xs ih =>
    by_cases h : P n = true
    · simp [pickFrom, List.enumFrom_cons, List.filter_cons, h, ih]
    · simp [pickFrom, List.enumFrom_cons, List.filter_cons, h, ih]

theorem pick_eq_pickFrom (P : Nat → Bool) (v : List T) : pick P v = pickFrom P 0 v := by
  rw [pickFrom_eq_enumFrom]; rfl

theorem pickFrom_congr {P Q : Nat → Bool} (n : Nat) (v : List T)
    (h : ∀ k, n ≤ k → k < n + v.length → P k = Q k) :
    pickFrom P n v = pickFrom Q n v := by
  induction v generalizing n with
  | nil => rfl
  | cons x xs ih =>
    have h0 : P n = Q n := h n (Nat.le_refl n) (by simp)
    have ih1 : pickFrom P (n + 1) xs = pickFrom Q (n + 1) xs :=
      ih (n + 1) (fun k hk1 hk2 => h k (by omega) (by simp only [List.length_cons]; omega))
    simp [pickFrom, h0, ih1]

theorem pickFrom_true {P : Nat → Bool} (n : Nat) (v : List T)
    (h : ∀ k, n ≤ k → k < n + v.length → P k = true) : pickFrom P n v = v := by
  induction v generalizing n with
  | nil => rfl
  | cons x xs ih =>
    have h0 : P n = true := h n (Nat.le_refl n) (by simp)
    have ih1 : pickFrom P (n + 1) xs = xs :=
      ih (n + 1) (fun k hk1 hk2 => h k (by omega) (by simp only [List.length_cons]; omega))
    simp [pickFrom, h0, ih1]

theorem pickFrom_false {P : Nat → Bool} (n : Nat) (v : List T)
    (h : ∀ k, n ≤ k → k < n + v.length → P k = false) : pickFrom P n v = [] := by
  induction v generalizing n with
  | nil => rfl
  | cons x xs ih =>
    have h0 : P n = false := h n (Nat.le_refl n) (by simp)
    have ih1 : pickFrom P (n + 1) xs = [] :=
      ih (n + 1) (fun k hk1 hk2 => h k (by omega) (by simp only [List.length_cons]; omega))
    simp [pickFrom, h0, ih1]

theorem pickFrom_shift {P Q : Nat → Bool} (n : Nat) (v : List T)
    (h : ∀ k, n ≤ k → P k = Q (k + 1)) : pickFrom P n v = pickFrom Q (n + 1) v := by
  induction v generalizing n with
  | nil => rfl
  | cons x xs ih =>
    have h0 : P n = Q (n + 1) := h n (Nat.le_refl n)
    have ih1 : pickFrom P (n + 1) xs = pickFrom Q (n + 1 + 1) xs :=
      ih (n + 1) (fun k hk => h k (by omega))
    simp [pickFrom, h0, ih1]

/-- Erasing position `d` and then selecting with `P` is selecting with `Q` on
the original list, when `Q` rejects `d` and agrees with `P` up to the shift of
the positions above `d`. -/
theorem pickFrom_eraseIdx {P Q : Nat → Bool} (n d : Nat) (v : List T)
    (hd : Q (n + d) = false)
    (hlt : ∀ k, k < n + d → P k = Q k)
    (hge : ∀ k, n + d ≤ k → P k = Q (k + 1)) :
    pickFrom P n (v.eraseIdx d) = pickFrom Q n v := by
  induction v generalizing n d with
  | nil => simp [pickFrom]
  | cons x xs ih =>
    cases d with
    | zero =>
      have h0 : Q n = false := by simpa using hd
      simp only [List.eraseIdx_zero, List.tail_cons, pickFrom, h0]
      exact pickFrom_shift n xs (fun k hk => hge k (by omega))
    | succ d =>
      have h0 : P n = Q n := hlt n (by omega)
      have ih1 : pickFrom P (n + 1) (xs.eraseIdx d) = pickFrom Q (n + 1) xs :=
        ih (n + 1) d (by rw [← hd]; congr 1; omega) (fun k hk => hlt k (by omega))
          (fun k hk => hge k (by omega))
      simp [List.eraseIdx_cons_succ, pickFrom, h0, ih1]

theorem pick_eraseIdx {P Q : Nat → Bool} (d : Nat) (v : List T)
    (hd : Q d = false)
    (hlt : ∀ k, k < d → P k = Q k)
    (hge : ∀ k, d ≤ k → P k = Q (k + 1)) :
    pick P (v.eraseIdx d) = pick Q v := by
  rw [pick_eq_pickFrom, pick_eq_pickFrom]
  exact pickFrom_eraseIdx 0 d v (by simpa using hd) (fun k hk => hlt k (by omega))
    (fun k hk => hge k (by omega))

/-! ### The erase loop -/

/-- The erase loop over a strictly descending list of valid indices returns the
elements at the positions outside the list, and drops one element per index. -/
theorem erase_loop_spec (D : List Nat) (v : List T)
    (hs : D.Pairwise (fun a b => b < a)) (hv : ∀ i ∈ D, i < v.length) :
    erase_loop D v = some (pick (fun k => decide (k ∉ D)) v) ∧
      (pick (fun k => decide (k ∉ D)) v).length + D.length = v.length := by
  induction D generalizing v with
  | nil =>
    have : pick (fun k => decide (k ∉ ([] : List Nat))) v = v := by
      rw [pick_eq_pickFrom]; exact pickFrom_true 0 v (by simp)
    rw [this]
    exact ⟨rfl, rfl⟩
  | cons d D ih =>
    have hd : d < v.length := hv d (by simp)
    obtain ⟨hlt, hs1⟩ := List.pairwise_cons.1 hs
    have hv1 : ∀ i ∈ D, i < (v.eraseIdx d).length := by
      intro i hi
      have := hlt i hi
      rw [List.length_eraseIdx_of_lt hd]; omega
    obtain ⟨h1, h2⟩ := ih (v.eraseIdx d) hs1 hv1
    have key : pick (fun k => decide (k ∉ D)) (v.eraseIdx d)
        = pick (fun k => decide (k ∉ d :: D)) v := by
      apply pick_eraseIdx
      · simp
      · intro k hk
        have : k ≠ d := by omega
        simp [this]
      · intro k hk
        have h3 : k ∉ D := fun hm => by have := hlt k hm; omega
        have h4 : k + 1 ∉ D := fun hm => by have := hlt (k + 1) hm; omega
        have h5 : k + 1 ≠ d := by omega
        simp [h3, h4, h5]
    refine ⟨?_, ?_⟩
    · simp only [erase_loop, hd, if_true]
      rw [h1, key]
    · rw [← key]
      rw [List.length_eraseIdx_of_lt hd] at h2
      simp only [List.length_cons]
      omega

/-- C1. For every vector `v` and every strictly ascending list `I` of indices
all below `v.size()`, `erase_indices(v, I)` returns, and leaves exactly the
elements of `v` whose original position is not in `I`, in their original
relative order; the size of `v` decreases by `|I|`. -/
theorem erase_indices_removes_exactly (v : List T) (I : List Nat)
    (hs : I.Pairwise (fun a b => a < b)) (hv : ∀ i ∈ I, i < v.length) :
    ∃ w, erase_indices v I = some w ∧
      w = pick (fun k => decide (k ∉ I)) v ∧
      I.length ≤ v.length ∧ w.length = v.length - I.length := by
  have hs1 : I.reverse.Pairwise (fun a b => b < a) := List.pairwise_reverse.2 hs
  have hv1 : ∀ i ∈ I.reverse, i < v.length := fun i hi => hv i (List.mem_reverse.1 hi)
  obtain ⟨h1, h2⟩ := erase_loop_spec I.reverse v hs1 hv1
  have hp : pick (fun k => decide (k ∉ I.reverse)) v = pick (fun k => decide (k ∉ I)) v := by
    simp [List.mem_reverse]
  rw [hp] at h1 h2
  rw [List.length_reverse] at h2
  exact ⟨_, h1, rfl, by omega, by omega⟩

/-- Witness for C1: erasing positions 1 and 3 of a five-element vector. -/
theorem erase_indices_removes_exactly_witness :
    [1, 3].Pairwise (fun a b => a < b) ∧ (∀ i ∈ [1, 3], i < [10, 11, 12, 13, 14].length) ∧
    ∃ w, erase_indices [10, 11, 12, 13, 14] [1, 3] = some w ∧
      w = pick (fun k => decide (k ∉ [1, 3])) [10, 11, 12, 13, 14] ∧
      [1, 3].length ≤ [10, 11, 12, 13, 14].length ∧
      w.length = [10, 11, 12, 13, 14].length - [1, 3].length :=
  ⟨by decide, by decide,
    erase_indices_removes_exactly [10, 11, 12, 13, 14] [1, 3] (by decide) (by decide)⟩

/-! ### The move loop -/

theorem pickFrom_lt (pos n : Nat) (v : List T) :
    pickFrom (fun k => decide (k < pos)) n v = v.take (pos - n) := by
  induction v generalizing n with
  | nil => simp [pickFrom]
  | cons x xs ih =>
    by_cases h : n < pos
    · have e : pos - n = (pos - (n + 1)) + 1 := by omega
      simp [pickFrom, h, ih (n + 1), e]
    · have e : pos - n = 0 := by omega
      simp [pickFrom, h, ih (n + 1), e]
      omega

theorem pickFrom_ge (pos n : Nat) (v : List T) :
    pickFrom (fun k => decide (pos ≤ k)) n v = v.drop (pos - n) := by
  induction v generalizing n with
  | nil => simp [pickFrom]
  | cons x xs ih =>
    by_cases h : pos ≤ n
    · have e : pos - n = 0 := by omega
      have e1 : pos - (n + 1) = 0 := by omega
      simp [pickFrom, h, ih (n + 1), e, e1]
    · have e : pos - n = (pos - (n + 1)) + 1 := by omega
      simp [pickFrom, h, ih (n + 1), e]

theorem take_min_length (p : Nat) (v : List T) : v.take (min p v.length) = v.take p := by
  rcases Nat.le_total p v.length with h | h
  · rw [Nat.min_eq_left h]
  · rw [Nat.min_eq_right h, List.take_length, List.take_of_length_le h]

theorem drop_min_length (p : Nat) (v : List T) : v.drop (min p v.length) = v.drop p := by
  rcases Nat.le_total p v.length with h | h
  · rw [Nat.min_eq_left h]
  · rw [Nat.min_eq_right h, List.drop_length, List.drop_of_length_le h]

theorem pickFrom_append (P : Nat → Bool) (n : Nat) (a b : List T) :
    pickFrom P n (a ++ b) = pickFrom P n a ++ pickFrom P (n + a.length) b := by
  induction a generalizing n with
  | nil => simp [pickFrom]
  | cons x xs ih =>
    have e : n + 1 + xs.length = n + (xs.length + 1) := by omega
    by_cases h : P n = true <;> simp [pickFrom, h, ih (n + 1), e]

/-- Selecting the positions in `d :: D` of `v` is selecting the positions in
`D` of `v` without its `d`-th element, followed by that element, when `d` is
above every index of `D`. -/
theorem pick_mem_cons (d : Nat) (D : List Nat) (v : List T) (hd : d < v.length)
    (hlt : ∀ i ∈ D, i < d) :
    pick (fun k => decide (k ∈ d :: D)) v
      = pick (fun k => decide (k ∈ D)) (v.eraseIdx d) ++ [v[d]] := by
  have hsplit : v = v.take d ++ v[d] :: v.drop (d + 1) := by
    rw [List.getElem_cons_drop, List.take_append_drop]
  have hlen : (v.take d).length = d := by rw [List.length_take]; omega
  rw [pick_eq_pickFrom, pick_eq_pickFrom, List.eraseIdx_eq_take_drop_succ]
  conv_lhs => rw [hsplit]
  rw [pickFrom_append, pickFrom_append, hlen]
  have h1 : pickFrom (fun k => decide (k ∈ d :: D)) 0 (v.take d)
      = pickFrom (fun k => decide (k ∈ D)) 0 (v.take d) := by
    apply pickFrom_congr
    intro k _ hk
    have : k ≠ d := by omega
    simp [this]
  have h2 : pickFrom (fun k => decide (k ∈ D)) (0 + d) (v.drop (d + 1)) = [] := by
    apply pickFrom_false
    intro k hk _
    have : k ∉ D := fun hm => by have := hlt k hm; omega
    simp [this]
  have h3 : pickFrom (fun k => decide (k ∈ d :: D)) (d + 1) (v.drop (d + 1)) = [] := by
    apply pickFrom_false
    intro k hk _
    have h4 : k ∉ D := fun hm => by have := hlt k hm; omega
    have h5 : k ≠ d := by omega
    simp [h4, h5]
  have h0 : decide (d ∈ d :: D) = true := by simp
  rw [h1, h2]
  simp only [pickFrom, Nat.zero_add, h0, if_true, h3, List.append_nil]

/-- The unmoved elements below the target, after one loop step (erase `d`,
decrement `pos` when it is above `d`), are those of the original vector. -/
theorem pick_lt_eraseIdx (d : Nat) (D : List Nat) (v : List T) (pos : Nat)
    (hlt : ∀ i ∈ D, i < d) :
    pick (fun k => decide (k ∉ D ∧ k < (if pos > d then pos - 1 else pos))) (v.eraseIdx d)
      = pick (fun k => decide (k ∉ d :: D ∧ k < pos)) v := by
  have hnot : ∀ k, d ≤ k → k ∉ D := fun k hk hm => by have := hlt k hm; omega
  apply pick_eraseIdx
  · simp
  · intro k hk
    have h1 : k ≠ d := by omega
    have h2 : (k < (if pos > d then pos - 1 else pos)) ↔ k < pos := by
      split <;> omega
    simp [h1, h2]
  · intro k hk
    have h1 : k + 1 ≠ d := by omega
    have h2 : (k < (if pos > d then pos - 1 else pos)) ↔ k + 1 < pos := by
      split <;> omega
    simp [h1, h2, hnot k hk, hnot (k + 1) (by omega)]

/-- The unmoved elements from the target on, after one loop step, are those of
the original vector. -/
theorem pick_ge_eraseIdx (d : Nat) (D : List Nat) (v : List T) (pos : Nat)
    (hlt : ∀ i ∈ D, i < d) :
    pick (fun k => decide (k ∉ D ∧ (if pos > d then pos - 1 else pos) ≤ k)) (v.eraseIdx d)
      = pick (fun k => decide (k ∉ d :: D ∧ pos ≤ k)) v := by
  have hnot : ∀ k, d ≤ k → k ∉ D := fun k hk hm => by have := hlt k hm; omega
  apply pick_eraseIdx
  · simp
  · intro k hk
    have h1 : k ≠ d := by omega
    have h2 : ((if pos > d then pos - 1 else pos) ≤ k) ↔ pos ≤ k := by
      split <;> omega
    simp [h1, h2]
  · intro k hk
    have h1 : k + 1 ≠ d := by omega
    have h2 : ((if pos > d then pos - 1 else pos) ≤ k) ↔ pos ≤ k + 1 := by
      split <;> omega
    simp [h1, h2, hnot k hk, hnot (k + 1) (by omega)]

theorem pick_lt_nil (pos : Nat) (v : List T) :
    pick (fun k => decide (k ∉ ([] : List Nat) ∧ k < pos)) v = v.take pos := by
  rw [pick_eq_pickFrom]
  have := pickFrom_lt pos 0 v
  simpa using this

theorem pick_ge_nil (pos : Nat) (v : List T) :
    pick (fun k => decide (k ∉ ([] : List Nat) ∧ pos ≤ k)) v = v.drop pos := by
  rw [pick_eq_pickFrom]
  have := pickFrom_ge pos 0 v
  simpa using this

/-- The move loop over a strictly descending list `D` of valid indices,
followed by the reinsertion: the unmoved elements below `pos`, then the moved
elements in ascending index order followed by what was already waiting in
`to_move` (reversed), then the unmoved elements from `pos` on. -/
theorem move_loop_spec (D : List Nat) (v : List T) (pos : Nat) (to_move : List T)
    (hs : D.Pairwise (fun a b => b < a)) (hv : ∀ i ∈ D, i < v.length) :
    (move_loop D v pos to_move).map move_finish
      = some (pick (fun k => decide (k ∉ D ∧ k < pos)) v
          ++ (pick (fun k => decide (k ∈ D)) v ++ to_move.reverse)
          ++ pick (fun k => decide (k ∉ D ∧ pos ≤ k)) v) := by
  induction D generalizing v pos to_move with
  | nil =>
    have h3 : pick (fun k => decide (k ∈ ([] : List Nat))) v = [] := by
      rw [pick_eq_pickFrom]
      exact pickFrom_false 0 v (by simp)
    rw [pick_lt_nil, pick_ge_nil, h3]
    simp only [move_loop, Option.map_some', move_finish, take_min_length, drop_min_length,
      List.nil_append]
  | cons d D ih =>
    have hd : d < v.length := hv d (by simp)
    obtain ⟨hlt, hs1⟩ := List.pairwise_cons.1 hs
    have hv1 : ∀ i ∈ D, i < (v.eraseIdx d).length := by
      intro i hi
      have := hlt i hi
      rw [List.length_eraseIdx_of_lt hd]; omega
    have hM := pick_mem_cons d D v hd hlt
    simp only [move_loop, hd, dif_pos]
    rw [ih (v.eraseIdx d) _ _ hs1 hv1, pick_lt_eraseIdx d D v pos hlt,
      pick_ge_eraseIdx d D v pos hlt, hM]
    simp

/-- The number of unmoved elements below the target: `pos` less the number of
moved indices below `pos`, capped at the number of unmoved elements. -/
theorem length_pick_lt (D : List Nat) (v : List T) (pos : Nat)
    (hs : D.Pairwise (fun a b => b < a)) (hv : ∀ i ∈ D, i < v.length) :
    (pick (fun k => decide (k ∉ D ∧ k < pos)) v).length
      = min (pos - (D.filter (fun i => decide (i < pos))).length) (v.length - D.length) := by
  induction D generalizing v pos with
  | nil => rw [pick_lt_nil]; simp
  | cons d D ih =>
    have hd : d < v.length := hv d (by simp)
    obtain ⟨hlt, hs1⟩ := List.pairwise_cons.1 hs
    have hv1 : ∀ i ∈ D, i < (v.eraseIdx d).length := by
      intro i hi
      have := hlt i hi
      rw [List.length_eraseIdx_of_lt hd]; omega
    rw [← pick_lt_eraseIdx d D v pos hlt, ih (v.eraseIdx d) _ hs1 hv1,
      List.length_eraseIdx_of_lt hd]
    by_cases hp : pos > d
    · have hall : ∀ (q : Nat), d ≤ q → D.filter (fun i => decide (i < q)) = D := by
        intro q hq
        apply List.filter_eq_self.2
        intro i hi
        have := hlt i hi
        simp; omega
      have e1 : (d :: D).filter (fun i => decide (i < pos)) = d :: D := by
        rw [List.filter_cons]
        simp only [hp, decide_True, if_true]
        rw [hall pos (by omega)]
      simp only [hp, if_true]
      rw [e1, hall (pos - 1) (by omega)]
      simp only [List.length_cons]
      omega
    · have e1 : (d :: D).filter (fun i => decide (i < pos)) = D.filter (fun i => decide (i < pos)) := by
        rw [List.filter_cons]
        have : ¬ d < pos := by omega
        simp [this]
      simp only [hp, if_false]
      rw [e1]
      simp only [List.length_cons]
      omega

/-- What `move_indices` returns for a strictly ascending list of valid
indices: `A ++ M ++ B`. -/
theorem move_indices_eq (v : List T) (pos : Nat) (I : List Nat)
    (hs : I.Pairwise (fun a b => a < b)) (hv : ∀ i ∈ I, i < v.length) :
    move_indices v pos I
      = some (pick (fun k => decide (k ∉ I ∧ k < pos)) v
          ++ pick (fun k => decide (k ∈ I)) v
          ++ pick (fun k => decide (k ∉ I ∧ pos ≤ k)) v) := by
  have hs1 : I.reverse.Pairwise (fun a b => b < a) := List.pairwise_reverse.2 hs
  have hv1 : ∀ i ∈ I.reverse, i < v.length := fun i hi => hv i (List.mem_reverse.1 hi)
  have h := move_loop_spec I.reverse v pos [] hs1 hv1
  simp only [List.mem_reverse, List.reverse_nil, List.append_nil] at h
  exact h

/-- For a strictly ascending list of valid indices, the selection of the
positions in `I` is the list of the elements at `I`, in the order of `I`. -/
theorem pick_mem_eq_filterMap (v : List T) (I : List Nat)
    (hs : I.Pairwise (fun a b => a < b)) (hv : ∀ i ∈ I, i < v.length) :
    pick (fun k => decide (k ∈ I)) v = I.filterMap (fun i => v[i]?) := by
  have key : ∀ (D : List Nat) (w : List T), D.Pairwise (fun a b => b < a) →
      (∀ i ∈ D, i < w.length) →
      pick (fun k => decide (k ∈ D)) w = D.reverse.filterMap (fun i => w[i]?) := by
    intro D
    induction D with
    | nil =>
      intro w _ _
      rw [pick_eq_pickFrom]
      exact pickFrom_false 0 w (by simp)
    | cons d D ih =>
      intro w hsD hvD
      have hd : d < w.length := hvD d (by simp)
      obtain ⟨hlt, hs1⟩ := List.pairwise_cons.1 hsD
      have hv1 : ∀ i ∈ D, i < (w.eraseIdx d).length := by
        intro i hi
        have := hlt i hi
        rw [List.length_eraseIdx_of_lt hd]; omega
      rw [pick_mem_cons d D w hd hlt, ih (w.eraseIdx d) hs1 hv1]
      simp only [List.reverse_cons, List.filterMap_append, List.filterMap_cons,
        List.filterMap_nil, List.getElem?_eq_getElem hd]
      congr 1
      apply List.filterMap_congr
      intro i hi
      have hi1 : i < d := hlt i (List.mem_reverse.1 hi)
      rw [List.getElem?_eraseIdx]
      simp [hi1]
  have hs1 : I.reverse.Pairwise (fun a b => b < a) := List.pairwise_reverse.2 hs
  have hv1 : ∀ i ∈ I.reverse, i < v.length := fun i hi => hv i (List.mem_reverse.1 hi)
  have h := key I.reverse v hs1 hv1
  simpa using h

/-! ### Relative order -/

theorem pickFrom_map {U : Type u} (f : T → U) (P : Nat → Bool) (n : Nat) (v : List T) :
    pickFrom P n (v.map f) = (pickFrom P n v).map f := by
  induction v generalizing n with
  | nil => rfl
  | cons x xs ih =>
    by_cases h : P n = true <;> simp [pickFrom, h, ih (n + 1)]

theorem pickFrom_enumFrom (P : Nat → Bool) (n : Nat) (v : List T) :
    pickFrom P n (v.enumFrom n) = (v.enumFrom n).filter (fun p => P p.1) := by
  induction v generalizing n with
  | nil => rfl
  | cons x xs ih =>
    by_cases h : P n = true <;>
      simp [pickFrom, List.enumFrom_cons, List.filter_cons, h, ih (n + 1)]

theorem pick_enum (P : Nat → Bool) (v : List T) :
    pick P v.enum = v.enum.filter (fun p => P p.1) := by
  rw [pick_eq_pickFrom]; exact pickFrom_enumFrom P 0 v

theorem pick_enum_map_snd (P : Nat → Bool) (v : List T) :
    (pick P v.enum).map Prod.snd = pick P v := by
  rw [pick_eq_pickFrom, ← pickFrom_map, List.enum_map_snd, pick_eq_pickFrom]

theorem pickFrom_split (P : Nat → Bool) (pos n : Nat) (v : List T) :
    pickFrom (fun k => P k && decide (k < pos)) n v
      ++ pickFrom (fun k => P k && decide (pos ≤ k)) n v = pickFrom P n v := by
  induction v generalizing n with
  | nil => rfl
  | cons x xs ih =>
    by_cases hn : n < pos
    · have h2 : ¬ pos ≤ n := by omega
      by_cases h : P n = true <;> simp [pickFrom, h, hn, h2, ih (n + 1)]
    · have h1 : pickFrom (fun k => P k && decide (k < pos)) n (x :: xs) = [] := by
        apply pickFrom_false
        intro k hk _
        have : ¬ k < pos := by omega
        simp [this]
      have h2 : pickFrom (fun k => P k && decide (pos ≤ k)) n (x :: xs)
          = pickFrom P n (x :: xs) := by
        apply pickFrom_congr
        intro k hk _
        have : pos ≤ k := by omega
        simp [this]
      rw [h1, h2, List.nil_append]

/-- For a strictly ascending list of valid indices the relative-order property
holds. -/
theorem keeps_relative_order_of_sorted (v : List T) (pos : Nat) (I : List Nat)
    (hs : I.Pairwise (fun a b => a < b)) (hv : ∀ i ∈ I, i < v.length) :
    keeps_relative_order v pos I := by
  have hv1 : ∀ i ∈ I, i < v.enum.length := by simpa using hv
  refine ⟨_, move_indices_eq v.enum pos I hs hv1, ?_, ?_, ?_⟩
  · rw [move_indices_eq v pos I hs hv]
    simp only [List.map_append, pick_enum_map_snd]
  · simp only [pick_enum, List.filter_append, List.filter_filter]
    have h1 : v.enum.filter (fun p => decide (p.1 ∈ I) && decide (p.1 ∉ I ∧ p.1 < pos)) = [] := by
      apply List.filter_eq_nil_iff.2
      intro p _
      by_cases h : p.1 ∈ I <;> simp [h]
    have h2 : v.enum.filter (fun p => decide (p.1 ∈ I) && decide (p.1 ∉ I ∧ pos ≤ p.1)) = [] := by
      apply List.filter_eq_nil_iff.2
      intro p _
      by_cases h : p.1 ∈ I <;> simp [h]
    have h3 : v.enum.filter (fun p => decide (p.1 ∈ I) && decide (p.1 ∈ I))
        = v.enum.filter (fun p => decide (p.1 ∈ I)) := by
      congr 1; funext p; simp
    rw [h1, h2, h3]; simp
  · simp only [pick_enum, List.filter_append, List.filter_filter]
    have h1 : v.enum.filter (fun p => decide (p.1 ∉ I) && decide (p.1 ∈ I)) = [] := by
      apply List.filter_eq_nil_iff.2
      intro p _
      by_cases h : p.1 ∈ I <;> simp [h]
    have h2 : v.enum.filter (fun p => decide (p.1 ∉ I) && decide (p.1 ∉ I ∧ p.1 < pos))
        = pick (fun k => decide (k ∉ I) && decide (k < pos)) v.enum := by
      rw [pick_enum]; congr 1; funext p
      by_cases h : p.1 ∈ I <;> simp [h]
    have h3 : v.enum.filter (fun p => decide (p.1 ∉ I) && decide (p.1 ∉ I ∧ pos ≤ p.1))
        = pick (fun k => decide (k ∉ I) && decide (pos ≤ k)) v.enum := by
      rw [pick_enum]; congr 1; funext p
      by_cases h : p.1 ∈ I <;> simp [h]
    rw [h1, h2, h3, List.append_nil, pick_eq_pickFrom, pick_eq_pickFrom, pickFrom_split,
      ← pick_eq_pickFrom, pick_enum]

/-! ### The claims on `move_indices` -/

/-- C2, as stated, fails: with `v = [0,1,2,3]`, `pos = 0` and the valid but
unsorted indices `[2,0]`, the loop removes `v[0]` and then the element that is
at index 2 by then, which is `v[3]`; the result is `[3,0,1,2]`, where the
unmoved elements `1` and `3` have changed their relative order. -/
theorem move_indices_unsorted_counterexample :
    (∀ i ∈ [2, 0], i < [0, 1, 2, 3].length) ∧
    move_indices [0, 1, 2, 3] 0 [2, 0] = some [3, 0, 1, 2] ∧
    ¬ keeps_relative_order [0, 1, 2, 3] 0 [2, 0] := by
  refine ⟨by decide, by decide, ?_⟩
  rintro ⟨w, h1, -, -, h4⟩
  have e : move_indices [0, 1, 2, 3].enum 0 [2, 0] = some [(3, 3), (0, 0), (1, 1), (2, 2)] := by
    decide
  rw [e] at h1
  cases h1
  exact absurd h4 (by decide)

/-- C2, amended. For every vector `v`, every target `pos` and every strictly
ascending list `I` of indices valid in `v`, `move_indices(v, pos, I)` returns,
keeps the moved elements in their original relative order and keeps the
unmoved elements in their original relative order. -/
theorem move_indices_keeps_relative_order (v : List T) (pos : Nat) (I : List Nat)
    (hs : I.Pairwise (fun a b => a < b)) (hv : ∀ i ∈ I, i < v.length) :
    keeps_relative_order v pos I :=
  keeps_relative_order_of_sorted v pos I hs hv

/-- Witness for C2 (amended): moving positions 0 and 2 of a four-element vector
to the end. -/
theorem move_indices_keeps_relative_order_witness :
    [0, 2].Pairwise (fun a b => a < b) ∧ (∀ i ∈ [0, 2], i < [7, 8, 7, 9].length) ∧
    keeps_relative_order [7, 8, 7, 9] 4 [0, 2] :=
  ⟨by decide, by decide,
    move_indices_keeps_relative_order [7, 8, 7, 9] 4 [0, 2] (by decide) (by decide)⟩

/-- C3. For every vector `v`, every `pos` and every strictly ascending list `I`
of indices all below `v.size()`, `move_indices(v, pos, I)` returns `A ++ M ++ B`:
`M` is the elements originally at `I` in ascending index order, `A` the unmoved
elements whose original index is below `pos`, `B` the unmoved elements whose
original index is at least `pos`. The batch starts at index `pos` less the
number of moved indices below `pos`, capped at the size of the vector after the
removals. -/
theorem move_indices_layout (v : List T) (pos : Nat) (I : List Nat)
    (hs : I.Pairwise (fun a b => a < b)) (hv : ∀ i ∈ I, i < v.length) :
    move_indices v pos I
      = some (pick (fun k => decide (k ∉ I ∧ k < pos)) v
          ++ pick (fun k => decide (k ∈ I)) v
          ++ pick (fun k => decide (k ∉ I ∧ pos ≤ k)) v) ∧
    pick (fun k => decide (k ∈ I)) v = I.filterMap (fun i => v[i]?) ∧
    (pick (fun k => decide (k ∉ I ∧ k < pos)) v).length
      = min (pos - (I.filter (fun i => decide (i < pos))).length) (v.length - I.length) := by
  refine ⟨move_indices_eq v pos I hs hv, pick_mem_eq_filterMap v I hs hv, ?_⟩
  have hs1 : I.reverse.Pairwise (fun a b => b < a) := List.pairwise_reverse.2 hs
  have hv1 : ∀ i ∈ I.reverse, i < v.length := fun i hi => hv i (List.mem_reverse.1 hi)
  have h := length_pick_lt I.reverse v pos hs1 hv1
  simp only [List.mem_reverse, List.filter_reverse, List.length_reverse] at h
  exact h

/-- Witness for C3: moving positions 1 and 3 of a five-element vector to
position 3. -/
theorem move_indices_layout_witness :
    [1, 3].Pairwise (fun a b => a < b) ∧ (∀ i ∈ [1, 3], i < [10, 11, 12, 13, 14].length) ∧
    (move_indices [10, 11, 12, 13, 14] 3 [1, 3]
      = some (pick (fun k => decide (k ∉ [1, 3] ∧ k < 3)) [10, 11, 12, 13, 14]
          ++ pick (fun k => decide (k ∈ [1, 3])) [10, 11, 12, 13, 14]
          ++ pick (fun k => decide (k ∉ [1, 3] ∧ 3 ≤ k)) [10, 11, 12, 13, 14]) ∧
    pick (fun k => decide (k ∈ [1, 3])) [10, 11, 12, 13, 14]
      = [1, 3].filterMap (fun i => [10, 11, 12, 13, 14][i]?) ∧
    (pick (fun k => decide (k ∉ [1, 3] ∧ k < 3)) [10, 11, 12, 13, 14]).length
      = min (3 - ([1, 3].filter (fun i => decide (i < 3))).length)
          ([10, 11, 12, 13, 14].length - [1, 3].length)) :=
  ⟨by decide, by decide,
    move_indices_layout [10, 11, 12, 13, 14] 3 [1, 3] (by decide) (by decide)⟩

/-- C4, as stated, fails: `move_indices(v, 2, {0})` on `[0,1,2,3,4]` does not
produce `[1,2,0,3,4]`. The loop removes item 0 and, as `pos > 0`, lowers `pos`
to 1, so the item is reinserted at index 1, just before the item formerly at
index 2. -/
theorem move_indices_drag_reorder_counterexample :
    move_indices [0, 1, 2, 3, 4] 2 [0] ≠ some [1, 2, 0, 3, 4] := by
  decide

/-- C4, amended. For the five items `[0,1,2,3,4]`, `move_indices(v, 2, {0})`
moves item 0 to just before the item formerly at index 2: the resulting order
is `[1,0,2,3,4]`. -/
theorem move_indices_drag_reorder :
    move_indices [0, 1, 2, 3, 4] 2 [0] = some [1, 0, 2, 3, 4] := by
  decide

/-- C5. Move round trip: for every vector `v`, every index `i < v.size()` and
every `pos <= v.size()`, `move_indices(v, pos, {i})` returns a vector in which
the moved element sits at index `q` (`q = pos-1` if `pos > i`, else `pos`), and
a second `move_indices` of `{q}` to the target `i` if `i <= q`, else `i+1`,
restores the original vector. -/
theorem move_indices_round_trip (v : List T) (i pos : Nat)
    (hi : i < v.length) (hpos : pos ≤ v.length) :
    ∃ w, move_indices v pos [i] = some w ∧
      w[if pos > i then pos - 1 else pos]? = some v[i] ∧
      move_indices w
        (if i ≤ (if pos > i then pos - 1 else pos) then i else i + 1)
        [if pos > i then pos - 1 else pos] = some v := by
  generalize hq : (if pos > i then pos - 1 else pos) = q
  have hlen : (v.eraseIdx i).length = v.length - 1 := List.length_eraseIdx_of_lt hi
  have hq1 : q ≤ (v.eraseIdx i).length := by rw [hlen, ← hq]; split <;> omega
  have hfirst : move_indices v pos [i]
      = some ((v.eraseIdx i).take q ++ v[i] :: (v.eraseIdx i).drop q) := by
    simp only [move_indices, List.reverse_cons, List.reverse_nil, List.nil_append, move_loop,
      hi, dif_pos, Option.map_some', move_finish, hq, Nat.min_eq_left hq1]
    simp
  have htake : ((v.eraseIdx i).take q).length = q := by
    rw [List.length_take]; omega
  refine ⟨_, hfirst, ?_, ?_⟩
  · rw [List.getElem?_append_right (by omega)]
    simp [htake]
  · have hwlen : q < ((v.eraseIdx i).take q ++ v[i] :: (v.eraseIdx i).drop q).length := by
      simp only [List.length_append, List.length_cons, htake]; omega
    have herase : ((v.eraseIdx i).take q ++ v[i] :: (v.eraseIdx i).drop q).eraseIdx q
        = v.eraseIdx i := by
      rw [List.eraseIdx_append_of_length_le (by omega), htake, Nat.sub_self]
      simp
    have hget : ((v.eraseIdx i).take q ++ v[i] :: (v.eraseIdx i).drop q)[q] = v[i] := by
      rw [List.getElem_append_right (by omega)]
      simp [htake]
    have ht : (if (if i ≤ q then i else i + 1) > q then (if i ≤ q then i else i + 1) - 1
        else (if i ≤ q then i else i + 1)) = i := by
      split <;> split <;> omega
    have hi1 : i ≤ (v.eraseIdx i).length := by omega
    simp only [move_indices, List.reverse_cons, List.reverse_nil, List.nil_append, move_loop,
      hwlen, dif_pos, Option.map_some', move_finish, herase, hget, ht, Nat.min_eq_left hi1]
    rw [List.eraseIdx_eq_take_drop_succ]
    have hti : (v.take i).length = i := by rw [List.length_take]; omega
    have e1 : (v.take i ++ v.drop (i + 1)).take i = v.take i := by
      rw [List.take_append_of_le_length (by omega), List.take_of_length_le (by omega)]
    have e2 : (v.take i ++ v.drop (i + 1)).drop i = v.drop (i + 1) := by
      rw [List.drop_append_of_le_length (by omega), List.drop_of_length_le (by omega)]
      simp
    rw [e1, e2]
    simp only [List.reverse_cons, List.reverse_nil, List.nil_append, List.append_assoc,
      List.singleton_append, List.getElem_cons_drop, List.take_append_drop]

/-- Witness for C5: moving index 0 of `[10,11,12]` to position 3 and back. -/
theorem move_indices_round_trip_witness :
    0 < [10, 11, 12].length ∧ 3 ≤ [10, 11, 12].length ∧
    ∃ w, move_indices [10, 11, 12] 3 [0] = some w ∧
      w[if 3 > 0 then 3 - 1 else 3]? = some 10 ∧
      move_indices w
        (if 0 ≤ (if 3 > 0 then 3 - 1 else 3) then 0 else 0 + 1)
        [if 3 > 0 then 3 - 1 else 3] = some [10, 11, 12] :=
  ⟨by decide, by decide, move_indices_round_trip [10, 11, 12] 0 3 (by decide) (by decide)⟩

/-! ## Deferred mutation of `list` -/

theorem issue_cells {C : Type u} (l : list C) (r : list_request) :
    (l.issue r)._cells = l._cells := by
  cases r <;> rfl

theorem foldl_issue_cells {C : Type u} (rs : List list_request) (l : list C) :
    (rs.foldl list.issue l)._cells = l._cells := by
  induction rs generalizing l with
  | nil => rfl
  | cons r rs ih => rw [List.foldl_cons, ih, issue_cells]

/-- Requests of different kinds write different members, so the order in which
an insert, an erase and a move are issued does not matter. -/
theorem issue_comm {C : Type u} (ipos n : Nat) (dels : List Nat) (mpos : Nat) (idx : List Nat)
    (x : list_request)
    (hx : x ∈ [list_request.insert ipos n, list_request.erase dels, list_request.move mpos idx])
    (y : list_request)
    (hy : y ∈ [list_request.insert ipos n, list_request.erase dels, list_request.move mpos idx])
    (z : list C) : (z.issue x).issue y = (z.issue y).issue x := by
  simp only [List.mem_cons, List.mem_singleton, List.not_mem_nil, or_false] at hx hy
  rcases hx with rfl | rfl | rfl <;> rcases hy with rfl | rfl | rfl <;> rfl

/-- The state after an insert, an erase and a move were issued in this order. -/
theorem issue_all {C : Type u} (l : list C) (ipos n : Nat) (dels : List Nat) (mpos : Nat)
    (idx : List Nat) :
    [list_request.insert ipos n, list_request.erase dels, list_request.move mpos idx].foldl
        list.issue l
      = { _cells := l._cells, _move_request := true, _insert_request := true,
          _erase_request := true,
          _request_info := some
            { _move_pos := mpos, _move_indices := idx, _insert_pos := ipos,
              _insert_num_items := n, _delete_indices := dels } } := by
  rfl

/-- C6. Deferred mutation of `list`: when an insert, an erase and a move are
issued, in any order, between two layout passes, the cells are unchanged after
every one of the calls; the next pass applies one change, the recorded erase,
then the insert, then the move on the cells as they were before the calls (it
returns exactly when that change is defined); after it no request is pending
and a further pass changes nothing. -/
theorem list_deferred_mutation {C : Type u} (fresh : C) (l : list C) (ipos n : Nat)
    (dels : List Nat) (mpos : Nat) (idx : List Nat) (rs : List list_request)
    (hperm : rs.Perm
      [list_request.insert ipos n, list_request.erase dels, list_request.move mpos idx]) :
    (∀ k, ((rs.take k).foldl list.issue l)._cells = l._cells) ∧
    list.sync fresh (rs.foldl list.issue l)
      = (erase_insert_move fresh l._cells dels ipos n mpos idx).map (fun c =>
          { _cells := c, _move_request := false, _insert_request := false,
            _erase_request := false, _request_info := none }) ∧
    (∀ l2, list.sync fresh (rs.foldl list.issue l) = some l2 →
      l2._move_request = false ∧ l2._insert_request = false ∧ l2._erase_request = false ∧
      l2._request_info = none ∧ list.sync fresh l2 = some l2) := by
  have hstate := (hperm.symm.foldl_eq' (issue_comm ipos n dels mpos idx) l).symm.trans
    (issue_all l ipos n dels mpos idx)
  have hsync : list.sync fresh (rs.foldl list.issue l)
      = (erase_insert_move fresh l._cells dels ipos n mpos idx).map (fun c =>
          { _cells := c, _move_request := false, _insert_request := false,
            _erase_request := false, _request_info := none }) := by
    rw [hstate]
    simp only [list.sync, erase_insert_move, Option.getD_some, if_true]
    cases erase_indices l._cells dels with
    | none => rfl
    | some c1 =>
      simp only [Option.some_bind]
      cases insert_cells fresh c1 ipos n with
      | none => rfl
      | some c2 =>
        simp only [Option.some_bind]
        cases move_indices c2 mpos idx <;> rfl
  refine ⟨fun k => foldl_issue_cells _ l, hsync, ?_⟩
  intro l2 h2
  rw [hsync] at h2
  cases hc : erase_insert_move fresh l._cells dels ipos n mpos idx with
  | none => rw [hc] at h2; cases h2
  | some c =>
    rw [hc] at h2
    cases h2
    exact ⟨rfl, rfl, rfl, rfl, rfl⟩

/-- Witness for C6: on the cells `[10,11,12,13]`, move `{0}` to 3, erase `{1}`
and insert 2 cells at 1, issued in this order. -/
theorem list_deferred_mutation_witness :
    [list_request.move 3 [0], list_request.erase [1], list_request.insert 1 2].Perm
      [list_request.insert 1 2, list_request.erase [1], list_request.move 3 [0]] ∧
    ((∀ k, ((([list_request.move 3 [0], list_request.erase [1],
          list_request.insert 1 2]).take k).foldl list.issue
        { _cells := [10, 11, 12, 13], _move_request := false, _insert_request := false,
          _erase_request := false, _request_info := none })._cells = [10, 11, 12, 13]) ∧
    list.sync 0 ([list_request.move 3 [0], list_request.erase [1],
          list_request.insert 1 2].foldl list.issue
        { _cells := [10, 11, 12, 13], _move_request := false, _insert_request := false,
          _erase_request := false, _request_info := none })
      = (erase_insert_move 0 [10, 11, 12, 13] [1] 1 2 3 [0]).map (fun c =>
          { _cells := c, _move_request := false, _insert_request := false,
            _erase_request := false, _request_info := none }) ∧
    (∀ l2, list.sync 0 ([list_request.move 3 [0], list_request.erase [1],
          list_request.insert 1 2].foldl list.issue
        { _cells := [10, 11, 12, 13], _move_request := false, _insert_request := false,
          _erase_request := false, _request_info := none }) = some l2 →
      l2._move_request = false ∧ l2._insert_request = false ∧ l2._erase_request = false ∧
      l2._request_info = none ∧ list.sync 0 l2 = some l2)) :=
  ⟨by decide,
    list_deferred_mutation 0
      { _cells := [10, 11, 12, 13], _move_request := false, _insert_request := false,
        _erase_request := false, _request_info := none }
      1 2 [1] 3 [0] _ (by decide)⟩

/-! ## Focus of `composite_base` -/

/-- What `keep_tracking` leaves as the bounds of a floating element `ob`: the
result of `resize_bounds` when the pointer moved and a handle is active, else
`ob`. -/
theorem keep_tracking_bounds [LinearOrder α] [Sub α] (track_info : tracker_info α)
    (ob : rect α) (state : Option resize_handle) (limits : view_limits α) :
    (keep_tracking track_info (some ob) state limits).1
      = some (match state with
          | some handle =>
            if track_info.current ≠ track_info.previous ∧ handle.nonzero = true then
              resize_bounds handle track_info.current ob limits
            else ob
          | none => ob) := by
  unfold keep_tracking
  by_cases hm : track_info.current ≠ track_info.previous
  · rw [if_pos hm]
    cases state with
    | none => rfl
    | some handle =>
      by_cases hn : handle.nonzero = true
      · simp only [hn, if_true, hm, ne_eq, not_false_eq_true, and_self]
        by_cases hb : resize_bounds handle track_info.current ob limits = ob
        · simp [hb]
        · simp [hb]
      · simp [hn]
  · rw [if_neg hm]
    cases state with
    | none => rfl
    | some handle => simp [hm]

/-- The horizontal edges after `resize_bounds`: those of `ob` when the proposed
width violates the limits, the dragged ones otherwise. -/
theorem resize_bounds_horizontal [LinearOrder α] [Sub α] (handle : resize_handle)
    (p : point α) (ob : rect α) (limits : view_limits α) :
    ((drag_edges handle p ob).width < limits.min.x ∨
        (drag_edges handle p ob).width > limits.max.x →
      (resize_bounds handle p ob limits).left = ob.left ∧
        (resize_bounds handle p ob limits).right = ob.right) ∧
    (¬ ((drag_edges handle p ob).width < limits.min.x ∨
        (drag_edges handle p ob).width > limits.max.x) →
      (resize_bounds handle p ob limits).left = (drag_edges handle p ob).left ∧
        (resize_bounds handle p ob limits).right = (drag_edges handle p ob).right) := by
  obtain ⟨hl, hr, ht, hb⟩ := handle
  constructor
  · intro hw
    simp only [resize_bounds, if_pos hw]
    cases hl <;> cases hr <;> cases ht <;> cases hb <;>
      simp [drag_edges] <;> split <;> simp
  · intro hw
    simp only [resize_bounds, if_neg hw]
    cases hl <;> cases hr <;> cases ht <;> cases hb <;>
      simp [drag_edges] <;> split <;> simp

/-- The vertical edges after `resize_bounds`: those of `ob` when the proposed
height violates the limits, the dragged ones otherwise. -/
theorem resize_bounds_vertical [LinearOrder α] [Sub α] (handle : resize_handle)
    (p : point α) (ob : rect α) (limits : view_limits α) :
    ((drag_edges handle p ob).height < limits.min.y ∨
        (drag_edges handle p ob).height > limits.max.y →
      (resize_bounds handle p ob limits).top = ob.top ∧
        (resize_bounds handle p ob limits).bottom = ob.bottom) ∧
    (¬ ((drag_edges handle p ob).height < limits.min.y ∨
        (drag_edges handle p ob).height > limits.max.y) →
      (resize_bounds handle p ob limits).top = (drag_edges handle p ob).top ∧
        (resize_bounds handle p ob limits).bottom = (drag_edges handle p ob).bottom) := by
  obtain ⟨hl, hr, ht, hb⟩ := handle
  constructor
  · intro hh
    simp only [resize_bounds, if_pos hh]
    cases hl <;> cases hr <;> cases ht <;> cases hb <;>
      simp [drag_edges] <;> split <;> simp
  · intro hh
    simp only [resize_bounds, if_neg hh]
    cases hl <;> cases hr <;> cases ht <;> cases hb <;>
      simp [drag_edges] <;> split <;> simp

/-- C9. Resize clamp: in a `keep_tracking` step of the window resizer with the
left handle active, the left edge of the floating element afterwards is
unchanged or the resulting width is at least `limits().min.x`; when the
proposed width (right edge minus pointer x) is below `min.x`, the left edge is
unchanged. -/
theorem resizer_left_edge_clamp [LinearOrder α] [Sub α] (track_info : tracker_info α)
    (ob : rect α) (handle : resize_handle) (limits : view_limits α)
    (hleft : handle.left = true) :
    ∃ b, (keep_tracking track_info (some ob) (some handle) limits).1 = some b ∧
      (b.left = ob.left ∨ limits.min.x ≤ b.width) ∧
      (ob.right - track_info.current.x < limits.min.x → b.left = ob.left) := by
  refine ⟨_, keep_tracking_bounds track_info ob (some handle) limits, ?_, ?_⟩
  · simp only
    split
    · have hdl : (drag_edges handle track_info.current ob).left = track_info.current.x := by
        obtain ⟨hl, hr, ht, hb⟩ := handle
        simp only at hleft
        subst hleft
        cases ht <;> cases hb <;> simp [drag_edges]
      have hdr : (drag_edges handle track_info.current ob).right = ob.right := by
        obtain ⟨hl, hr, ht, hb⟩ := handle
        simp only at hleft
        subst hleft
        cases ht <;> cases hb <;> simp [drag_edges]
      obtain ⟨h1, h2⟩ := resize_bounds_horizontal handle track_info.current ob limits
      by_cases hw : (drag_edges handle track_info.current ob).width < limits.min.x ∨
          (drag_edges handle track_info.current ob).width > limits.max.x
      · exact Or.inl (h1 hw).1
      · right
        obtain ⟨e1, e2⟩ := h2 hw
        have hge : limits.min.x ≤ (drag_edges handle track_info.current ob).width := by
          by_contra hlt
          exact hw (Or.inl (lt_of_not_le hlt))
        simp only [rect.width] at hge ⊢
        rw [e1, e2]
        exact hge
    · exact Or.inl rfl
  · intro hw
    simp only
    split
    · have hdw : (drag_edges handle track_info.current ob).width
          = ob.right - track_info.current.x := by
        obtain ⟨hl, hr, ht, hb⟩ := handle
        simp only at hleft
        subst hleft
        cases ht <;> cases hb <;> simp [drag_edges, rect.width]
      exact ((resize_bounds_horizontal handle track_info.current ob limits).1
        (Or.inl (by rw [hdw]; exact hw))).1
    · rfl

/-- Witness for C9: a window `[0,100] x [0,100]` with minimum width 50, left
handle dragged to `x = 80`; the proposed width 20 is refused. -/
theorem resizer_left_edge_clamp_witness :
    (({ left := true, right := false, top := false, bottom := false } : resize_handle).left
      = true) ∧
    ∃ b : rect Int,
      (keep_tracking
        ({ current := { x := 80, y := 50 }, previous := { x := 0, y := 50 } } : tracker_info Int)
        (some { left := 0, top := 0, right := 100, bottom := 100 })
        (some { left := true, right := false, top := false, bottom := false })
        { min := { x := 50, y := 50 }, max := { x := 1000, y := 1000 } }).1 = some b ∧
      (b.left = 0 ∨ (50 : Int) ≤ b.width) ∧
      ((100 : Int) - 80 < 50 → b.left = 0) :=
  ⟨rfl, resizer_left_edge_clamp
    ({ current := { x := 80, y := 50 }, previous := { x := 0, y := 50 } } : tracker_info Int)
    { left := 0, top := 0, right := 100, bottom := 100 }
    { left := true, right := false, top := false, bottom := false }
    { min := { x := 50, y := 50 }, max := { x := 1000, y := 1000 } } rfl⟩

/-- C10. Resizer limits invariant: in a `keep_tracking` step of the window
resizer, if the bounds of the floating element before the step have width in
`[limits.min.x, limits.max.x]` and height in `[limits.min.y, limits.max.y]`, so
do the bounds after the step. In a step that drags (the pointer moved and a
handle is active) the edges afterwards are these. With the left handle the
right edge stays and the left edge is the pointer's `x`, unless the proposed
width, right edge minus pointer `x`, violates the limits: then the left edge is
the one before the step. With the right handle (and no left one) the left edge
stays and the right edge is the pointer's `x`, unless the proposed width,
pointer `x` minus left edge, violates the limits. With neither, both stay. The
top and bottom edges follow the pointer's `y` and the proposed height in the
same way, whatever happens to the width: the change on one axis is applied also
when the other axis is rolled back. -/
theorem resizer_limits_invariant [LinearOrder α] [Sub α] (track_info : tracker_info α)
    (ob : rect α) (state : Option resize_handle) (limits : view_limits α)
    (hinv : within_limits ob limits) :
    ∃ b, (keep_tracking track_info (some ob) state limits).1 = some b ∧
      within_limits b limits ∧
      (∀ handle, state = some handle → handle.nonzero = true →
        track_info.current ≠ track_info.previous →
        ((handle.left = true →
            b.right = ob.right ∧
            b.left = (if ob.right - track_info.current.x < limits.min.x ∨
                ob.right - track_info.current.x > limits.max.x
              then ob.left else track_info.current.x)) ∧
          (handle.left = false → handle.right = true →
            b.left = ob.left ∧
            b.right = (if track_info.current.x - ob.left < limits.min.x ∨
                track_info.current.x - ob.left > limits.max.x
              then ob.right else track_info.current.x)) ∧
          (handle.left = false → handle.right = false →
            b.left = ob.left ∧ b.right = ob.right) ∧
          (handle.top = true →
            b.bottom = ob.bottom ∧
            b.top = (if ob.bottom - track_info.current.y < limits.min.y ∨
                ob.bottom - track_info.current.y > limits.max.y
              then ob.top else track_info.current.y)) ∧
          (handle.top = false → handle.bottom = true →
            b.top = ob.top ∧
            b.bottom = (if track_info.current.y - ob.top < limits.min.y ∨
                track_info.current.y - ob.top > limits.max.y
              then ob.bottom else track_info.current.y)) ∧
          (handle.top = false → handle.bottom = false →
            b.top = ob.top ∧ b.bottom = ob.bottom))) := by
  have hres : ∀ handle : resize_handle,
      within_limits (resize_bounds handle track_info.current ob limits) limits := by
    intro handle
    obtain ⟨h1, h2⟩ := resize_bounds_horizontal handle track_info.current ob limits
    obtain ⟨v1, v2⟩ := resize_bounds_vertical handle track_info.current ob limits
    obtain ⟨i1, i2, i3, i4⟩ := hinv
    simp only [within_limits, rect.width, rect.height] at i1 i2 i3 i4 h2 v2 ⊢
    refine ⟨?_, ?_, ?_, ?_⟩
    · by_cases hw : (drag_edges handle track_info.current ob).width < limits.min.x ∨
          (drag_edges handle track_info.current ob).width > limits.max.x
      · rw [(h1 hw).1, (h1 hw).2]; exact i1
      · have hw1 := hw
        simp only [rect.width] at hw1
        rw [(h2 hw1).1, (h2 hw1).2]
        exact le_of_not_lt (fun hlt => hw1 (Or.inl hlt))
    · by_cases hw : (drag_edges handle track_info.current ob).width < limits.min.x ∨
          (drag_edges handle track_info.current ob).width > limits.max.x
      · rw [(h1 hw).1, (h1 hw).2]; exact i2
      · have hw1 := hw
        simp only [rect.width] at hw1
        rw [(h2 hw1).1, (h2 hw1).2]
        exact le_of_not_lt (fun hlt => hw1 (Or.inr hlt))
    · by_cases hh : (drag_edges handle track_info.current ob).height < limits.min.y ∨
          (drag_edges handle track_info.current ob).height > limits.max.y
      · rw [(v1 hh).1, (v1 hh).2]; exact i3
      · have hh1 := hh
        simp only [rect.height] at hh1
        rw [(v2 hh1).1, (v2 hh1).2]
        exact le_of_not_lt (fun hlt => hh1 (Or.inl hlt))
    · by_cases hh : (drag_edges handle track_info.current ob).height < limits.min.y ∨
          (drag_edges handle track_info.current ob).height > limits.max.y
      · rw [(v1 hh).1, (v1 hh).2]; exact i4
      · have hh1 := hh
        simp only [rect.height] at hh1
        rw [(v2 hh1).1, (v2 hh1).2]
        exact le_of_not_lt (fun hlt => hh1 (Or.inr hlt))
  refine ⟨_, keep_tracking_bounds track_info ob state limits, ?_, ?_⟩
  · cases state with
    | none => exact hinv
    | some handle =>
      simp only
      split
      · exact hres handle
      · exact hinv
  · intro handle hs hn hm
    subst hs
    simp only [hn, hm, ne_eq, not_false_eq_true, and_self, if_true]
    obtain ⟨hl, hr, ht, hb⟩ := handle
    cases hl <;> cases hr <;> cases ht <;> cases hb <;>
      simp [resize_bounds, drag_edges, rect.width, rect.height] <;>
      (try split_ifs) <;> simp_all

/-- Witness for C10: the top-left corner of the sample window dragged to
`(80, 20)`: the proposed width 20 is refused and the left edge stays at 0, the
proposed height 80 is accepted and the top edge moves to 20. -/
theorem resizer_limits_invariant_witness :
    within_limits sample_window sample_limits ∧
    (keep_tracking sample_drag (some sample_window) (some top_left_handle) sample_limits).1
      = some { left := 0, top := 20, right := 100, bottom := 100 } ∧
    ∃ b, (keep_tracking sample_drag (some sample_window) (some top_left_handle)
        sample_limits).1 = some b ∧
      within_limits b sample_limits ∧
      (∀ handle, some top_left_handle = some handle → handle.nonzero = true →
        sample_drag.current ≠ sample_drag.previous →
        ((handle.left = true →
            b.right = sample_window.right ∧
            b.left = (if sample_window.right - sample_drag.current.x < sample_limits.min.x ∨
                sample_window.right - sample_drag.current.x > sample_limits.max.x
              then sample_window.left else sample_drag.current.x)) ∧
          (handle.left = false → handle.right = true →
            b.left = sample_window.left ∧
            b.right = (if sample_drag.current.x - sample_window.left < sample_limits.min.x ∨
                sample_drag.current.x - sample_window.left > sample_limits.max.x
              then sample_window.right else sample_drag.current.x)) ∧
          (handle.left = false → handle.right = false →
            b.left = sample_window.left ∧ b.right = sample_window.right) ∧
          (handle.top = true →
            b.bottom = sample_window.bottom ∧
            b.top = (if sample_window.bottom - sample_drag.current.y < sample_limits.min.y ∨
                sample_window.bottom - sample_drag.current.y > sample_limits.max.y
              then sample_window.top else sample_drag.current.y)) ∧
          (handle.top = false → handle.bottom = true →
            b.top = sample_window.top ∧
            b.bottom = (if sample_drag.current.y - sample_window.top < sample_limits.min.y ∨
                sample_drag.current.y - sample_window.top > sample_limits.max.y
              then sample_window.bottom else sample_drag.current.y)) ∧
          (handle.top = false → handle.bottom = false →
            b.top = sample_window.top ∧ b.bottom = sample_window.bottom))) :=
  ⟨by refine ⟨?_, ?_, ?_, ?_⟩ <;> decide, by decide,
    resizer_limits_invariant sample_drag sample_window (some top_left_handle) sample_limits
      (by refine ⟨?_, ?_, ?_, ?_⟩ <;> decide)⟩

/-! ## Index safety -/

theorem erase_steps_in_bounds (D : List Nat) (v : List T)
    (hs : D.Pairwise (fun a b => b < a)) (hv : ∀ i ∈ D, i < v.length) :
    ∀ s ∈ erase_steps D v, s.1 < s.2 := by
  induction D generalizing v with
  | nil => intro s hs; simp [erase_steps] at hs
  | cons d D ih =>
    have hd : d < v.length := hv d (by simp)
    obtain ⟨hlt, hs1⟩ := List.pairwise_cons.1 hs
    have hv1 : ∀ i ∈ D, i < (v.eraseIdx d).length := by
      intro i hi
      have := hlt i hi
      rw [List.length_eraseIdx_of_lt hd]; omega
    intro s hmem
    simp only [erase_steps, List.mem_cons] at hmem
    rcases hmem with rfl | hmem
    · exact hd
    · exact ih (v.eraseIdx d) hs1 hv1 s hmem

theorem move_steps_in_bounds (D : List Nat) (v : List T) (pos : Nat)
    (hs : D.Pairwise (fun a b => b < a)) (hv : ∀ i ∈ D, i < v.length) :
    ∀ s ∈ move_steps D v pos, s.1 < s.2.1 ∧ (s.2.2 > s.1 → 0 < s.2.2) := by
  induction D generalizing v pos with
  | nil => intro s hs; simp [move_steps] at hs
  | cons d D ih =>
    have hd : d < v.length := hv d (by simp)
    obtain ⟨hlt, hs1⟩ := List.pairwise_cons.1 hs
    have hv1 : ∀ i ∈ D, i < (v.eraseIdx d).length := by
      intro i hi
      have := hlt i hi
      rw [List.length_eraseIdx_of_lt hd]; omega
    intro s hmem
    simp only [move_steps, List.mem_cons] at hmem
    rcases hmem with rfl | hmem
    · exact ⟨hd, fun h => by simp only at h ⊢; omega⟩
    · exact ih (v.eraseIdx d) _ hs1 hv1 s hmem

/-- With a target below `2^64` the wrapping decrement never wraps: the loop on
`std::size_t` is the loop on natural numbers. -/
theorem move_loop_wrapping_eq (D : List Nat) (v : List T) (pos : Nat) (to_move : List T)
    (hpos : pos < 2 ^ 64) :
    move_loop_wrapping D v pos to_move = move_loop D v pos to_move := by
  induction D generalizing v pos to_move with
  | nil => rfl
  | cons d D ih =>
    simp only [move_loop_wrapping, move_loop]
    split
    · by_cases hp : pos > d
      · have e : (pos + (2 ^ 64 - 1)) % 2 ^ 64 = pos - 1 := by omega
        simp only [hp, if_true, e]
        exact ih _ _ _ (by omega)
      · simp only [hp, if_false]
        exact ih _ _ _ hpos
    · rfl

/-- The move loop over a strictly descending list of valid indices returns, and
leaves a vector shorter by one element per index. -/
theorem move_loop_some (D : List Nat) (v : List T) (pos : Nat) (to_move : List T)
    (hs : D.Pairwise (fun a b => b < a)) (hv : ∀ i ∈ D, i < v.length) :
    ∃ s, move_loop D v pos to_move = some s ∧ s.1.length + D.length = v.length ∧
      s.2.1 ≤ pos ∧ s.2.2.length = to_move.length + D.length := by
  induction D generalizing v pos to_move with
  | nil => exact ⟨_, rfl, rfl, Nat.le_refl _, rfl⟩
  | cons d D ih =>
    have hd : d < v.length := hv d (by simp)
    obtain ⟨hlt, hs1⟩ := List.pairwise_cons.1 hs
    have hv1 : ∀ i ∈ D, i < (v.eraseIdx d).length := by
      intro i hi
      have := hlt i hi
      rw [List.length_eraseIdx_of_lt hd]; omega
    obtain ⟨s, h1, h2, h3, h4⟩ :=
      ih (v.eraseIdx d) (if pos > d then pos - 1 else pos) (to_move ++ [v[d]]) hs1 hv1
    refine ⟨s, ?_, ?_, ?_, ?_⟩
    · simp only [move_loop, hd, dif_pos]; exact h1
    · rw [List.length_eraseIdx_of_lt hd] at h2
      simp only [List.length_cons]; omega
    · have : (if pos > d then pos - 1 else pos) ≤ pos := by split <;> omega
      omega
    · simp only [List.length_append, List.length_cons, List.length_nil] at h4 ⊢
      omega

/-- C20. Index safety of `erase_indices` and `move_indices`: for every vector
`v` and strictly ascending list `I` of indices all below `v.size()`, both
functions return (no access or erase leaves the vector); in every iteration
the index used is below the size of the vector as it has shrunk so far; `pos`
is decremented only when it is positive, so that the loop on a wrapping 64-bit
`pos` is the loop on natural numbers; and the final insertion position
`min(pos, v.size())` is at most the size of the shrunk vector, for every
`pos`. -/
theorem index_utilities_in_bounds (v : List T) (pos : Nat) (I : List Nat)
    (hs : I.Pairwise (fun a b => a < b)) (hv : ∀ i ∈ I, i < v.length)
    (hpos : pos < 2 ^ 64) :
    (∃ w, erase_indices v I = some w) ∧
    (∀ s ∈ erase_steps I.reverse v, s.1 < s.2) ∧
    (∀ s ∈ move_steps I.reverse v pos, s.1 < s.2.1 ∧ (s.2.2 > s.1 → 0 < s.2.2)) ∧
    (∃ s, move_loop I.reverse v pos [] = some s ∧
      move_loop_wrapping I.reverse v pos [] = some s ∧
      s.1.length + I.length = v.length ∧
      min s.2.1 s.1.length ≤ s.1.length ∧
      move_indices v pos I = some (move_finish s)) := by
  have hs1 : I.reverse.Pairwise (fun a b => b < a) := List.pairwise_reverse.2 hs
  have hv1 : ∀ i ∈ I.reverse, i < v.length := fun i hi => hv i (List.mem_reverse.1 hi)
  refine ⟨⟨_, (erase_loop_spec I.reverse v hs1 hv1).1⟩,
    erase_steps_in_bounds I.reverse v hs1 hv1,
    move_steps_in_bounds I.reverse v pos hs1 hv1, ?_⟩
  obtain ⟨s, h1, h2, _, _⟩ := move_loop_some I.reverse v pos [] hs1 hv1
  refine ⟨s, h1, ?_, ?_, Nat.min_le_right _ _, ?_⟩
  · rw [move_loop_wrapping_eq _ _ _ _ hpos]; exact h1
  · rw [List.length_reverse] at h2; exact h2
  · simp only [move_indices, h1, Option.map_some']

/-- Witness for C20: positions 1 and 3 of a five-element vector, target 0. -/
theorem index_utilities_in_bounds_witness :
    [1, 3].Pairwise (fun a b => a < b) ∧ (∀ i ∈ [1, 3], i < [10, 11, 12, 13, 14].length) ∧
    (0 : Nat) < 2 ^ 64 ∧
    ((∃ w, erase_indices [10, 11, 12, 13, 14] [1, 3] = some w) ∧
    (∀ s ∈ erase_steps [1, 3].reverse [10, 11, 12, 13, 14], s.1 < s.2) ∧
    (∀ s ∈ move_steps [1, 3].reverse [10, 11, 12, 13, 14] 0,
      s.1 < s.2.1 ∧ (s.2.2 > s.1 → 0 < s.2.2)) ∧
    (∃ s, move_loop [1, 3].reverse [10, 11, 12, 13, 14] 0 [] = some s ∧
      move_loop_wrapping [1, 3].reverse [10, 11, 12, 13, 14] 0 [] = some s ∧
      s.1.length + [1, 3].length = [10, 11, 12, 13, 14].length ∧
      min s.2.1 s.1.length ≤ s.1.length ∧
      move_indices [10, 11, 12, 13, 14] 0 [1, 3] = some (move_finish s))) :=
  ⟨by decide, by decide, by norm_num,
    index_utilities_in_bounds [10, 11, 12, 13, 14] 0 [1, 3] (by decide) (by decide)
      (by norm_num)⟩

/-! ## Size and indexing of composites -/

/-- C19. Composite size/at consistency: for `composite<Container, Base>`,
`size()` is the size of the backing container and `at(ix)` is the element
stored at `ix`, valid for every `ix < size()`; for
`range_composite(container, first, last)` with
`first <= last <= container.size()`, `size()` is `last - first` and for every
`ix < size()`, `at(ix)` is `container.at(first + ix)`, where `first + ix` is a
valid index of the container. -/
theorem composite_size_at_consistent {E : Type} (c : composite E) (first last : Nat)
    (h1 : first ≤ last) (h2 : last ≤ c.size) (h3 : c.size < 2 ^ 64) :
    c.size = c.container.length ∧
    (∀ ix, c.at ix = c.container[ix]?) ∧
    (∀ ix, ix < c.size → ∃ e, c.at ix = some e) ∧
    (range_composite.size { _first := first, _last := last, _container := c } = last - first) ∧
    (∀ ix, ix < range_composite.size { _first := first, _last := last, _container := c } →
      first + ix < c.size ∧
      range_composite.at { _first := first, _last := last, _container := c } ix
        = c.at (first + ix) ∧
      ∃ e, range_composite.at { _first := first, _last := last, _container := c } ix
        = some e) := by
  have hsize : range_composite.size { _first := first, _last := last, _container := c }
      = last - first := by
    simp only [range_composite.size]
    omega
  have hat : ∀ ix, ix < c.size → ∃ e, c.at ix = some e := by
    intro ix hix
    exact ⟨c.container[ix], by
      simp only [composite.at]
      exact List.getElem?_eq_getElem hix⟩
  refine ⟨rfl, fun _ => rfl, hat, hsize, ?_⟩
  intro ix hix
  rw [hsize] at hix
  have hlt : first + ix < c.size := by omega
  have hmod : (first + ix) % 2 ^ 64 = first + ix := Nat.mod_eq_of_lt (by omega)
  refine ⟨hlt, ?_, ?_⟩
  · simp only [range_composite.at, hmod]
  · simp only [range_composite.at, hmod]
    exact hat _ hlt

/-- Witness for C19: the range `[1, 3)` of a four-element composite. -/
theorem composite_size_at_consistent_witness :
    (1 : Nat) ≤ 3 ∧ 3 ≤ composite.size ({ container := [10, 11, 12, 13] } : composite Nat) ∧
    composite.size ({ container := [10, 11, 12, 13] } : composite Nat) < 2 ^ 64 ∧
    range_composite.size
      { _first := 1, _last := 3, _container := ({ container := [10, 11, 12, 13] } : composite Nat) }
      = 3 - 1 :=
  ⟨by decide, by decide, by simp [composite.size],
    (composite_size_at_consistent ({ container := [10, 11, 12, 13] } : composite Nat) 1 3
      (by decide) (by decide) (by simp [composite.size])).2.2.2.1⟩

/-! ## The context chain -/

theorem element_enabled_iff (enabled_of : element_node K → Bool)
    (element_ : Option (element_node K)) :
    element_enabled enabled_of element_ = true ↔
      ∃ e, element_ = some e ∧ enabled_of e = true := by
  cases element_ with
  | none => simp [element_enabled]
  | some e => simp [element_enabled]

/-- A context built by the constructors is enabled exactly when every context
of its chain, itself included, has a non-null, enabled element. -/
theorem constructed_enabled (enabled_of : element_node K → Bool)
    (c : linked_context V C K α) (hc : linked_context.constructed enabled_of c) :
    c.data.enabled = true ↔
      ∀ p ∈ c.self_and_ancestors, ∃ e, p.data.element = some e ∧ enabled_of e = true := by
  induction hc with
  | root view_ canvas_ element_ bounds_ =>
    simp only [linked_context.make_root, linked_context.data,
      linked_context.self_and_ancestors, List.mem_singleton, forall_eq]
    exact element_enabled_iff enabled_of element_
  | child parent_ element_ bounds_ _ ih =>
    show (parent_.data.enabled && element_enabled enabled_of element_) = true ↔
      ∀ p ∈ linked_context.make_child enabled_of parent_ element_ bounds_ ::
          parent_.self_and_ancestors,
        ∃ e, p.data.element = some e ∧ enabled_of e = true
    rw [Bool.and_eq_true, ih, element_enabled_iff, List.forall_mem_cons]
    exact And.comm

/-- C12. Context enabled flag: a context built from a parent context and an
element is enabled exactly when the parent is enabled and the element is
non-null and enabled; a root context exactly when its element is non-null and
enabled; the parent link of the first is the given parent, that of the second
is null, and view and canvas are those of the parent (those given, at the
root). Hence a context built by these constructors is enabled exactly when
every element of its chain is non-null and enabled. -/
theorem context_enabled_flag (enabled_of : element_node K → Bool)
    (parent_ : linked_context V C K α) (element_ : Option (element_node K))
    (bounds_ : rect α) (view_ : V) (canvas_ : C) :
    ((linked_context.make_child enabled_of parent_ element_ bounds_).data.enabled = true ↔
      parent_.data.enabled = true ∧ ∃ e, element_ = some e ∧ enabled_of e = true) ∧
    (linked_context.make_child enabled_of parent_ element_ bounds_).parent = some parent_ ∧
    (linked_context.make_child enabled_of parent_ element_ bounds_).data.view
      = parent_.data.view ∧
    (linked_context.make_child enabled_of parent_ element_ bounds_).data.canvas
      = parent_.data.canvas ∧
    (linked_context.make_child enabled_of parent_ element_ bounds_).data.element = element_ ∧
    (linked_context.make_child enabled_of parent_ element_ bounds_).data.bounds = bounds_ ∧
    (((linked_context.make_root enabled_of view_ canvas_ element_ bounds_ :
        linked_context V C K α).data.enabled = true) ↔
      ∃ e, element_ = some e ∧ enabled_of e = true) ∧
    (linked_context.make_root enabled_of view_ canvas_ element_ bounds_ :
        linked_context V C K α).parent = none ∧
    (linked_context.make_root enabled_of view_ canvas_ element_ bounds_ :
        linked_context V C K α).data.view = view_ ∧
    (linked_context.make_root enabled_of view_ canvas_ element_ bounds_ :
        linked_context V C K α).data.canvas = canvas_ ∧
    (∀ c : linked_context V C K α, linked_context.constructed enabled_of c →
      (c.data.enabled = true ↔
        ∀ p ∈ c.self_and_ancestors, ∃ e, p.data.element = some e ∧ enabled_of e = true)) := by
  refine ⟨?_, rfl, rfl, rfl, rfl, rfl, ?_, rfl, rfl, rfl, ?_⟩
  · show (parent_.data.enabled && element_enabled enabled_of element_) = true ↔ _
    rw [Bool.and_eq_true, element_enabled_iff]
  · show element_enabled enabled_of element_ = true ↔ _
    rw [element_enabled_iff]
  · exact fun c hc => constructed_enabled enabled_of c hc

/-! ## Searches along the context chain -/

theorem find_element_impl_eq (is_T : K → Bool) (e : element_node K) :
    find_element_impl is_T e = e.indirect_chain.find? (fun x => is_T x.cls) := by
  induction e with
  | plain a k =>
    by_cases h : is_T k = true <;>
      simp [find_element_impl, element_node.indirect_chain, element_node.cls, h]
  | proxy a k s _ =>
    by_cases h : is_T k = true <;>
      simp [find_element_impl, element_node.indirect_chain, element_node.cls, h]
  | indirect a k t ih =>
    by_cases h : is_T k = true <;>
      simp [find_element_impl, element_node.indirect_chain, element_node.cls, h, ih]

theorem find_element_ptr_eq (is_T : K → Bool) (e_ : Option (element_node K)) :
    find_element_ptr is_T e_ = first_of_type is_T e_ := by
  cases e_ with
  | none => rfl
  | some e => exact find_element_impl_eq is_T e

theorem find_parent_loop_eq (is_T : K → Bool) (p : linked_context V C K α) :
    find_parent_loop is_T p
      = p.self_and_ancestors.findSome? (fun q => first_of_type is_T q.data.element) := by
  induction p with
  | root d =>
    simp only [find_parent_loop, linked_context.self_and_ancestors, List.findSome?_cons,
      List.findSome?_nil, linked_context.data, find_element_ptr_eq]
    cases first_of_type is_T d.element <;> rfl
  | child d p ih =>
    simp only [find_parent_loop, linked_context.self_and_ancestors, List.findSome?_cons,
      linked_context.data, find_element_ptr_eq, ih]
    cases first_of_type is_T d.element <;> rfl

theorem find_parent_context_loop_eq (is_T : K → Bool) (p : linked_context V C K α) :
    find_parent_context_loop is_T p
      = p.self_and_ancestors.find? (fun q => (first_of_type is_T q.data.element).isSome) := by
  induction p with
  | root d =>
    simp only [find_parent_context_loop, linked_context.self_and_ancestors, List.find?_cons,
      List.find?_nil, linked_context.data, find_element_ptr_eq]
    cases first_of_type is_T d.element <;> rfl
  | child d p ih =>
    simp only [find_parent_context_loop, linked_context.self_and_ancestors, List.find?_cons,
      linked_context.data, find_element_ptr_eq, ih]
    cases first_of_type is_T d.element <;> rfl

theorem find_parent_eq (is_T : K → Bool) (ctx : linked_context V C K α) :
    find_parent is_T ctx
      = ctx.ancestors.findSome? (fun p => first_of_type is_T p.data.element) := by
  unfold find_parent linked_context.ancestors
  cases ctx.parent with
  | none => rfl
  | some p => exact find_parent_loop_eq is_T p

theorem find_parent_context_eq (is_T : K → Bool) (ctx : linked_context V C K α) :
    find_parent_context is_T ctx
      = ctx.ancestors.find? (fun p => (first_of_type is_T p.data.element).isSome) := by
  unfold find_parent_context linked_context.ancestors
  cases ctx.parent with
  | none => rfl
  | some p => exact find_parent_context_loop_eq is_T p

/-- On any list, the first ancestor with a match and the first match belong
together. -/
theorem findSome_of_find {A B : Type} (f : A → Option B) (l : List A) :
    (∀ p, l.find? (fun q => (f q).isSome) = some p → l.findSome? f = f p) ∧
    (l.find? (fun q => (f q).isSome) = none ↔ l.findSome? f = none) := by
  induction l with
  | nil => simp
  | cons a l ih =>
    cases h : f a with
    | none =>
      simp only [List.find?_cons, List.findSome?_cons, h, Option.isSome_none]
      exact ih
    | some b =>
      simp only [List.find?_cons, List.findSome?_cons, h, Option.isSome_some]
      constructor
      · intro p hp
        simp only [Option.some.injEq] at hp
        rw [← hp, h]
      · simp

/-- C14. `find_parent<T>(ctx)` returns the match of the nearest strict ancestor
context of `ctx` whose element is of type `T` or is an indirect element with a
(transitive) target of type `T`; it is null exactly when no strict ancestor
has such a match; it does not look at `ctx` itself, only at its parent link.
`find_parent_context<T>(ctx)` returns that nearest ancestor, the context at
which `find_parent<T>` finds its match. -/
theorem find_parent_innermost (is_T : K → Bool) (ctx : linked_context V C K α) :
    find_parent is_T ctx
      = ctx.ancestors.findSome? (fun p => first_of_type is_T p.data.element) ∧
    find_parent_context is_T ctx
      = ctx.ancestors.find? (fun p => (first_of_type is_T p.data.element).isSome) ∧
    (find_parent is_T ctx = none ↔
      ∀ p ∈ ctx.ancestors, first_of_type is_T p.data.element = none) ∧
    (∀ r, find_parent is_T ctx = some r → is_T r.cls = true) ∧
    (∀ ctx2 : linked_context V C K α, ctx2.parent = ctx.parent →
      find_parent is_T ctx2 = find_parent is_T ctx ∧
      find_parent_context is_T ctx2 = find_parent_context is_T ctx) ∧
    (∀ p, find_parent_context is_T ctx = some p →
      p ∈ ctx.ancestors ∧ find_parent is_T ctx = first_of_type is_T p.data.element ∧
      (find_parent is_T ctx).isSome = true) ∧
    (find_parent_context is_T ctx = none ↔ find_parent is_T ctx = none) := by
  have h1 := find_parent_eq is_T ctx
  have h2 := find_parent_context_eq is_T ctx
  obtain ⟨h3, h4⟩ := findSome_of_find (fun p : linked_context V C K α =>
    first_of_type is_T p.data.element) ctx.ancestors
  refine ⟨h1, h2, ?_, ?_, ?_, ?_, ?_⟩
  · rw [h1, List.findSome?_eq_none_iff]
  · intro r hr
    rw [h1] at hr
    obtain ⟨p, _, hp⟩ := List.exists_of_findSome?_eq_some hr
    unfold first_of_type at hp
    cases he : p.data.element with
    | none => rw [he] at hp; cases hp
    | some e =>
      rw [he] at hp
      have := List.find?_some hp
      exact this
  · intro ctx2 hpar
    unfold find_parent find_parent_context
    rw [hpar]
    exact ⟨rfl, rfl⟩
  · intro p hp
    rw [h2] at hp
    have hmem := List.mem_of_find?_eq_some hp
    have hsome := List.find?_some hp
    have heq : find_parent is_T ctx = first_of_type is_T p.data.element := by
      rw [h1]; exact h3 p hp
    exact ⟨hmem, heq, by rw [heq]; exact hsome⟩
  · rw [h1, h2]; exact h4

/-! ## Searches through proxies -/

theorem find_element_impl_depth (is_T : K → Bool) (e r : element_node K)
    (h : find_element_impl is_T e = some r) : r.depth ≤ e.depth ∧ is_T r.cls = true := by
  induction e with
  | plain a k =>
    simp only [find_element_impl] at h
    split at h
    · cases h; exact ⟨Nat.le_refl _, by simpa [element_node.cls]⟩
    · cases h
  | proxy a k s _ =>
    simp only [find_element_impl] at h
    split at h
    · cases h; exact ⟨Nat.le_refl _, by simpa [element_node.cls]⟩
    · cases h
  | indirect a k t ih =>
    simp only [find_element_impl] at h
    split at h
    · cases h; exact ⟨Nat.le_refl _, by simpa [element_node.cls]⟩
    · obtain ⟨h1, h2⟩ := ih h
      exact ⟨by simp only [element_node.depth]; omega, h2⟩

theorem find_subject_eq (is_T : K → Bool) (e : element_node K) :
    find_subject is_T e
      = e.subjects.findSome? (fun s => s.indirect_chain.find? (fun x => is_T x.cls)) := by
  induction e with
  | plain a k => rfl
  | indirect a k t _ => rfl
  | proxy a k s ih =>
    simp only [find_subject, element_node.subjects, List.findSome?_cons,
      find_element_impl_eq, ih]
    cases s.indirect_chain.find? (fun x => is_T x.cls) <;> rfl

theorem find_subject_depth (is_T : K → Bool) (e r : element_node K)
    (h : find_subject is_T e = some r) : r.depth < e.depth ∧ is_T r.cls = true := by
  induction e with
  | plain a k => cases h
  | indirect a k t _ => cases h
  | proxy a k s ih =>
    simp only [find_subject] at h
    cases hs : find_element_impl is_T s with
    | some x =>
      rw [hs] at h
      simp only [Option.some.injEq] at h
      subst h
      obtain ⟨h1, h2⟩ := find_element_impl_depth is_T s x hs
      exact ⟨by simp only [element_node.depth]; omega, h2⟩
    | none =>
      rw [hs] at h
      obtain ⟨h1, h2⟩ := ih h
      exact ⟨by simp only [element_node.depth]; omega, h2⟩

/-- C15. `find_subject<T>(e)` returns the first subject of type `T`, going from
`e` inward through the nested proxies, a subject counting when it is of type
`T` itself or leads to an element of type `T` through a chain of indirect
elements; null if there is none. It searches subjects only: the result is
never `e` itself, and it is null when `e` is not a proxy. `find_element<T>(e)`
searches `e` (and its indirect targets) first and then the subjects. -/
theorem find_subject_outermost (is_T : K → Bool) (e : element_node K) :
    find_subject is_T e
      = e.subjects.findSome? (fun s => s.indirect_chain.find? (fun x => is_T x.cls)) ∧
    (∀ r, find_subject is_T e = some r → is_T r.cls = true ∧ r ≠ e) ∧
    (find_subject is_T e = none ↔
      ∀ s ∈ e.subjects, ∀ x ∈ s.indirect_chain, is_T x.cls = false) ∧
    ((∀ a k s, e ≠ element_node.proxy a k s) → find_subject is_T e = none) ∧
    find_element is_T e
      = (e :: e.subjects).findSome?
          (fun s => s.indirect_chain.find? (fun x => is_T x.cls)) ∧
    (is_T e.cls = true → find_element is_T e = some e ∧ find_subject is_T e ≠ some e) := by
  have h1 := find_subject_eq is_T e
  have hne : ∀ r, find_subject is_T e = some r → is_T r.cls = true ∧ r ≠ e := by
    intro r hr
    obtain ⟨hd, ht⟩ := find_subject_depth is_T e r hr
    refine ⟨ht, ?_⟩
    intro heq
    rw [heq] at hd
    exact Nat.lt_irrefl _ hd
  refine ⟨h1, hne, ?_, ?_, ?_, ?_⟩
  · rw [h1, List.findSome?_eq_none_iff]
    constructor
    · intro h s hs x hx
      have := List.find?_eq_none.1 (h s hs) x hx
      simpa using this
    · intro h s hs
      apply List.find?_eq_none.2
      intro x hx
      simp [h s hs x hx]
  · intro hnp
    cases e with
    | plain a k => rfl
    | indirect a k t => rfl
    | proxy a k s => exact absurd rfl (hnp a k s)
  · simp only [find_element, List.findSome?_cons, find_element_impl_eq, h1]
    cases e.indirect_chain.find? (fun x => is_T x.cls) <;> rfl
  · intro hT
    refine ⟨?_, fun h => (hne e h).2 rfl⟩
    have : find_element_impl is_T e = some e := by
      cases e with
      | plain a k => simp only [element_node.cls] at hT; simp [find_element_impl, hT]
      | proxy a k s => simp only [element_node.cls] at hT; simp [find_element_impl, hT]
      | indirect a k t => simp only [element_node.cls] at hT; simp [find_element_impl, hT]
    simp only [find_element, this]

/-! ## `find_composite` -/

theorem find_composite_proxy_eq (is_composite : K → Bool) (this_ : Option (element_node K))
    (e : element_node K) :
    find_composite_proxy is_composite this_ e
      = e.subjects.find? (composite_other_than is_composite this_) := by
  induction e with
  | plain a k => rfl
  | indirect a k t _ => rfl
  | proxy a k s ih =>
    simp only [find_composite_proxy, element_node.subjects, List.find?_cons, ih]
    cases composite_other_than is_composite this_ s <;> rfl

theorem find_composite_at_eq (is_composite : K → Bool) (this_ : Option (element_node K))
    (e_ : Option (element_node K)) :
    find_composite_at is_composite this_ e_
      = (composite_candidates e_).find? (composite_other_than is_composite this_) := by
  cases e_ with
  | none => rfl
  | some e =>
    simp only [find_composite_at, composite_candidates, List.find?_cons, List.find?_append,
      find_composite_proxy_eq]
    cases composite_other_than is_composite this_ e with
    | true => rfl
    | false =>
      simp only [Bool.false_eq_true, if_false]
      cases e.subjects.find? (composite_other_than is_composite this_) with
      | some c => rfl
      | none =>
        cases e with
        | plain a k => rfl
        | proxy a k s => rfl
        | indirect a k t =>
          simp only [List.find?_cons, List.find?_nil, Option.none_or]
          cases composite_other_than is_composite this_ t <;> rfl

theorem find_composite_loop_eq (is_composite : K → Bool) (this_ : Option (element_node K))
    (p : linked_context V C K α) :
    find_composite_loop is_composite this_ p
      = match p.self_and_ancestors.findSome? (fun q =>
          ((composite_candidates q.data.element).find?
            (composite_other_than is_composite this_)).map fun c => (c, q)) with
        | some (c, q) => (some c, some q)
        | none => (none, none) := by
  induction p with
  | root d =>
    simp only [find_composite_loop, linked_context.self_and_ancestors, List.findSome?_cons,
      List.findSome?_nil, linked_context.data, find_composite_at_eq]
    cases (composite_candidates d.element).find? (composite_other_than is_composite this_)
      <;> rfl
  | child d p ih =>
    simp only [find_composite_loop, linked_context.self_and_ancestors, List.findSome?_cons,
      linked_context.data, find_composite_at_eq, ih]
    cases (composite_candidates d.element).find? (composite_other_than is_composite this_)
      <;> rfl

theorem find_composite_eq (is_composite : K → Bool) (ctx : linked_context V C K α) :
    find_composite is_composite ctx
      = match nearest_other_composite is_composite ctx with
        | some (c, p) => (some c, some p)
        | none => (none, none) := by
  unfold find_composite nearest_other_composite linked_context.ancestors
  cases ctx.parent with
  | none => rfl
  | some p => exact find_composite_loop_eq is_composite ctx.data.element p

/-- C16, as stated, fails: for the context `sub_context()` makes of a context
over a composite, the parent is a strict ancestor whose element is a composite,
but that composite is `ctx.element` itself, which `find_composite` refuses; no
other ancestor is left and both components of the result are null. -/
theorem find_composite_sub_context_counterexample :
    nearest_composite id sample_composite_context.sub_context
      = some (element_node.plain 1 true, sample_composite_context) ∧
    find_composite id sample_composite_context.sub_context = (none, none) := by
  constructor <;> rfl

/-- C16, amended. `find_composite(ctx)` returns `(c, p)` where `p` is the
nearest strict ancestor context of `ctx` whose element is a composite other
than `ctx.element`, or is a proxy with such a composite among its nested
subjects, or is an indirect element whose target is such a composite, and `c`
is the first such composite of `p` (the element, then the subjects from the
outermost inward, then the target); `c` is a composite and never `ctx.element`
itself; both components are null when no ancestor offers such a composite and
both are non-null otherwise. -/
theorem find_composite_innermost (is_composite : K → Bool) (ctx : linked_context V C K α) :
    find_composite is_composite ctx
      = (match nearest_other_composite is_composite ctx with
        | some (c, p) => (some c, some p)
        | none => (none, none)) ∧
    (∀ c p, nearest_other_composite is_composite ctx = some (c, p) →
      p ∈ ctx.ancestors ∧ c ∈ composite_candidates p.data.element) ∧
    (∀ c, (find_composite is_composite ctx).1 = some c →
      is_composite c.cls = true ∧ ctx.data.element.map element_node.addr ≠ some c.addr) ∧
    ((find_composite is_composite ctx).1 = none ↔ (find_composite is_composite ctx).2 = none) ∧
    ((find_composite is_composite ctx).1 = none ↔
      ∀ p ∈ ctx.ancestors, ∀ c ∈ composite_candidates p.data.element,
        composite_other_than is_composite ctx.data.element c = false) := by
  have h := find_composite_eq is_composite ctx
  have hmem : ∀ c p, nearest_other_composite is_composite ctx = some (c, p) →
      p ∈ ctx.ancestors ∧ c ∈ composite_candidates p.data.element ∧
      composite_other_than is_composite ctx.data.element c = true := by
    intro c p hcp
    unfold nearest_other_composite at hcp
    obtain ⟨q, hq, hf⟩ := List.exists_of_findSome?_eq_some hcp
    cases hfind : (composite_candidates q.data.element).find?
        (composite_other_than is_composite ctx.data.element) with
    | none => rw [hfind] at hf; cases hf
    | some x =>
      rw [hfind] at hf
      simp only [Option.map_some', Option.some.injEq, Prod.mk.injEq] at hf
      obtain ⟨rfl, rfl⟩ := hf
      exact ⟨hq, List.mem_of_find?_eq_some hfind, List.find?_some hfind⟩
  refine ⟨h, fun c p hcp => ⟨(hmem c p hcp).1, (hmem c p hcp).2.1⟩, ?_, ?_, ?_⟩
  · intro c hc
    rw [h] at hc
    cases hn : nearest_other_composite is_composite ctx with
    | none => rw [hn] at hc; cases hc
    | some cp =>
      obtain ⟨c2, p⟩ := cp
      rw [hn] at hc
      simp only [Option.some.injEq] at hc
      subst hc
      have := (hmem c2 p hn).2.2
      simp only [composite_other_than, Bool.and_eq_true, decide_eq_true_eq] at this
      exact this
  · rw [h]
    cases nearest_other_composite is_composite ctx with
    | none => simp
    | some cp => obtain ⟨c2, p⟩ := cp; simp
  · rw [h]
    cases hn : nearest_other_composite is_composite ctx with
    | some cp =>
      obtain ⟨c2, p⟩ := cp
      constructor
      · intro hc; cases hc
      · intro hall
        have := hall p (hmem c2 p hn).1 c2 (hmem c2 p hn).2.1
        rw [(hmem c2 p hn).2.2] at this
        cases this
    | none =>
      simp only [true_iff]
      unfold nearest_other_composite at hn
      rw [List.findSome?_eq_none_iff] at hn
      intro p hp c hc
      have h1 := hn p hp
      simp only [Option.map_eq_none'] at h1
      have h2 := List.find?_eq_none.1 h1 c hc
      simpa using h2

/-! ## Presses on the window resizer -/

/-- The handle a press records in a fresh state never names two opposite
edges, and names `left` or `right` (`top` or `bottom`) only for a point strictly
inside the band of that edge. -/
theorem click_handle_exclusive [LinearOrder α] [Add α] [Sub α] [OfNat α 5] (bounds : rect α)
    (pos : point α) :
    ¬ ((click_handle bounds pos resize_handle.empty).left = true ∧
        (click_handle bounds pos resize_handle.empty).right = true) ∧
    ¬ ((click_handle bounds pos resize_handle.empty).top = true ∧
        (click_handle bounds pos resize_handle.empty).bottom = true) ∧
    ((click_handle bounds pos resize_handle.empty).left = true →
      pos.x > bounds.left ∧ pos.x < bounds.left + resize_margin) ∧
    ((click_handle bounds pos resize_handle.empty).right = true →
      pos.x > bounds.right - resize_margin ∧ pos.x < bounds.right) ∧
    ((click_handle bounds pos resize_handle.empty).top = true →
      pos.y > bounds.top ∧ pos.y < bounds.top + resize_margin) ∧
    ((click_handle bounds pos resize_handle.empty).bottom = true →
      pos.y > bounds.bottom - resize_margin ∧ pos.y < bounds.bottom) := by
  unfold click_handle
  by_cases hband : in_resize_band bounds pos = true
  · simp only [hband, if_true]
    by_cases hl : pos.x > bounds.left ∧ pos.x < bounds.left + resize_margin <;>
    by_cases hr : pos.x > bounds.right - resize_margin ∧ pos.x < bounds.right <;>
    by_cases ht : pos.y > bounds.top ∧ pos.y < bounds.top + resize_margin <;>
    by_cases hb : pos.y > bounds.bottom - resize_margin ∧ pos.y < bounds.bottom <;>
    simp only [hl, hr, ht, hb, if_true, if_false, resize_handle.empty] <;>
    simp
  · simp only [hband, if_false, resize_handle.empty]
    simp

/-- A press in the band that lies strictly inside the bounds records a
non-empty handle. -/
theorem click_handle_nonzero [LinearOrder α] [Add α] [Sub α] [OfNat α 5] (bounds : rect α)
    (pos : point α) (hband : in_resize_band bounds pos = true)
    (hx : bounds.left < pos.x ∧ pos.x < bounds.right)
    (hy : bounds.top < pos.y ∧ pos.y < bounds.bottom) :
    (click_handle bounds pos resize_handle.empty).nonzero = true := by
  have hinner : (bounds.inset resize_margin).includes pos = false := by
    simp only [in_resize_band, Bool.and_eq_true, Bool.not_eq_true'] at hband
    exact hband.2
  simp only [rect.includes, rect.inset, Bool.and_eq_false_iff, decide_eq_false_iff_not,
    not_le] at hinner
  unfold click_handle
  simp only [hband, if_true]
  by_cases hl : pos.x > bounds.left ∧ pos.x < bounds.left + resize_margin <;>
  by_cases hr : pos.x > bounds.right - resize_margin ∧ pos.x < bounds.right <;>
  by_cases ht : pos.y > bounds.top ∧ pos.y < bounds.top + resize_margin <;>
  by_cases hb : pos.y > bounds.bottom - resize_margin ∧ pos.y < bounds.bottom <;>
  simp only [hl, hr, ht, hb, if_true, if_false, resize_handle.empty, resize_handle.nonzero] <;>
  try simp
  exfalso
  rcases hinner with ((h | h) | h) | h
  · exact hl ⟨hx.1, h⟩
  · exact hr ⟨h, hx.2⟩
  · exact ht ⟨hy.1, h⟩
  · exact hb ⟨h, hy.2⟩

/-- C11, at the failing input. For the bounds `[0,100] x [0,100]` a press at
`(0, 50)`, on the left edge, lies in the band of the resizer, and `click`
leaves the handle of the fresh state empty: the tests `pos.x > b.left` and
`pos.y > b.top` are strict, and no edge is named. -/
theorem resizer_click_edge_point :
    in_resize_band ({ left := 0, top := 0, right := 100, bottom := 100 } : rect Int)
      { x := 0, y := 50 } = true ∧
    window_resizer_click false
      ({ bounds := { left := 0, top := 0, right := 100, bottom := 100 }, enabled := true } :
        context Int)
      true (true, some resize_handle.empty) none { x := 0, y := 50 }
      = (true, some resize_handle.empty) ∧
    resize_handle.empty.nonzero = false := by
  decide

/-! ## The window mover -/

/-- The valuation of `float` is strictly monotone: the order of `float`s is the
order of their exact values. -/
theorem float_val_strictMono : StrictMono float.val := fun _ _ h => h

theorem clamp_mem [LinearOrder α] (val min max : α) (h : min ≤ max) :
    min ≤ clamp val min max ∧ clamp val min max ≤ max := by
  unfold clamp
  by_cases h1 : val < min
  · simp only [h1, if_true]
    by_cases h2 : min > max
    · exact absurd h (not_le.2 h2)
    · simp only [h2, if_false]
      exact ⟨le_refl _, h⟩
  · simp only [h1, if_false]
    by_cases h2 : val > max
    · simp only [h2, if_true]
      exact ⟨h, le_refl _⟩
    · simp only [h2, if_false]
      exact ⟨not_lt.1 h1, not_lt.1 h2⟩

set_option maxRecDepth 100000 in
/-- C13, the counterexample: a grabbed element `[0,200] x [0,250.6]`, pressed at
`(50, 3.7)`, in a view `[0,640] x [30,280.6]`, which is as tall as the element.
In `float` arithmetic the recorded offsets put the upper clamp bound
`view.bottom - offs_bottom` below the lower one `view.top + offs_top`, and the
`y` forwarded on a drag to `(60, 100)` is below `view.top + offs_top`. -/
theorem mover_clamp_rounding_counterexample :
    (({ left := 0, top := 0, right := 200, bottom := 250.6 } : rect float).height
      ≤ ({ left := 0, top := 30, right := 640, bottom := 280.6 } : rect float).height) ∧
    ((250.6 : float).val - (0 : float).val ≤ (280.6 : float).val - (30 : float).val) ∧
    ({ left := 0, top := 0, right := 200, bottom := 250.6 } : rect float).includes
      { x := 50, y := 3.7 } = true ∧
    ∃ st p,
      (window_mover_click false
        ({ bounds := { left := 0, top := 0, right := 200, bottom := 250.6 },
           enabled := true } : context float)
        (true, some { _offs_top := 0, _offs_bottom := 0 }) none { x := 50, y := 3.7 }).2
        = some st ∧
      window_mover_drag (some st) { left := 0, top := 30, right := 640, bottom := 280.6 }
        { x := 60, y := 100 } = mover_drag.to_tracker p ∧
      (280.6 : float) - st._offs_bottom < 30 + st._offs_top ∧
      p.y < 30 + st._offs_top := by
  refine ⟨by decide, by decide, by decide, _, _, rfl, rfl, by decide, by decide⟩

/-- C13, amended. Mover clamp: on press the window mover records
`offs_top = press.y - bounds.top` and `offs_bottom = bounds.bottom - press.y`,
computed in the arithmetic of the coordinates. On a drag while tracking, with a
view whose left edge is not right of its right edge, the pointer position
passed to the tracker has `x` in `[view.left, view.right]`, and `y` in
`[view.top + offs_top, view.bottom - offs_bottom]` whenever this lower bound,
as computed, does not exceed the upper one. When the four operations that
compute the offsets and the two bounds are exact (`val` gives the exact value
of a coordinate) and the view is at least as tall as the grabbed element, the
lower bound does not exceed the upper one, `y` is in that range, and an element
whose top is `offs_top` above the pointer and whose bottom is `offs_bottom`
below it has its top and bottom edges within the view. -/
theorem mover_clamp [LinearOrder α] [Add α] [Sub α] {G : Type} [LinearOrderedAddCommGroup G]
    (val : α → G) (hval : StrictMono val) (ctx : context α) (press pos : point α)
    (r : Bool) (fresh before : Option (window_mover_tracker_info α))
    (st0 : window_mover_tracker_info α) (view_bounds : rect α)
    (hfresh : fresh = some st0)
    (hview : view_bounds.left ≤ view_bounds.right) :
    ∃ st, (window_mover_click false ctx (r, fresh) before press).2 = some st ∧
      st._offs_top = press.y - ctx.bounds.top ∧
      st._offs_bottom = ctx.bounds.bottom - press.y ∧
      ∃ p, window_mover_drag (some st) view_bounds pos = mover_drag.to_tracker p ∧
        view_bounds.left ≤ p.x ∧ p.x ≤ view_bounds.right ∧
        (view_bounds.top + st._offs_top ≤ view_bounds.bottom - st._offs_bottom →
          view_bounds.top + st._offs_top ≤ p.y ∧
            p.y ≤ view_bounds.bottom - st._offs_bottom) ∧
        (exact_sub val press.y ctx.bounds.top → exact_sub val ctx.bounds.bottom press.y →
          exact_add val view_bounds.top st._offs_top →
          exact_sub val view_bounds.bottom st._offs_bottom →
          val ctx.bounds.bottom - val ctx.bounds.top
            ≤ val view_bounds.bottom - val view_bounds.top →
          view_bounds.top + st._offs_top ≤ p.y ∧
            p.y ≤ view_bounds.bottom - st._offs_bottom ∧
            val view_bounds.top ≤ val p.y - val st._offs_top ∧
            val p.y + val st._offs_bottom ≤ val view_bounds.bottom) := by
  subst hfresh
  refine ⟨{ _offs_top := press.y - ctx.bounds.top, _offs_bottom := ctx.bounds.bottom - press.y },
    rfl, rfl, rfl, _, rfl, ?_⟩
  have hx := clamp_mem pos.x view_bounds.left view_bounds.right hview
  refine ⟨hx.1, hx.2, ?_, ?_⟩
  · intro hrange
    exact clamp_mem pos.y _ _ hrange
  · intro e1 e2 e3 e4 htall
    simp only [exact_add, exact_sub] at e1 e2 e3 e4
    have hrange : view_bounds.top + (press.y - ctx.bounds.top)
        ≤ view_bounds.bottom - (ctx.bounds.bottom - press.y) := by
      rw [← hval.le_iff_le, e3, e4, e1, e2]
      have e : val view_bounds.bottom - (val ctx.bounds.bottom - val press.y)
          - (val view_bounds.top + (val press.y - val ctx.bounds.top))
          = (val view_bounds.bottom - val view_bounds.top)
            - (val ctx.bounds.bottom - val ctx.bounds.top) := by
        abel
      have h3 : 0 ≤ (val view_bounds.bottom - val view_bounds.top)
          - (val ctx.bounds.bottom - val ctx.bounds.top) := sub_nonneg.2 htall
      rw [← e] at h3
      exact sub_nonneg.1 h3
    have hy := clamp_mem pos.y _ _ hrange
    refine ⟨hy.1, hy.2, ?_, ?_⟩
    · have h1 := hval.le_iff_le.2 hy.1
      rw [e3] at h1
      exact le_sub_iff_add_le.2 h1
    · have h2 := hval.le_iff_le.2 hy.2
      rw [e4] at h2
      exact le_sub_iff_add_le.1 h2

set_option maxRecDepth 100000 in
/-- Witness for C13: a title bar `[0,100] x [0,20]` pressed at `(50, 5)` and
dragged to `(500, -30)` in a view `[0,300] x [0,200]`, in `float` arithmetic,
which is exact on these values. -/
theorem mover_clamp_witness :
    (({ left := 0, top := 0, right := 300, bottom := 200 } : rect float).left
      ≤ ({ left := 0, top := 0, right := 300, bottom := 200 } : rect float).right) ∧
    exact_sub float.val (5 : float) 0 ∧ exact_sub float.val (20 : float) 5 ∧
    ((20 : float).val - (0 : float).val ≤ (200 : float).val - (0 : float).val) ∧
    window_mover_drag
      (some ({ _offs_top := 5, _offs_bottom := 15 } : window_mover_tracker_info float))
      { left := 0, top := 0, right := 300, bottom := 200 } { x := 500, y := -30 }
      = mover_drag.to_tracker ({ x := 300, y := 5 } : point float) ∧
    ∃ st, (window_mover_click false
        ({ bounds := { left := 0, top := 0, right := 100, bottom := 20 }, enabled := true } :
          context float)
        (true, some { _offs_top := 0, _offs_bottom := 0 }) none { x := 50, y := 5 }).2
        = some st ∧
      ∃ p, window_mover_drag (some st) { left := 0, top := 0, right := 300, bottom := 200 }
          { x := 500, y := -30 } = mover_drag.to_tracker p ∧
        (0 : float) + st._offs_top ≤ p.y ∧ p.y ≤ (200 : float) - st._offs_bottom ∧
        (0 : float).val ≤ p.y.val - st._offs_top.val ∧
        p.y.val + st._offs_bottom.val ≤ (200 : float).val := by
  refine ⟨by decide, by decide, by decide, by decide, by decide, ?_⟩
  obtain ⟨st, h1, h2, h3, p, hp, -, -, -, hex⟩ :=
    mover_clamp float.val float_val_strictMono
      ({ bounds := { left := 0, top := 0, right := 100, bottom := 20 }, enabled := true } :
        context float)
      { x := 50, y := 5 } { x := 500, y := -30 } true
      (some { _offs_top := 0, _offs_bottom := 0 }) none { _offs_top := 0, _offs_bottom := 0 }
      { left := 0, top := 0, right := 300, bottom := 200 } rfl (by decide)
  refine ⟨st, h1, p, hp, hex ?_ ?_ ?_ ?_ ?_⟩
  · decide
  · decide
  · rw [h2]; decide
  · rw [h3]; decide
  · decide

/-! ## Click-to-front of a child window -/

/-- C17. Child-window click-to-front: for a button-down click on a child window
that is not the last (front) layer of the view, `click` makes the window the
front layer, posts exactly one deferred `view.click(btn)` and returns true,
whatever `floating_element::click` would do (it is not called); for a button-up
click, or when the window already is the front layer, the result is that of
`floating_element::click` on the unchanged view. -/
theorem child_window_click_to_front {B : Type} (down : B → Bool)
    (floating_click : view_state B → B → view_state B × Bool) (this_ : Nat)
    (view : view_state B) (btn : B) :
    (∀ back, down btn = true → view.layers.getLast? = some back → back ≠ this_ →
      ∃ view2, child_window_click down floating_click this_ view btn = some (view2, true) ∧
        view2.layers.getLast? = some this_ ∧
        view2.layers = view.layers.erase this_ ++ [this_] ∧
        view2.posted = view.posted ++ [btn] ∧
        ∀ other : view_state B → B → view_state B × Bool,
          child_window_click down other this_ view btn = some (view2, true)) ∧
    (down btn = false ∨ view.layers.getLast? = some this_ →
      child_window_click down floating_click this_ view btn
        = some (floating_click view btn)) := by
  constructor
  · intro back hd hb hne
    have hc : ∀ f : view_state B → B → view_state B × Bool,
        child_window_click down f this_ view btn
          = some ((view.move_to_front this_).post btn, true) := by
      intro f
      simp only [child_window_click, hd, if_true, hb, ne_eq, hne, not_false_eq_true]
    refine ⟨_, hc floating_click, ?_, rfl, rfl, hc⟩
    simp [view_state.post, view_state.move_to_front]
  · intro h
    rcases h with h | h
    · simp only [child_window_click, h, Bool.false_eq_true, if_false]
    · by_cases hd : down btn = true
      · simp only [child_window_click, hd, if_true, h, ne_eq, not_true_eq_false, if_false]
      · simp only [child_window_click, hd, Bool.false_eq_true, if_false]

/-- Witness for C17: window 7 behind window 9 is clicked. -/
theorem child_window_click_to_front_witness :
    ∃ view2, child_window_click (fun b : Bool => b) (fun v _ => (v, false)) 7
        { layers := [7, 9], posted := [] } true = some (view2, true) ∧
      view2.layers.getLast? = some 7 ∧
      view2.layers = [7, 9].erase 7 ++ [7] ∧
      view2.posted = [] ++ [true] ∧
      ∀ other : view_state Bool → Bool → view_state Bool × Bool,
        child_window_click (fun b : Bool => b) other 7
          { layers := [7, 9], posted := [] } true = some (view2, true) :=
  (child_window_click_to_front (fun b : Bool => b) (fun v _ => (v, false)) 7
    { layers := [7, 9], posted := [] } true).1 9 rfl rfl (by decide)

/-! ## Derived limits of the cell composer -/

/-- C22. There are a vector and a list of distinct, in-range indices that is
not ascending for which `move_indices` relocates an element whose original
index is not in the list: on `[0,1,2,3]`, tagged with the original indices,
with `pos = 0` and indices `[2,0]`, the loop takes out the elements of original
index 0 and 3, and the result is `[3,0,1,2]`; the unmoved elements 1 and 3 have
changed their order. The validity of the indices is not sufficient. -/
theorem move_indices_needs_ascending :
    ∃ (v : List Nat) (pos : Nat) (I : List Nat),
      I.Nodup ∧ (∀ i ∈ I, i < v.length) ∧ ¬ I.Pairwise (fun a b => a < b) ∧
      ∃ s w, move_loop I.reverse v.enum pos [] = some s ∧
        (∃ x ∈ s.2.2, x.1 ∉ I) ∧
        move_indices v.enum pos I = some w ∧
        w.filter (fun p => decide (p.1 ∉ I)) ≠ v.enum.filter (fun p => decide (p.1 ∉ I)) := by
  refine ⟨[0, 1, 2, 3], 0, [2, 0], by decide, by decide, by decide,
    ([(1, 1), (2, 2)], 0, [(0, 0), (3, 3)]), [(3, 3), (0, 0), (1, 1), (2, 2)],
    by decide, ⟨(3, 3), by decide, by decide⟩, by decide, by decide⟩

theorem pick_range_lt (a n pos : Nat) (v : List T) (h1 : a ≤ pos) (h2 : pos ≤ a + n) :
    pick (fun k => decide (k ∉ List.range' a n ∧ k < pos)) v
      = pick (fun k => true && decide (k < a)) v := by
  rw [pick_eq_pickFrom, pick_eq_pickFrom]
  apply pickFrom_congr
  intro k _ _
  have : (k ∉ List.range' a n ∧ k < pos) ↔ k < a := by
    rw [List.mem_range'_1]; omega
  rw [Bool.true_and]
  exact decide_eq_decide.2 this

theorem pick_range_ge (a n pos : Nat) (v : List T) (h1 : a ≤ pos) (h2 : pos ≤ a + n) :
    pick (fun k => decide (k ∉ List.range' a n ∧ pos ≤ k)) v
      = pick (fun k => true && decide (a + n ≤ k)) v := by
  rw [pick_eq_pickFrom, pick_eq_pickFrom]
  apply pickFrom_congr
  intro k _ _
  have : (k ∉ List.range' a n ∧ pos ≤ k) ↔ a + n ≤ k := by
    rw [List.mem_range'_1]; omega
  rw [Bool.true_and]
  exact decide_eq_decide.2 this

theorem pick_range_mem (a n : Nat) (v : List T) :
    pick (fun k => decide (k ∈ List.range' a n)) v
      = pick (fun k => (true && decide (k < a + n)) && decide (a ≤ k)) v := by
  rw [pick_eq_pickFrom, pick_eq_pickFrom]
  apply pickFrom_congr
  intro k _ _
  have : k ∈ List.range' a n ↔ (k < a + n ∧ a ≤ k) := by
    rw [List.mem_range'_1]; omega
  simp [this]

/-- C23. Moving a block onto itself is the identity: for every vector `v`,
every contiguous index range `I = [a .. a+n-1]` valid in `v` and every `pos`
with `a <= pos <= a+n` (one past the last index of the block),
`move_indices(v, pos, I)` returns `v` unchanged. -/
theorem move_indices_block_onto_itself (v : List T) (a n pos : Nat)
    (hv : a + n ≤ v.length) (h1 : a ≤ pos) (h2 : pos ≤ a + n) :
    move_indices v pos (List.range' a n) = some v := by
  have hs : (List.range' a n).Pairwise (fun x y => x < y) := List.pairwise_lt_range' a n
  have hval : ∀ i ∈ List.range' a n, i < v.length := by
    intro i hi
    rw [List.mem_range'_1] at hi
    omega
  rw [move_indices_eq v pos _ hs hval, pick_range_lt a n pos v h1 h2,
    pick_range_ge a n pos v h1 h2, pick_range_mem a n v]
  congr 1
  have e1 : pick (fun k => true && decide (k < a)) v
      = pick (fun k => (true && decide (k < a + n)) && decide (k < a)) v := by
    rw [pick_eq_pickFrom, pick_eq_pickFrom]
    apply pickFrom_congr
    intro k _ _
    have : k < a → k < a + n := by omega
    by_cases hk : k < a <;> simp [hk, this]
  rw [e1, pick_eq_pickFrom, pick_eq_pickFrom, pick_eq_pickFrom,
    pickFrom_split (fun k => true && decide (k < a + n)) a 0 v,
    pickFrom_split (fun _ => true) (a + n) 0 v]
  exact pickFrom_true 0 v (fun _ _ _ => rfl)

/-- Witness for C23: the block `[1, 2]` of a five-element vector moved to
position 2, inside the block. -/
theorem move_indices_block_onto_itself_witness :
    1 + 2 ≤ [10, 11, 12, 13, 14].length ∧ 1 ≤ 2 ∧ 2 ≤ 1 + 2 ∧
    move_indices [10, 11, 12, 13, 14] 2 (List.range' 1 2) = some [10, 11, 12, 13, 14] :=
  ⟨by decide, by decide, by decide,
    move_indices_block_onto_itself [10, 11, 12, 13, 14] 1 2 2 (by decide) (by decide)
      (by decide)⟩

/-! ## The window mover while tracking -/

set_option maxRecDepth 100000 in
/-- C21, the counterexample: a floating element `[10.1, 110.3] x [20, 80]` is
moved by a pointer movement of `0.7` to the right. In `float` arithmetic the
two edges round differently: the width afterwards, as `width()` computes it and
also as the exact distance of the edges, is not the width before. -/
theorem mover_keep_tracking_rounding_counterexample :
    sample_mover_track.current ≠ sample_mover_track.previous ∧
    find_parent (fun k => k) sample_mover_context = some (element_node.plain 1 true) ∧
    ((mover_keep_tracking (fun k => k) sample_mover_context sample_mover_track
        sample_mover_view).floating_bounds 1).width
      ≠ (sample_mover_view.floating_bounds 1).width ∧
    ((mover_keep_tracking (fun k => k) sample_mover_context sample_mover_track
        sample_mover_view).floating_bounds 1).right.val
      - ((mover_keep_tracking (fun k => k) sample_mover_context sample_mover_track
        sample_mover_view).floating_bounds 1).left.val
      ≠ (sample_mover_view.floating_bounds 1).right.val
        - (sample_mover_view.floating_bounds 1).left.val := by
  decide

/-- C21, amended. Mover `keep_tracking` is defensive and minimal: if
`track_info.current` equals `track_info.previous`, or no floating element is
found among the ancestors of the context, it changes no bounds and requests no
refresh; otherwise every edge of the nearest floating ancestor has the
component of `track_info.movement()` added to it in the arithmetic of the
coordinates, no other floating element is touched, and one refresh is
requested. The exact distance between the left and the right edge is unchanged
when the two additions to these edges are exact (`val` gives the exact value of
a coordinate), and likewise between top and bottom. -/
theorem mover_keep_tracking_minimal [DecidableEq α] [Add α] [Sub α] {G : Type}
    [AddCommGroup G] (val : α → G)
    (is_floating : K → Bool) (ctx : linked_context V C K α) (track_info : tracker_info α)
    (view : mover_view α) :
    (track_info.current = track_info.previous ∨ find_parent is_floating ctx = none →
      mover_keep_tracking is_floating ctx track_info view = view) ∧
    (∀ fl, track_info.current ≠ track_info.previous → find_parent is_floating ctx = some fl →
      (mover_keep_tracking is_floating ctx track_info view).floating_bounds fl.addr
        = { left := (view.floating_bounds fl.addr).left
              + (track_info.current.x - track_info.previous.x),
            top := (view.floating_bounds fl.addr).top
              + (track_info.current.y - track_info.previous.y),
            right := (view.floating_bounds fl.addr).right
              + (track_info.current.x - track_info.previous.x),
            bottom := (view.floating_bounds fl.addr).bottom
              + (track_info.current.y - track_info.previous.y) } ∧
      (exact_add val (view.floating_bounds fl.addr).left
          (track_info.current.x - track_info.previous.x) →
        exact_add val (view.floating_bounds fl.addr).right
          (track_info.current.x - track_info.previous.x) →
        val ((mover_keep_tracking is_floating ctx track_info view).floating_bounds
              fl.addr).right
            - val ((mover_keep_tracking is_floating ctx track_info view).floating_bounds
              fl.addr).left
          = val (view.floating_bounds fl.addr).right
            - val (view.floating_bounds fl.addr).left) ∧
      (exact_add val (view.floating_bounds fl.addr).top
          (track_info.current.y - track_info.previous.y) →
        exact_add val (view.floating_bounds fl.addr).bottom
          (track_info.current.y - track_info.previous.y) →
        val ((mover_keep_tracking is_floating ctx track_info view).floating_bounds
              fl.addr).bottom
            - val ((mover_keep_tracking is_floating ctx track_info view).floating_bounds
              fl.addr).top
          = val (view.floating_bounds fl.addr).bottom
            - val (view.floating_bounds fl.addr).top) ∧
      (∀ a, a ≠ fl.addr →
        (mover_keep_tracking is_floating ctx track_info view).floating_bounds a
          = view.floating_bounds a) ∧
      (mover_keep_tracking is_floating ctx track_info view).refreshes
        = view.refreshes + 1 ∧
      first_of_type is_floating
          ((ctx.ancestors.find? fun p =>
            (first_of_type is_floating p.data.element).isSome).bind fun p => p.data.element)
        = some fl) := by
  constructor
  · intro h
    unfold mover_keep_tracking
    rcases h with h | h
    · simp only [h, ne_eq, not_true_eq_false, if_false]
    · by_cases hm : track_info.current ≠ track_info.previous
      · rw [if_pos hm, h]
      · rw [if_neg hm]
  · intro fl hm hfl
    have hstep : mover_keep_tracking is_floating ctx track_info view
        = { floating_bounds :=
              Function.update view.floating_bounds fl.addr
                ((view.floating_bounds fl.addr).move track_info.movement.x
                  track_info.movement.y)
            refreshes := view.refreshes + 1 } := by
      unfold mover_keep_tracking
      rw [if_pos hm, hfl]
    rw [hstep]
    refine ⟨?_, ?_, ?_, ?_, rfl, ?_⟩
    · simp only [Function.update_same, rect.move, tracker_info.movement]
    · intro e1 e2
      simp only [exact_add] at e1 e2
      simp only [Function.update_same, rect.move, tracker_info.movement, e1, e2,
        add_sub_add_right_eq_sub]
    · intro e1 e2
      simp only [exact_add] at e1 e2
      simp only [Function.update_same, rect.move, tracker_info.movement, e1, e2,
        add_sub_add_right_eq_sub]
    · intro a ha
      simp only [Function.update_noteq ha]
    · rw [find_parent_eq] at hfl
      obtain ⟨h3, _⟩ := findSome_of_find (fun p : linked_context V C K α =>
        first_of_type is_floating p.data.element) ctx.ancestors
      cases hfind : ctx.ancestors.find? (fun p =>
          (first_of_type is_floating p.data.element).isSome) with
      | none =>
        have := (findSome_of_find (fun p : linked_context V C K α =>
          first_of_type is_floating p.data.element) ctx.ancestors).2.1 hfind
        rw [this] at hfl
        cases hfl
      | some p =>
        have := h3 p hfind
        rw [hfl] at this
        exact this.symm

set_option maxRecDepth 100000 in
/-- Witness for C21: a floating element `[10, 110] x [20, 80]` moved by `(3, 4)`
in `float` arithmetic, which is exact on these values. -/
theorem mover_keep_tracking_minimal_witness :
    sample_mover_whole_track.current ≠ sample_mover_whole_track.previous ∧
    find_parent (fun k => k) sample_mover_context = some (element_node.plain 1 true) ∧
    (mover_keep_tracking (fun k => k) sample_mover_context sample_mover_whole_track
        sample_mover_whole_view).floating_bounds 1
      = { left := 13, top := 24, right := 113, bottom := 84 } ∧
    (mover_keep_tracking (fun k => k) sample_mover_context sample_mover_whole_track
        sample_mover_whole_view).refreshes = 1 ∧
    ((mover_keep_tracking (fun k => k) sample_mover_context sample_mover_whole_track
        sample_mover_whole_view).floating_bounds 1).right.val
      - ((mover_keep_tracking (fun k => k) sample_mover_context sample_mover_whole_track
        sample_mover_whole_view).floating_bounds 1).left.val
      = (sample_mover_whole_view.floating_bounds 1).right.val
        - (sample_mover_whole_view.floating_bounds 1).left.val :=
  ⟨by decide, by decide, by decide, by decide,
    ((mover_keep_tracking_minimal float.val (fun k => k) sample_mover_context
      sample_mover_whole_track sample_mover_whole_view).2 (element_node.plain 1 true)
      (by decide) (by decide)).2.1 (by decide) (by decide)⟩

/-! ## The context chain invariant -/

theorem produced_chain_enabled (enabled_of : element_node K → Bool)
    (c : linked_context V C K α) (hc : linked_context.produced enabled_of c) :
    c.chain_enabled := by
  induction hc with
  | root view_ canvas_ element_ bounds_ => exact True.intro
  | child parent_ element_ bounds_ _ ih =>
    refine ⟨?_, ih⟩
    intro h
    have h1 : (parent_.data.enabled && element_enabled enabled_of element_) = true := h
    rw [Bool.and_eq_true] at h1
    exact h1.1
  | rebound rhs bounds_ _ ih =>
    cases rhs with
    | root d => exact True.intro
    | child d p => exact ih
  | sub_context c _ ih => exact ⟨fun h => h, ih⟩

theorem chain_enabled_ancestors (c : linked_context V C K α) (hc : c.chain_enabled)
    (he : c.data.enabled = true) : ∀ p ∈ c.self_and_ancestors, p.data.enabled = true := by
  induction c with
  | root d =>
    intro p hp
    simp only [linked_context.self_and_ancestors, List.mem_singleton] at hp
    rw [hp]; exact he
  | child d q ih =>
    intro p hp
    simp only [linked_context.self_and_ancestors, List.mem_cons] at hp
    rcases hp with rfl | hp
    · exact he
    · exact ih hc.2 (hc.1 he) p hp

/-- C27. Context chain invariant: for every context produced by the
constructors of `context` or by `sub_context()`, if it is enabled and has a
parent then its parent is enabled, and so is every ancestor (a disabled
ancestor disables every descendant context); the bounds-replacing constructor
changes only the bounds, and `sub_context()` changes only the parent link,
which becomes the original context. -/
theorem context_chain_invariant (enabled_of : element_node K → Bool)
    (c : linked_context V C K α) (hc : linked_context.produced enabled_of c) :
    (∀ p, c.parent = some p → c.data.enabled = true → p.data.enabled = true) ∧
    (c.data.enabled = true → ∀ p ∈ c.ancestors, p.data.enabled = true) ∧
    (∀ p ∈ c.ancestors, p.data.enabled = false → c.data.enabled = false) ∧
    (∀ bounds_ : rect α,
      (c.rebound bounds_).data = { c.data with bounds := bounds_ } ∧
      (c.rebound bounds_).parent = c.parent) ∧
    (c.sub_context.data = c.data ∧ c.sub_context.parent = some c) := by
  have hchain := produced_chain_enabled enabled_of c hc
  have hanc : c.data.enabled = true → ∀ p ∈ c.ancestors, p.data.enabled = true := by
    intro he p hp
    cases c with
    | root d => simp [linked_context.ancestors, linked_context.parent] at hp
    | child d q =>
      have hp1 : p ∈ q.self_and_ancestors := hp
      exact chain_enabled_ancestors q hchain.2 (hchain.1 he) p hp1
  refine ⟨?_, hanc, ?_, ?_, rfl, rfl⟩
  · intro p hp he
    cases c with
    | root d => cases hp
    | child d q =>
      simp only [linked_context.parent, Option.some.injEq] at hp
      subst hp
      exact hchain.1 he
  · intro p hp hdis
    by_contra hne
    have he : c.data.enabled = true := by
      cases h : c.data.enabled with
      | true => rfl
      | false => exact absurd h hne
    rw [hanc he p hp] at hdis
    cases hdis
  · intro bounds_
    cases c with
    | root d => exact ⟨rfl, rfl⟩
    | child d q => exact ⟨rfl, rfl⟩

/-- Witness for C27: the sub-context of a child of the sample composite
context. -/
theorem context_chain_invariant_witness :
    linked_context.produced (fun _ : element_node Bool => true)
      (linked_context.make_child (fun _ => true) sample_composite_context
        (some (element_node.plain 2 false))
        { left := 0, top := 0, right := 5, bottom := 5 }).sub_context ∧
    ((linked_context.make_child (fun _ : element_node Bool => true) sample_composite_context
        (some (element_node.plain 2 false))
        { left := 0, top := 0, right := 5, bottom := 5 }).sub_context.data.enabled = true →
      ∀ p ∈ (linked_context.make_child (fun _ : element_node Bool => true)
          sample_composite_context (some (element_node.plain 2 false))
          { left := 0, top := 0, right := 5, bottom := 5 }).sub_context.ancestors,
        p.data.enabled = true) :=
  ⟨linked_context.produced.sub_context _
      (linked_context.produced.child _ _ _ (linked_context.produced.root _ _ _ _)),
    (context_chain_invariant (fun _ : element_node Bool => true) _
      (linked_context.produced.sub_context _
        (linked_context.produced.child _ _ _ (linked_context.produced.root _ _ _ _)))).2.1⟩

/-! ## A subject that `find_subject` does not reach -/

/-- C28. There is an element chain, a proxy whose subject is an indirect
element whose target is a proxy whose subject is of type `T`, for which
`find_subject<T>` returns null although an element of type `T` is reachable
through subjects and targets: the indirect subject is tested with its target's
own type only, and being no proxy it ends the search. `find_subject<T>` on the
inner proxy alone finds the element. -/
theorem find_subject_misses_behind_indirect :
    ∃ e : element_node Bool,
      (∃ a1 a2 a3 a4 k1 k2 k3 k4, k4 = true ∧
        e = element_node.proxy a1 k1 (element_node.indirect a2 k2
          (element_node.proxy a3 k3 (element_node.plain a4 k4)))) ∧
      find_subject id e = none ∧
      find_element id e = none ∧
      (∃ x ∈ e.reachable, id x.cls = true) ∧
      e.subjects = [element_node.indirect 2 false
        (element_node.proxy 3 false (element_node.plain 4 true))] ∧
      find_subject id (element_node.proxy 3 false (element_node.plain 4 true))
        = some (element_node.plain 4 true) := by
  refine ⟨sample_hidden_subject, ⟨1, 2, 3, 4, false, false, false, true, rfl, rfl⟩,
    by decide, by decide, ⟨element_node.plain 4 true, by decide, rfl⟩, by decide, by decide⟩

/-! ## Margins of the window resizer -/

set_option maxRecDepth 100000 in
/-- C29, the counterexample: a subject at least `15.3` wide in the bounds
`[12.2, 37.5] x [0, 100]`. In `float` arithmetic the width of the bounds is at
least the resizer's minimum width (also as exact values: `37.5f - 12.2f` is at
least `15.3f + 10`), yet the width of the bounds handed to the subject is below
the subject's own minimum. -/
theorem resizer_margins_rounding_counterexample :
    (resize_margin : float) * 2 = 10 ∧
    (window_resizer_limits 1000000 sample_subject_limits).min.x
      ≤ ({ left := 12.2, top := 0, right := 37.5, bottom := 100 } : rect float).width ∧
    (15.3 : float).val + (10 : float).val ≤ (37.5 : float).val - (12.2 : float).val ∧
    (window_resizer_prepare_subject
        ({ left := 12.2, top := 0, right := 37.5, bottom := 100 } : rect float)).width
      < sample_subject_limits.min.x := by
  decide

/-- C29, amended. Resizer margins: with twice the resize margin being 10,
`window_resizer_element::limits` is the subject's limits with 10 added to min
and max on both axes in the arithmetic of the coordinates, max capped at
`full_extent`, and `prepare_subject` moves every edge of the bounds inward by
the margin. When the additions and subtractions involved are exact (`val`
gives the exact value of a coordinate), bounds whose width is at least the
resizer's minimum width give the subject bounds whose width is at least the
subject's own minimum, and likewise for the height. -/
theorem resizer_margins_consistent [LinearOrder α] [Add α] [Sub α] [Mul α] [OfNat α 5]
    [OfNat α 2] [OfNat α 10] {G : Type} [LinearOrderedAddCommGroup G] (val : α → G)
    (hval : StrictMono val) (full_extent : α) (subject_limits : view_limits α)
    (bounds : rect α) (hten : (resize_margin : α) * 2 = 10) :
    (window_resizer_limits full_extent subject_limits).min.x = subject_limits.min.x + 10 ∧
    (window_resizer_limits full_extent subject_limits).min.y = subject_limits.min.y + 10 ∧
    (window_resizer_limits full_extent subject_limits).max.x
      = min (subject_limits.max.x + 10) full_extent ∧
    (window_resizer_limits full_extent subject_limits).max.y
      = min (subject_limits.max.y + 10) full_extent ∧
    window_resizer_prepare_subject bounds
      = { left := bounds.left + 5, top := bounds.top + 5, right := bounds.right - 5,
          bottom := bounds.bottom - 5 } ∧
    (val (10 : α) = val (5 : α) + val (5 : α) →
      exact_add val subject_limits.min.x 10 →
      exact_add val bounds.left 5 → exact_sub val bounds.right 5 →
      exact_sub val bounds.right bounds.left →
      exact_sub val (bounds.right - 5) (bounds.left + 5) →
      (window_resizer_limits full_extent subject_limits).min.x ≤ bounds.width →
      subject_limits.min.x ≤ (window_resizer_prepare_subject bounds).width) ∧
    (val (10 : α) = val (5 : α) + val (5 : α) →
      exact_add val subject_limits.min.y 10 →
      exact_add val bounds.top 5 → exact_sub val bounds.bottom 5 →
      exact_sub val bounds.bottom bounds.top →
      exact_sub val (bounds.bottom - 5) (bounds.top + 5) →
      (window_resizer_limits full_extent subject_limits).min.y ≤ bounds.height →
      subject_limits.min.y ≤ (window_resizer_prepare_subject bounds).height) := by
  have hcap : ∀ v : α, clamp_max v full_extent = min v full_extent := by
    intro v
    unfold clamp_max
    by_cases h : v > full_extent
    · rw [if_pos h, min_eq_right (le_of_lt h)]
    · rw [if_neg h, min_eq_left (not_lt.1 h)]
  have hminx : (window_resizer_limits full_extent subject_limits).min.x
      = subject_limits.min.x + 10 := by
    simp only [window_resizer_limits, hten]
  have hminy : (window_resizer_limits full_extent subject_limits).min.y
      = subject_limits.min.y + 10 := by
    simp only [window_resizer_limits, hten]
  refine ⟨hminx, hminy, ?_, ?_, rfl, ?_, ?_⟩
  · simp only [window_resizer_limits, hten, hcap]
  · simp only [window_resizer_limits, hten, hcap]
  · intro e10 e1 e2 e3 e4 e5 h
    rw [hminx] at h
    simp only [exact_add, exact_sub] at e1 e2 e3 e4 e5
    have h' := hval.le_iff_le.2 h
    simp only [rect.width] at h'
    rw [e1, e4, e10] at h'
    rw [← hval.le_iff_le]
    simp only [rect.width, window_resizer_prepare_subject, resize_margin]
    rw [e5, e3, e2]
    have e : val bounds.right - val (5 : α) - (val bounds.left + val (5 : α))
        = val bounds.right - val bounds.left - (val (5 : α) + val (5 : α)) := by abel
    rw [e]
    exact le_sub_iff_add_le.2 h'
  · intro e10 e1 e2 e3 e4 e5 h
    rw [hminy] at h
    simp only [exact_add, exact_sub] at e1 e2 e3 e4 e5
    have h' := hval.le_iff_le.2 h
    simp only [rect.height] at h'
    rw [e1, e4, e10] at h'
    rw [← hval.le_iff_le]
    simp only [rect.height, window_resizer_prepare_subject, resize_margin]
    rw [e5, e3, e2]
    have e : val bounds.bottom - val (5 : α) - (val bounds.top + val (5 : α))
        = val bounds.bottom - val bounds.top - (val (5 : α) + val (5 : α)) := by abel
    rw [e]
    exact le_sub_iff_add_le.2 h'

set_option maxRecDepth 100000 in
/-- Witness for C29: a subject at least `50 x 20` in the bounds
`[0, 60] x [0, 30]`, in `float` arithmetic, which is exact on these values. -/
theorem resizer_margins_consistent_witness :
    StrictMono float.val ∧ (resize_margin : float) * 2 = 10 ∧
    (window_resizer_limits 1000000 sample_whole_subject_limits).min.x
      ≤ ({ left := 0, top := 0, right := 60, bottom := 30 } : rect float).width ∧
    sample_whole_subject_limits.min.x
      ≤ (window_resizer_prepare_subject
          ({ left := 0, top := 0, right := 60, bottom := 30 } : rect float)).width ∧
    sample_whole_subject_limits.min.y
      ≤ (window_resizer_prepare_subject
          ({ left := 0, top := 0, right := 60, bottom := 30 } : rect float)).height :=
  ⟨float_val_strictMono, by decide, by decide,
    (resizer_margins_consistent float.val float_val_strictMono 1000000
      sample_whole_subject_limits { left := 0, top := 0, right := 60, bottom := 30 }
      (by decide)).2.2.2.2.2.1 (by decide) (by decide) (by decide) (by decide) (by decide)
      (by decide) (by decide),
    (resizer_margins_consistent float.val float_val_strictMono 1000000
      sample_whole_subject_limits { left := 0, top := 0, right := 60, bottom := 30 }
      (by decide)).2.2.2.2.2.2 (by decide) (by decide) (by decide) (by decide) (by decide)
      (by decide) (by decide)⟩

/-! ## The grids -/

theorem length_vgrid_layout_loop [Add α] [Sub α] [Mul α] (get_grid_coord : Nat → α)
    (left right total_height : α) (spans : List Nat) (gi : Nat) (prev : α) :
    (vgrid_layout_loop get_grid_coord left right total_height spans gi prev).length
      = spans.length := by
  induction spans generalizing gi prev with
  | nil => rfl
  | cons s rest ih => simp only [vgrid_layout_loop, List.length_cons, ih]

theorem length_hgrid_layout_loop [Add α] [Sub α] [Mul α] (get_grid_coord : Nat → α)
    (top bottom total_width : α) (spans : List Nat) (gi : Nat) (prev : α) :
    (hgrid_layout_loop get_grid_coord top bottom total_width spans gi prev).length
      = spans.length := by
  induction spans generalizing gi prev with
  | nil => rfl
  | cons s rest ih => simp only [hgrid_layout_loop, List.length_cons, ih]

/-- Right after `layout` the positions have one entry more than there are
children, and `bounds_of` reads within range for every index. -/
theorem grid_bounds_of_after_layout [Zero α] [Add α] [Sub α] [Mul α] (g : grid_element α)
    (bounds ctx_bounds : rect α) (index : Nat) :
    (vgrid_layout g bounds).1._positions.length = (vgrid_layout g bounds).1.size + 1 ∧
    (hgrid_layout g bounds).1._positions.length = (hgrid_layout g bounds).1.size + 1 ∧
    (∃ r, vgrid_bounds_of (vgrid_layout g bounds).1 ctx_bounds index = some r) ∧
    (∃ r, hgrid_bounds_of (hgrid_layout g bounds).1 ctx_bounds index = some r) := by
  have hv : (vgrid_layout g bounds).1._positions.length = (vgrid_layout g bounds).1.size + 1 := by
    simp [vgrid_layout, grid_element.size, length_vgrid_layout_loop]
  have hh : (hgrid_layout g bounds).1._positions.length = (hgrid_layout g bounds).1.size + 1 := by
    simp [hgrid_layout, grid_element.size, length_hgrid_layout_loop]
  refine ⟨hv, hh, ?_, ?_⟩
  · unfold vgrid_bounds_of
    split
    · exact ⟨_, rfl⟩
    · rename_i hnot
      have h1 : index < (vgrid_layout g bounds).1._positions.length := by omega
      have h2 : index + 1 < (vgrid_layout g bounds).1._positions.length := by omega
      rw [List.getElem?_eq_getElem h1, List.getElem?_eq_getElem h2]
      exact ⟨_, rfl⟩
  · unfold hgrid_bounds_of
    split
    · exact ⟨_, rfl⟩
    · rename_i hnot
      have h1 : index < (hgrid_layout g bounds).1._positions.length := by omega
      have h2 : index + 1 < (hgrid_layout g bounds).1._positions.length := by omega
      rw [List.getElem?_eq_getElem h1, List.getElem?_eq_getElem h2]
      exact ⟨_, rfl⟩

/-- C24, at the failing input. A grid of one child is laid out, which leaves two
positions; a second child is added; `bounds_of` for index 1 passes the guard
`index >= _positions.size() || index >= size()`, as `1 < 2` twice, and reads
`_positions[2]`, one past the end. The same for the horizontal grid. -/
theorem grid_bounds_of_after_push_back :
    (vgrid_layout sample_grid sample_grid_bounds).1._positions = [0, 100] ∧
    ¬ (1 ≥ ({ (vgrid_layout sample_grid sample_grid_bounds).1 with
          spans := [1, 1] } : grid_element Int)._positions.length ∨
        1 ≥ ({ (vgrid_layout sample_grid sample_grid_bounds).1 with
          spans := [1, 1] } : grid_element Int).size) ∧
    vgrid_bounds_of
        { (vgrid_layout sample_grid sample_grid_bounds).1 with spans := [1, 1] }
        sample_grid_bounds 1 = none ∧
    hgrid_bounds_of
        { (hgrid_layout sample_grid sample_grid_bounds).1 with spans := [1, 1] }
        sample_grid_bounds 1 = none := by
  decide

/-- The rectangle `layout` hands to the first child of a vertical grid starts
at `0`, the one `bounds_of` returns for it starts at the top of the bounds:
they differ for all bounds that do not start at `0`. -/
theorem vgrid_layout_first_child [Ring α] (g : grid_element α) (bounds : rect α)
    (span : Nat) (rest : List Nat) (hg : g.spans = span :: rest) :
    ((vgrid_layout g bounds).2.head?).map rect.top = some 0 ∧
    (vgrid_bounds_of (vgrid_layout g bounds).1 bounds 0).map rect.top = some bounds.top := by
  constructor
  · simp [vgrid_layout, hg, vgrid_layout_loop]
  · have hsize : (vgrid_layout g bounds).1.size = rest.length + 1 := by
      simp [vgrid_layout, grid_element.size, hg]
    have hP : ∃ tl x, (vgrid_layout g bounds).1._positions = 0 :: x :: tl := by
      simp only [vgrid_layout, hg, vgrid_layout_loop, List.map_cons, List.cons_append]
      cases (vgrid_layout_loop g.get_grid_coord bounds.left bounds.right bounds.height rest
        (((0 + span_minus_one span) % 2 ^ 64 + 1) % 2 ^ 64)
        (g.get_grid_coord ((0 + span_minus_one span) % 2 ^ 64) * bounds.height)).map
        Prod.fst with
      | nil => exact ⟨_, _, rfl⟩
      | cons y ys => exact ⟨_, _, rfl⟩
    obtain ⟨tl, x, hP⟩ := hP
    unfold vgrid_bounds_of
    rw [hP, hsize]
    simp

/-- C25, at the failing input. A vertical grid of one child is laid out in the
bounds `[20,120] x [10,110]`: the rectangle handed to the child is
`[20,120] x [0,100]`, while `bounds_of` returns `[20,120] x [10,110]`; `layout`
does not add the top of the bounds, `bounds_of` does. The horizontal grid hands
out `[0,100] x [10,110]` and omits the left of the bounds in the same way. -/
theorem grid_layout_omits_offset :
    (vgrid_layout sample_grid sample_grid_bounds).2
      = [{ left := 20, top := 0, right := 120, bottom := 100 }] ∧
    vgrid_bounds_of (vgrid_layout sample_grid sample_grid_bounds).1 sample_grid_bounds 0
      = some { left := 20, top := 10, right := 120, bottom := 110 } ∧
    (hgrid_layout sample_grid sample_grid_bounds).2
      = [{ left := 0, top := 10, right := 100, bottom := 110 }] ∧
    hgrid_bounds_of (hgrid_layout sample_grid sample_grid_bounds).1 sample_grid_bounds 0
      = some { left := 20, top := 10, right := 120, bottom := 110 } := by
  decide

/-! ## Theme overrides -/

/-- Without a move, destroying the override restores the theme. -/
theorem scoped_theme_override_restores {M T : Type} [DecidableEq M] (thm : M → T) (pmem : M)
    (val : T) :
    scoped_theme_override.destroy (scoped_theme_override.make thm pmem val).1
      (scoped_theme_override.make thm pmem val).2 = thm := by
  simp [scoped_theme_override.destroy, scoped_theme_override.make]

/-- After a move the new override has saved the overriding value, not the
original one: destroying both overrides leaves the overriding value in the
theme. -/
theorem scoped_theme_override_move_keeps_value {M T : Type} [DecidableEq M] (thm : M → T)
    (pmem : M) (val : T) :
    ∃ moved rhs,
      scoped_theme_override.move_from (scoped_theme_override.make thm pmem val).1
        (scoped_theme_override.make thm pmem val).2 = some (moved, rhs) ∧
      moved._save = val ∧
      scoped_theme_override.destroy
        (scoped_theme_override.destroy (scoped_theme_override.make thm pmem val).1 rhs)
        moved pmem = val := by
  refine ⟨_, _, rfl, ?_, ?_⟩
  · simp [scoped_theme_override.make]
  · simp [scoped_theme_override.destroy, scoped_theme_override.make]

/-- C26, at the failing input. The member of the sample theme is 1; an override
sets it to 2; a second override is move-constructed from the first, and saves
the current value 2; both are destroyed, in either order: the member is 2, not
the 1 it was before the override was created. -/
theorem scoped_theme_override_move_loses_value :
    sample_theme () = 1 ∧
    (scoped_theme_override.make sample_theme () 2).1 () = 2 ∧
    scoped_theme_override.move_from (scoped_theme_override.make sample_theme () 2).1
        (scoped_theme_override.make sample_theme () 2).2
      = some ({ _pmem := some (), _save := 2 }, { _pmem := none, _save := 1 }) ∧
    scoped_theme_override.destroy
        (scoped_theme_override.destroy (scoped_theme_override.make sample_theme () 2).1
          { _pmem := none, _save := 1 })
        { _pmem := some (), _save := 2 } () = 2 ∧
    scoped_theme_override.destroy
        (scoped_theme_override.destroy (scoped_theme_override.make sample_theme () 2).1
          { _pmem := some (), _save := 2 })
        { _pmem := none, _save := 1 } () = 2 := by
  decide

/-! ## Key repeat -/

theorem key_held_append {Kc : Type} [DecidableEq Kc] (key : Kc) (events : List (key_info Kc))
    (e : key_info Kc) :
    key_held key (events ++ [e])
      = if e.key = key then decide (e.action = key_action.press) else key_held key events := by
  unfold key_held
  rw [List.filter_append]
  by_cases h : e.key = key
  · simp [h, List.filter_cons, List.getLast?_append]
  · simp [h, List.filter_cons]

/-- After a sequence of presses and releases the key map holds `press` for the
keys that are held and has no entry for the others. -/
theorem key_map_after_eq {Kc : Type} [DecidableEq Kc] (initial : key_action)
    (events : List (key_info Kc))
    (hev : ∀ e ∈ events, e.action = key_action.press ∨ e.action = key_action.release)
    (key : Kc) :
    key_map_after initial events key
      = if key_held key events then some key_action.press else none := by
  induction events using List.reverseRecOn with
  | nil => rfl
  | append_singleton es e ih =>
    have hes : ∀ x ∈ es, x.action = key_action.press ∨ x.action = key_action.release :=
      fun x hx => hev x (List.mem_append_left _ hx)
    have he := hev e (List.mem_append_right _ (List.mem_singleton.2 rfl))
    have ih1 := ih hes
    have hstep : key_map_after initial (es ++ [e])
        = (handle_key initial (key_map_after initial es) e).1 := by
      simp [key_map_after, List.foldl_append]
    rw [hstep, key_held_append]
    rcases he with hp | hr
    · have hne : e.action ≠ key_action.release := by rw [hp]; decide
      by_cases hk : e.key = key
      · subst hk
        simp [handle_key, hne, hp]
      · have hk2 : key ≠ e.key := fun h => hk h.symm
        simp only [handle_key, hne, if_false, Function.update_noteq hk2, hk]
        exact ih1
    · by_cases hk : e.key = key
      · subst hk
        simp [handle_key, hr]
      · have hk2 : key ≠ e.key := fun h => hk h.symm
        simp only [handle_key, hr, if_true, Function.update_noteq hk2, hk, if_false]
        exact ih1

/-- C30. GTK key-repeat state machine: after every sequence of press and
release events passed to `handle_key`, starting from the empty key map, a press
of key `k` is delivered to the view with action `repeat` if `k` has been
pressed since its last release (or since the start), and with action `press`
otherwise; a release removes `k` from the key map, leaves the other keys as
they are, and is not delivered to the view. The value-initialised `key_action`
is taken not to be `press`. -/
theorem key_repeat_state_machine {Kc : Type} [DecidableEq Kc] (initial : key_action)
    (events : List (key_info Kc)) (e : key_info Kc)
    (hinit : initial ≠ key_action.press)
    (hev : ∀ x ∈ events, x.action = key_action.press ∨ x.action = key_action.release) :
    (e.action = key_action.press →
      (handle_key initial (key_map_after initial events) e).2
        = some { e with action := if key_held e.key events then key_action.repeat_
                                  else key_action.press } ∧
      (handle_key initial (key_map_after initial events) e).1 e.key
        = some key_action.press) ∧
    (e.action = key_action.release →
      (handle_key initial (key_map_after initial events) e).2 = none ∧
      (handle_key initial (key_map_after initial events) e).1 e.key = none ∧
      ∀ key, key ≠ e.key →
        (handle_key initial (key_map_after initial events) e).1 key
          = key_map_after initial events key) := by
  have hmap := key_map_after_eq initial events hev e.key
  constructor
  · intro hp
    have hne : e.action ≠ key_action.release := by rw [hp]; decide
    constructor
    · simp only [handle_key, hne, if_false, hp, hmap, decide_True, Bool.true_and]
      cases hh : key_held e.key events with
      | true =>
        simp only [if_true, Option.getD_some, decide_True]
        cases e
        simp_all
      | false =>
        simp only [Bool.false_eq_true, if_false, Option.getD_none, hinit, decide_False]
        cases e
        simp_all
    · simp [handle_key, hne, hp]
  · intro hr
    refine ⟨?_, ?_, ?_⟩
    · simp [handle_key, hr]
    · simp [handle_key, hr]
    · intro key hk
      simp [handle_key, hr, Function.update_noteq hk]

/-- Witness for C30: key 7 is pressed, key 8 is pressed and released, and key 7
is pressed again; the last press is delivered as a repeat. -/
theorem key_repeat_state_machine_witness :
    key_action.release ≠ key_action.press ∧
    (∀ x ∈ ([{ key := 7, action := key_action.press, modifiers := 0 },
        { key := 8, action := key_action.press, modifiers := 0 },
        { key := 8, action := key_action.release, modifiers := 0 }] : List (key_info Nat)),
      x.action = key_action.press ∨ x.action = key_action.release) ∧
    (handle_key key_action.release
        (key_map_after key_action.release
          ([{ key := 7, action := key_action.press, modifiers := 0 },
            { key := 8, action := key_action.press, modifiers := 0 },
            { key := 8, action := key_action.release, modifiers := 0 }] :
            List (key_info Nat)))
        { key := 7, action := key_action.press, modifiers := 0 }).2
      = some { key := 7, action := key_action.repeat_, modifiers := 0 } :=
  ⟨by decide, by decide,
    ((key_repeat_state_machine key_action.release
      ([{ key := 7, action := key_action.press, modifiers := 0 },
        { key := 8, action := key_action.press, modifiers := 0 },
        { key := 8, action := key_action.release, modifiers := 0 }] : List (key_info Nat))
      { key := 7, action := key_action.press, modifiers := 0 } (by decide) (by decide)).1
      rfl).1⟩

end cycfi.elements
